import Mathlib

/-!
Verification development for the data-x disk-usage analyzer.

This file contains a shallow embedding, in Lean 4, of the parts of the
data-x source that the specification claims talk about:

* the tree data model and `FileTree::calculate_sizes` (src/src/tree/node.rs),
* `SshTarget::parse` (src/src/remote.rs),
* extension extraction in `FileNode::new` (src/src/tree/node.rs) and in the
  Tauri remote scanner `build_tree_from_files`
  (src/src-tauri/src/ssh/remote_scan.rs),
* the local scanner `Scanner::scan` (src/src/scanner/walker.rs),
* the remote `find`-based scanner `RemoteScanner::scan_with_find`
  (src/src/remote.rs),
* the duplicate detector `find_duplicates`
  (src/src-tauri/src/duplicates/detector.rs),
* the two treemap layouts (src/src/ui/treemap.rs and
  src/src/gui/treemap_panel.rs),
* the scan cache save/load (src/src/cache.rs).

Modelling conventions:

* Rust strings are modelled as `List Char`; `u64` counters as `Nat`
  (no scan in this code base can overflow 64-bit counters on inputs of
  interest, and additions in the source use unsaturated `+` except where
  noted); file contents as `List Nat` (byte lists).
* SHA-256 digests are modelled by the hashed bytes themselves, i.e. the
  digest function is modelled as injective on contents (collision-free).
* `HashMap` accumulation is modelled by association lists in first-insertion
  key order; every property proved below is insensitive to bucket order.
* Rust's stable `sort_by` is modelled by `List.insertionSort`, which is
  stable; a stable sort is determined up to equality by the comparison, so
  this is behaviour-preserving.
-/

/-- Characters of a Rust string. -/
abbrev CStr := List Char

/-- A filesystem path, as its list of components (the Rust `PathBuf`
components; an absolute path starts with a root component). -/
abbrev RPath := List CStr

/-- Lowercase a string character by character (models `str::to_lowercase`
on the ASCII range used by the claims). -/
def toLowerStr (s : CStr) : CStr := s.map Char.toLower

/-- Split a string at the last occurrence of `c`, returning the parts
before and after it (models splitting a file name at its last dot). -/
def rsplitOnceChar (c : Char) : CStr → Option (CStr × CStr)
  | [] => none
  | a :: rest =>
    match rsplitOnceChar c rest with
    | some (b, aft) => some (a :: b, aft)
    | none => if a = c then some ([], rest) else none

/-- Rust `Path::extension` semantics on a file name: `None` when the name is
`".."`, contains no dot, or has its only dot at the start (a dotfile);
otherwise the tail after the last dot. -/
def rustExtension (name : CStr) : Option CStr :=
  if name = ['.', '.'] then none
  else
    match rsplitOnceChar '.' name with
    | none => none
    | some (before, aft) => if before = [] then none else some aft

/-- Does the string start with the given character? (Models
`str::starts_with(char)`.) -/
def startsWithChar (c : Char) : CStr → Bool
  | [] => false
  | a :: _ => a = c

/-- File name of a path: its last component (models `Path::file_name`;
the `unwrap_or_else` fallback for component-less paths is collapsed to the
empty string, such paths do not occur in the claims). -/
def fileNameOf (p : RPath) : CStr := (p.getLast?).getD []

/-- The node record of the tree data model (src/src/tree/node.rs,
`struct FileNode`). -/
structure FileNode where
  name : CStr
  path : RPath
  size : Nat
  isDir : Bool
  fileCount : Nat
  modified : Option Int
  isHidden : Bool
  isSymlink : Bool
  symlinkTarget : Option RPath
  extension : Option CStr
  excluded : Bool
  nameLower : CStr
deriving DecidableEq, Repr

/-- Constructor `FileNode::new(path, is_dir)` (src/src/tree/node.rs lines
30-58): extension is `None` for directories and otherwise the lowercased
`Path::extension`; `is_hidden` iff the name starts with a dot; files start
with `file_count` 1 and directories with 0; size starts at 0. -/
def FileNode.new (path : RPath) (isDir : Bool) : FileNode :=
  let name := fileNameOf path
  { name := name
    path := path
    size := 0
    isDir := isDir
    fileCount := if isDir then 0 else 1
    modified := none
    isHidden := startsWithChar '.' name
    isSymlink := false
    symlinkTarget := none
    extension := if isDir then none else (rustExtension name).map toLowerStr
    excluded := false
    nameLower := toLowerStr name }

/-- Builder `FileNode::with_modified`. -/
def FileNode.withModified (n : FileNode) (m : Int) : FileNode :=
  { n with modified := some m }

/-- Builder `FileNode::with_symlink`. -/
def FileNode.withSymlink (n : FileNode) (target : RPath) : FileNode :=
  { n with isSymlink := true, symlinkTarget := some target }

/-- An acyclic `FileTree` rooted at a node, i.e. the arena-backed indextree
restricted to its acyclic instances reachable from the root, represented as
a rose tree with ordered children (children order = indextree append
order). -/
inductive FTree where
  | node (data : FileNode) (children : List FTree)
deriving Repr

/-- Data of the root node of a subtree. -/
def FTree.data : FTree → FileNode
  | .node d _ => d

/-- Children of the root node of a subtree. -/
def FTree.children : FTree → List FTree
  | .node _ cs => cs

mutual

/-- Structural equality test for trees (used to obtain decidable
equality on the nested inductive). -/
def FTree.beq : FTree → FTree → Bool
  | .node d cs, .node d' cs' => d = d' && FTree.beqList cs cs'

/-- Structural equality test for lists of trees. -/
def FTree.beqList : List FTree → List FTree → Bool
  | [], [] => true
  | t :: ts, t' :: ts' => FTree.beq t t' && FTree.beqList ts ts'
  | _, _ => false

end

mutual

theorem FTree.beq_iff : ∀ a b : FTree, FTree.beq a b = true ↔ a = b
  | .node d cs, .node d' cs' => by
    simp only [FTree.beq, Bool.and_eq_true, decide_eq_true_eq, FTree.node.injEq]
    exact and_congr Iff.rfl (FTree.beqList_iff cs cs')

theorem FTree.beqList_iff : ∀ a b : List FTree, FTree.beqList a b = true ↔ a = b
  | [], [] => by simp [FTree.beqList]
  | [], _ :: _ => by simp [FTree.beqList]
  | _ :: _, [] => by simp [FTree.beqList]
  | t :: ts, t' :: ts' => by
    simp only [FTree.beqList, Bool.and_eq_true, List.cons.injEq]
    exact and_congr (FTree.beq_iff t t') (FTree.beqList_iff ts ts')

end

instance : DecidableEq FTree := fun a b =>
  decidable_of_iff (FTree.beq a b = true) (FTree.beq_iff a b)

mutual

/-- Core of `FileTree::calculate_sizes_recursive` (src/src/tree/node.rs
lines 189-223): returns the updated subtree together with its contribution
`(size, file_count)` to the parent. A node with no children keeps its
stored values; a node with children gets the sum of its children's
contributions unless it is excluded, in which case its stored values are
left untouched. In both cases the contribution is zero when the node is
excluded. -/
def calcRec : FTree → FTree × Nat × Nat
  | .node d cs =>
    match cs with
    | [] =>
      (.node d [], if d.excluded then 0 else d.size,
        if d.excluded then 0 else d.fileCount)
    | c :: rest =>
      let r := calcRecList (c :: rest)
      let totalSize := r.2.1
      let totalCount := r.2.2
      let d' := if d.excluded then d
        else { d with size := totalSize, fileCount := totalCount }
      (.node d' r.1, if d'.excluded then 0 else d'.size,
        if d'.excluded then 0 else d'.fileCount)

/-- Recursion of `calculate_sizes_recursive` over the child list,
accumulating the children's contributions. -/
def calcRecList : List FTree → List FTree × Nat × Nat
  | [] => ([], 0, 0)
  | t :: ts =>
    let r := calcRec t
    let rs := calcRecList ts
    (r.1 :: rs.1, r.2.1 + rs.2.1, r.2.2 + rs.2.2)

end

/-- `FileTree::calculate_sizes` (src/src/tree/node.rs lines 183-187) on a
tree with a root (on a rootless tree the call is a no-op). -/
def FTree.calculateSizes (t : FTree) : FTree := (calcRec t).1

mutual

/-- All subtrees of a tree, in preorder (the root-first order in which
`NodeId::descendants` enumerates an indextree). -/
def FTree.subtrees : FTree → List FTree
  | .node d cs => .node d cs :: FTree.subtreesList cs

/-- All subtrees of the trees of a list, in order. -/
def FTree.subtreesList : List FTree → List FTree
  | [] => []
  | t :: ts => FTree.subtrees t ++ FTree.subtreesList ts

end

/-- Size aggregate claimed for a directory: the sum of its children's
sizes, with excluded children contributing 0. -/
def childSizeSum (cs : List FTree) : Nat :=
  (cs.map (fun c => if c.data.excluded then 0 else c.data.size)).sum

/-- File-count aggregate claimed for a directory: the sum of its
children's file counts, with excluded children contributing 0. -/
def childCountSum (cs : List FTree) : Nat :=
  (cs.map (fun c => if c.data.excluded then 0 else c.data.fileCount)).sum

/-- The aggregation property claimed (for C1) of every node of a tree:
every non-excluded directory node's size and file count equal the sums of
its non-excluded children's sizes and file counts. -/
def AggProp (t : FTree) : Prop :=
  ∀ s ∈ t.subtrees, s.data.isDir = true → s.data.excluded = false →
    s.data.size = childSizeSum s.children ∧
    s.data.fileCount = childCountSum s.children

instance (t : FTree) : Decidable (AggProp t) := by
  unfold AggProp
  infer_instance

/-- Contribution returned by `calcRec` in terms of the updated node. -/
theorem calcRec_contrib (t : FTree) :
    (calcRec t).2.1 = (if (calcRec t).1.data.excluded then 0
      else (calcRec t).1.data.size) ∧
    (calcRec t).2.2 = (if (calcRec t).1.data.excluded then 0
      else (calcRec t).1.data.fileCount) := by
  obtain ⟨d, cs⟩ := t
  cases cs with
  | nil => simp [calcRec, FTree.data]
  | cons c rest =>
    by_cases hex : d.excluded
    · simp [calcRec, hex, FTree.data]
    · simp [calcRec, hex, FTree.data]

/-- The accumulated contributions of `calcRecList` are the claimed child
sums of the updated children. -/
theorem calcRecList_sums (cs : List FTree) :
    (calcRecList cs).2.1 = childSizeSum (calcRecList cs).1 ∧
    (calcRecList cs).2.2 = childCountSum (calcRecList cs).1 := by
  induction cs with
  | nil => simp [calcRecList, childSizeSum, childCountSum]
  | cons c rest ih =>
    have hc := calcRec_contrib c
    simp only [calcRecList, childSizeSum, childCountSum, List.map_cons,
      List.sum_cons] at *
    exact ⟨by rw [hc.1, ih.1], by rw [hc.2, ih.2]⟩

mutual

/-- Number of nodes of a tree (termination measure). -/
def FTree.sizeF : FTree → Nat
  | .node _ cs => 1 + FTree.sizeFList cs

/-- Number of nodes of the trees of a list. -/
def FTree.sizeFList : List FTree → Nat
  | [] => 0
  | t :: ts => FTree.sizeF t + FTree.sizeFList ts

end

theorem FTree.sizeF_pos (t : FTree) : 1 ≤ t.sizeF := by
  obtain ⟨d, cs⟩ := t
  simp [FTree.sizeF]

theorem FTree.sizeF_le_of_mem {c : FTree} {cs : List FTree} (h : c ∈ cs) :
    c.sizeF ≤ FTree.sizeFList cs := by
  induction cs with
  | nil => cases h
  | cons a rest ih =>
    rcases List.mem_cons.mp h with rfl | h
    · simp [FTree.sizeFList]
    · have := ih h
      simp only [FTree.sizeFList]
      omega

theorem calcRecList_fst (cs : List FTree) :
    (calcRecList cs).1 = cs.map (fun c => (calcRec c).1) := by
  induction cs with
  | nil => simp [calcRecList]
  | cons c rest ih => simp [calcRecList, ih]

theorem mem_subtreesList {s : FTree} {l : List FTree} :
    s ∈ FTree.subtreesList l ↔ ∃ t ∈ l, s ∈ t.subtrees := by
  induction l with
  | nil => simp [FTree.subtreesList]
  | cons t ts ih => simp [FTree.subtreesList, List.mem_append, ih]

/-- Soundness of `calculate_sizes`, by strong induction on the node count:
in the updated tree, every non-excluded node with at least one child
carries the claimed aggregate sums. -/
theorem calcRec_sound : ∀ n : Nat, ∀ t : FTree, t.sizeF ≤ n →
    ∀ s ∈ (calcRec t).1.subtrees, s.data.excluded = false →
      s.children ≠ [] →
      s.data.size = childSizeSum s.children ∧
      s.data.fileCount = childCountSum s.children := by
  intro n
  induction n with
  | zero =>
    intro t ht
    have := FTree.sizeF_pos t
    omega
  | succ n ih =>
    intro t ht s hs hex hne
    obtain ⟨d, cs⟩ := t
    cases cs with
    | nil =>
      simp only [calcRec, FTree.subtrees, FTree.subtreesList,
        List.mem_singleton] at hs
      subst hs
      simp [FTree.children] at hne
    | cons c rest =>
      simp only [calcRec] at hs
      rw [FTree.subtrees] at hs
      rcases List.mem_cons.mp hs with rfl | hs
      · -- the root of the updated tree
        cases hd : d.excluded with
        | true =>
          simp [FTree.data, hd] at hex
        | false =>
          simp only [FTree.data, FTree.children, hd, Bool.false_eq_true,
            if_false]
          exact calcRecList_sums (c :: rest)
      · -- a subtree of one of the updated children
        rw [mem_subtreesList] at hs
        obtain ⟨t', ht', hst⟩ := hs
        rw [calcRecList_fst] at ht'
        obtain ⟨c0, hc0, rfl⟩ := List.mem_map.mp ht'
        have hle : c0.sizeF ≤ n := by
          have h1 := FTree.sizeF_le_of_mem hc0
          have h2 := FTree.sizeF_pos c0
          simp only [FTree.sizeF] at ht
          omega
        exact ih c0 hle _ hst hex hne

/-- C1 (amended). After `calculate_sizes()`, every non-excluded directory
node that has at least one child has `size` equal to the sum of its
non-excluded children's sizes and `file_count` equal to the sum of their
file counts (excluded children contribute 0). Childless directories keep
their previously stored values, which is what the counterexample forces
the claim to exclude. -/
theorem calculateSizes_aggregates (t s : FTree)
    (hs : s ∈ (FTree.calculateSizes t).subtrees)
    (_hdir : s.data.isDir = true) (hex : s.data.excluded = false)
    (hne : s.children ≠ []) :
    s.data.size = childSizeSum s.children ∧
    s.data.fileCount = childCountSum s.children :=
  calcRec_sound t.sizeF t (le_refl _) s hs hex hne

/-- Concrete tree for the C1 counterexample: a root directory whose only
child is a childless directory with stored size 5 and file count 3 (as a
partially built or cache-restored tree can contain). -/
def cexC1Tree : FTree :=
  FTree.node { FileNode.new [['r']] true with size := 0 }
    [FTree.node { FileNode.new [['r'], ['d']] true with size := 5, fileCount := 3 } []]

/-- C1 counterexample: on `cexC1Tree` the claimed invariant fails after
`calculate_sizes()` — the childless non-excluded directory `/r/d` keeps
size 5 and file count 3 instead of the empty child sums 0, because
`calculate_sizes_recursive` treats any childless node as a leaf and
returns its stored values unchanged. -/
theorem cexC1_aggProp_fails : ¬ AggProp (FTree.calculateSizes cexC1Tree) := by
  decide

/-- Concrete instantiation for the C1 witness: a root directory with one
file of size 7. -/
def witC1Tree : FTree :=
  FTree.node (FileNode.new [['t']] true)
    [FTree.node { FileNode.new [['t'], ['a']] false with size := 7 } []]

/-- Root subtree of `witC1Tree` after aggregation. -/
def witC1Sub : FTree :=
  FTree.node { FileNode.new [['t']] true with size := 7, fileCount := 1 }
    [FTree.node { FileNode.new [['t'], ['a']] false with size := 7 } []]

/-- Witness for `calculateSizes_aggregates` at a concrete tree. -/
theorem calculateSizes_aggregates_witness :
    (witC1Sub ∈ (FTree.calculateSizes witC1Tree).subtrees) ∧
    witC1Sub.data.size = childSizeSum witC1Sub.children ∧
    witC1Sub.data.fileCount = childCountSum witC1Sub.children :=
  ⟨by decide,
    calculateSizes_aggregates witC1Tree witC1Sub (by decide) (by decide)
      (by decide) (by decide)⟩

/-- Split a string at the first occurrence of `c` (models
`str::split_once`). -/
def splitOnceChar (c : Char) : CStr → Option (CStr × CStr)
  | [] => none
  | a :: rest =>
    if a = c then some ([], rest)
    else (splitOnceChar c rest).map (fun q => (a :: q.1, q.2))

/-- Does the string contain the character `c` (models
`str::contains(char)`)? -/
def containsChar (c : Char) (s : CStr) : Bool := s.any (fun a => a = c)

/-- Does `s` start with the pattern `pre` (models
`str::starts_with(&str)`)? -/
def startsWithPre : CStr → CStr → Bool
  | [], _ => true
  | _ :: _, [] => false
  | p :: ps, a :: rest => p = a && startsWithPre ps rest

/-- Parse a decimal digit string to a number (no sign, at least one
digit). -/
def parseNatDigits (s : CStr) : Option Nat :=
  if s = [] then none
  else if s.all Char.isDigit then
    some (s.foldl (fun acc c => acc * 10 + (c.toNat - 48)) 0)
  else none

/-- Rust `u16::from_str`: an optional leading plus sign, then decimal
digits, value at most 65535. -/
def parseU16 (s : CStr) : Option Nat :=
  let body := match s with
    | '+' :: rest => rest
    | _ => s
  match parseNatDigits body with
  | some v => if v ≤ 65535 then some v else none
  | none => none

/-- Parsed SSH connection info (src/src/remote.rs, `struct SshTarget`).
The path is kept as the raw string handed to `PathBuf::from`. -/
structure SshTarget where
  user : Option CStr
  host : CStr
  port : Option Nat
  path : CStr
deriving DecidableEq, Repr

/-- `SshTarget::parse_ssh_url` (src/src/remote.rs lines 46-66), applied to
the input with the `ssh://` scheme already stripped: split at the first
slash into authority and path, then split the authority at `@` and `:`;
an unparsable port becomes `None` without failing. -/
def SshTarget.parseSshUrl (s : CStr) : Option SshTarget :=
  match splitOnceChar '/' s with
  | none => none
  | some (authHost, rest) =>
    match (if containsChar '@' authHost then
        match splitOnceChar '@' authHost with
        | some (u, h) => some (some u, h)
        | none => none
      else some (none, authHost)) with
    | none => none
    | some (user, hostPort) =>
      match (if containsChar ':' hostPort then
          match splitOnceChar ':' hostPort with
          | some (h, p) => some (h, parseU16 p)
          | none => none
        else some (hostPort, none)) with
      | none => none
      | some (host, port) => some ⟨user, host, port, '/' :: rest⟩

/-- `SshTarget::parse_scp_format` (src/src/remote.rs lines 68-81): split
at the first colon into host part and path, then split the host part at
`@`. -/
def SshTarget.parseScpFormat (s : CStr) : Option SshTarget :=
  match splitOnceChar ':' s with
  | none => none
  | some (hostPart, path) =>
    match (if containsChar '@' hostPart then
        match splitOnceChar '@' hostPart with
        | some (u, h) => some (some u, h)
        | none => none
      else some (none, hostPart)) with
    | none => none
    | some (user, host) => some ⟨user, host, none, path⟩

/-- `SshTarget::parse` (src/src/remote.rs lines 32-44): `ssh://` URLs go to
the URL parser; otherwise any string containing a colon and not starting
with a slash goes to the scp-format parser; everything else is rejected. -/
def SshTarget.parse (s : CStr) : Option SshTarget :=
  if startsWithPre ['s', 's', 'h', ':', '/', '/'] s then
    SshTarget.parseSshUrl (s.drop 6)
  else if containsChar ':' s && !startsWithPre ['/'] s then
    SshTarget.parseScpFormat s
  else none

/-- `is_remote_path` (src/src/remote.rs lines 111-113). -/
def isRemotePath (s : CStr) : Bool := (SshTarget.parse s).isSome

theorem splitOnceChar_isSome (c : Char) (s : CStr) :
    (splitOnceChar c s).isSome = containsChar c s := by
  induction s with
  | nil => simp [splitOnceChar, containsChar]
  | cons a rest ih =>
    by_cases h : a = c
    · simp [splitOnceChar, containsChar, h]
    · have hr : containsChar c (a :: rest) = containsChar c rest := by
        simp [containsChar, h]
      simp only [splitOnceChar, if_neg h, hr, ← ih]
      cases splitOnceChar c rest <;> simp

theorem containsChar_exists_split {c : Char} {s : CStr}
    (h : containsChar c s = true) : ∃ a b, splitOnceChar c s = some (a, b) := by
  have := splitOnceChar_isSome c s
  rw [h] at this
  rcases hs : splitOnceChar c s with _ | ⟨a, b⟩
  · rw [hs] at this
    simp at this
  · exact ⟨a, b, rfl⟩

theorem parseSshUrl_isSome (s : CStr) :
    (SshTarget.parseSshUrl s).isSome = containsChar '/' s := by
  have hc := splitOnceChar_isSome '/' s
  rcases hs : splitOnceChar '/' s with _ | ⟨authHost, rest⟩
  · rw [hs] at hc
    simp only [SshTarget.parseSshUrl, hs]
    simp [← hc]
  · rw [hs] at hc
    simp only [SshTarget.parseSshUrl, hs, ← hc]
    by_cases hAt : containsChar '@' authHost = true
    · obtain ⟨u, h1, hsplit⟩ := containsChar_exists_split hAt
      simp only [hAt, if_true, hsplit]
      by_cases hCol : containsChar ':' h1 = true
      · obtain ⟨h2, p, hsplit2⟩ := containsChar_exists_split hCol
        simp [hCol, hsplit2]
      · simp [hCol]
    · simp only [hAt, Bool.false_eq_true, if_false]
      by_cases hCol : containsChar ':' authHost = true
      · obtain ⟨h2, p, hsplit2⟩ := containsChar_exists_split hCol
        simp [hCol, hsplit2]
      · simp [hCol]

theorem parseScpFormat_isSome (s : CStr) :
    (SshTarget.parseScpFormat s).isSome = containsChar ':' s := by
  have hc := splitOnceChar_isSome ':' s
  rcases hs : splitOnceChar ':' s with _ | ⟨hostPart, path⟩
  · rw [hs] at hc
    simp only [SshTarget.parseScpFormat, hs]
    simp [← hc]
  · rw [hs] at hc
    simp only [SshTarget.parseScpFormat, hs, ← hc]
    by_cases hAt : containsChar '@' hostPart = true
    · obtain ⟨u, h1, hsplit⟩ := containsChar_exists_split hAt
      simp [hAt, hsplit]
    · simp [hAt]

/-- C7 (amended). Exact acceptance set of `SshTarget::parse`: a string
parses to a target iff it starts with `ssh://` and the remainder after the
scheme contains a slash, or it does not start with `ssh://`, contains a
colon, and does not start with a slash. In particular every string
starting with `/` is rejected, but colon-containing strings with an empty
or relative path part (such as `host:` or `host:relative`) are accepted,
so strings without a path component are not all rejected. -/
theorem sshTarget_parse_isSome_iff (s : CStr) :
    (SshTarget.parse s).isSome = true ↔
      ((startsWithPre ['s', 's', 'h', ':', '/', '/'] s = true ∧
          containsChar '/' (s.drop 6) = true) ∨
        (startsWithPre ['s', 's', 'h', ':', '/', '/'] s = false ∧
          containsChar ':' s = true ∧ startsWithPre ['/'] s = false)) := by
  by_cases hssh : startsWithPre ['s', 's', 'h', ':', '/', '/'] s = true
  · simp only [SshTarget.parse, hssh, if_true]
    rw [parseSshUrl_isSome]
    simp [hssh]
  · have hssh' : startsWithPre ['s', 's', 'h', ':', '/', '/'] s = false :=
      Bool.eq_false_iff.mpr hssh
    simp only [SshTarget.parse, hssh', Bool.false_eq_true, if_false]
    by_cases hcolon : containsChar ':' s = true
    · by_cases hslash : startsWithPre ['/'] s = true
      · simp [hcolon, hslash, hssh']
      · have hslash' : startsWithPre ['/'] s = false :=
          Bool.eq_false_iff.mpr hslash
        simp only [hcolon, hslash', Bool.not_false, Bool.and_true, if_true]
        rw [parseScpFormat_isSome]
        simp [hcolon, hssh', hslash']
    · have hcolon' : containsChar ':' s = false := Bool.eq_false_iff.mpr hcolon
      simp [hcolon', hssh']

/-- C7 counterexample: the string `host:` has no path component, yet
`SshTarget::parse` accepts it and returns a target with an empty path,
refuting the claim that every string without a path component is
rejected. -/
theorem cexC7_parse_accepts_empty_path :
    SshTarget.parse ['h', 'o', 's', 't', ':'] =
      some ⟨none, ['h', 'o', 's', 't'], none, []⟩ := by
  decide

/-- Node record built by the Tauri remote scanner (src/src-tauri/src/types.rs
`struct FileNode`, as constructed in `build_tree_from_files`,
src/src-tauri/src/ssh/remote_scan.rs lines 373-404). The `children` vector,
always empty at construction time and irrelevant to the extension claim, is
omitted from the record. -/
structure TNodeRec where
  id : Nat
  name : CStr
  path : RPath
  size : Nat
  isDir : Bool
  isHidden : Bool
  extension : Option CStr
  fileCount : Nat
deriving DecidableEq, Repr

/-- One iteration of the node-construction loop of `build_tree_from_files`:
name from `Path::file_name`, extension from `Path::extension` WITHOUT
lowercasing (unlike `FileNode::new`), hidden iff the name starts with a
dot, file count 1 for files and 0 for directories. -/
def remoteScanNode (path : RPath) (isDir : Bool) (size : Nat) (id : Nat) :
    TNodeRec :=
  let name := fileNameOf path
  { id := id
    name := name
    path := path
    size := size
    isDir := isDir
    isHidden := startsWithChar '.' name
    extension := if isDir then none else rustExtension name
    fileCount := if isDir then 0 else 1 }

/-- The node-construction loop of `build_tree_from_files` over the parsed
`(path, is_dir, size)` triples, with ids assigned in listing order. -/
def remoteScanNodes (files : List (RPath × Bool × Nat)) : List TNodeRec :=
  files.enum.map (fun q => remoteScanNode q.2.1 q.2.2.1 q.2.2.2 q.1)

theorem rsplitOnceChar_eq_none_iff (c : Char) (s : CStr) :
    rsplitOnceChar c s = none ↔ containsChar c s = false := by
  induction s with
  | nil => simp [rsplitOnceChar, containsChar]
  | cons a rest ih =>
    rcases h : rsplitOnceChar c rest with _ | q
    · have hrest : containsChar c rest = false := ih.mp h
      by_cases hac : a = c
      · simp [rsplitOnceChar, h, hac, containsChar]
      · simp only [containsChar, List.any_cons] at hrest ⊢
        simp [rsplitOnceChar, h, hac, hrest]
    · have hrest : containsChar c rest = true := by
        by_contra hf
        have hfx : containsChar c rest = false := Bool.eq_false_iff.mpr hf
        rw [ih.mpr hfx] at h
        exact Option.noConfusion h
      simp only [containsChar, List.any_cons] at hrest ⊢
      simp [rsplitOnceChar, h, hrest]

theorem rustExtension_of_no_dot {name : CStr}
    (h : containsChar '.' name = false) : rustExtension name = none := by
  unfold rustExtension
  by_cases hdd : name = ['.', '.']
  · simp [hdd]
  · rw [if_neg hdd, (rsplitOnceChar_eq_none_iff '.' name).mpr h]

theorem rsplitOnceChar_append {tail : CStr}
    (htail : containsChar '.' tail = false) :
    ∀ stem : CStr, rsplitOnceChar '.' (stem ++ '.' :: tail) = some (stem, tail) := by
  intro stem
  induction stem with
  | nil =>
    simp only [List.nil_append, rsplitOnceChar,
      (rsplitOnceChar_eq_none_iff '.' tail).mpr htail]
    simp
  | cons a rest ih =>
    simp [rsplitOnceChar, ih]

theorem rustExtension_dotfile {tl : CStr}
    (h : containsChar '.' tl = false) : rustExtension ('.' :: tl) = none := by
  unfold rustExtension
  by_cases hdd : ('.' :: tl : CStr) = ['.', '.']
  · simp [hdd]
  · rw [if_neg hdd]
    have := rsplitOnceChar_append h ([] : CStr)
    simp only [List.nil_append] at this
    rw [this]
    simp

theorem rustExtension_of_stem_tail {stem tail : CStr} (hstem : stem ≠ [])
    (htail : containsChar '.' tail = false)
    (hdd : stem ++ '.' :: tail ≠ ['.', '.']) :
    rustExtension (stem ++ '.' :: tail) = some tail := by
  unfold rustExtension
  rw [if_neg hdd, rsplitOnceChar_append htail stem]
  simp [hstem]

/-- C8 (amended). Extension behaviour of the two node constructors:
both give `None` for directories, for files whose name has no dot, and for
dotfiles such as `.config`; for a file name of the shape `stem.tail` with a
nonempty stem, the local scanner's `FileNode::new` records the lowercased
tail after the last dot, while the Tauri remote scanner's
`build_tree_from_files` records that tail with its original case, not
lowercased. -/
theorem extension_behaviour (p : RPath) (sz id : Nat) :
    ((FileNode.new p true).extension = none ∧
      (remoteScanNode p true sz id).extension = none) ∧
    (containsChar '.' (fileNameOf p) = false →
      (FileNode.new p false).extension = none ∧
      (remoteScanNode p false sz id).extension = none) ∧
    (∀ tl : CStr, fileNameOf p = '.' :: tl → containsChar '.' tl = false →
      (FileNode.new p false).extension = none ∧
      (remoteScanNode p false sz id).extension = none) ∧
    (∀ stem tail : CStr, stem ≠ [] → fileNameOf p = stem ++ '.' :: tail →
      containsChar '.' tail = false → fileNameOf p ≠ ['.', '.'] →
      (FileNode.new p false).extension = some (toLowerStr tail) ∧
      (remoteScanNode p false sz id).extension = some tail) := by
  refine ⟨⟨rfl, rfl⟩, ?_, ?_, ?_⟩
  · intro h
    constructor
    · simp [FileNode.new, rustExtension_of_no_dot h]
    · simp [remoteScanNode, rustExtension_of_no_dot h]
  · intro tl hname htl
    constructor
    · simp [FileNode.new, hname, rustExtension_dotfile htl]
    · simp [remoteScanNode, hname, rustExtension_dotfile htl]
  · intro stem tail hstem hname htail hdd
    rw [hname] at hdd
    constructor
    · simp [FileNode.new, hname, rustExtension_of_stem_tail hstem htail hdd]
    · simp [remoteScanNode, hname, rustExtension_of_stem_tail hstem htail hdd]

/-- Witness for `extension_behaviour`: the path `/t/archive.tar.gz` gives
local extension `gz`; the path `/t/.config` gives no extension; the
remote node for `/t/A.TXT` keeps the uppercase tail. -/
theorem extension_behaviour_witness :
    (FileNode.new [['t'], ['a', 'r', 'c', 'h', 'i', 'v', 'e', '.', 't', 'a', 'r', '.', 'g', 'z']] false).extension
        = some ['g', 'z'] ∧
    (FileNode.new [['t'], ['.', 'c', 'o', 'n', 'f', 'i', 'g']] false).extension = none := by
  constructor
  · exact ((extension_behaviour
      [['t'], ['a', 'r', 'c', 'h', 'i', 'v', 'e', '.', 't', 'a', 'r', '.', 'g', 'z']] 0 0).2.2.2
      ['a', 'r', 'c', 'h', 'i', 'v', 'e', '.', 't', 'a', 'r'] ['g', 'z']
      (by decide) (by decide) (by decide) (by decide)).1
  · exact ((extension_behaviour
      [['t'], ['.', 'c', 'o', 'n', 'f', 'i', 'g']] 0 0).2.2.1
      ['c', 'o', 'n', 'f', 'i', 'g'] (by decide) (by decide)).1

/-- C8 counterexample: the Tauri remote scanner node for `/r/A.TXT` has
extension `TXT`, with the original case — not the lowercase tail `txt`
claimed for every scanner-created node. -/
theorem cexC8_remote_extension_not_lowercased :
    remoteScanNodes [([['r']], true, 0), ([['r'], ['A', '.', 'T', 'X', 'T']], false, 5)]
        = [remoteScanNode [['r']] true 0 0,
           remoteScanNode [['r'], ['A', '.', 'T', 'X', 'T']] false 5 1] ∧
    (remoteScanNode [['r'], ['A', '.', 'T', 'X', 'T']] false 5 1).extension
        = some ['T', 'X', 'T'] ∧
    some (['T', 'X', 'T'] : CStr) ≠ some (toLowerStr ['T', 'X', 'T']) := by
  refine ⟨by decide, by decide, by decide⟩

/-- Update the element at an index of a list (identity when out of
range). -/
def updateAt {α : Type} : Nat → (α → α) → List α → List α
  | _, _, [] => []
  | 0, f, a :: rest => f a :: rest
  | n + 1, f, a :: rest => a :: updateAt n f rest

theorem updateAt_length {α : Type} (n : Nat) (f : α → α) (l : List α) :
    (updateAt n f l).length = l.length := by
  induction l generalizing n with
  | nil => cases n <;> rfl
  | cons a rest ih =>
    cases n with
    | zero => simp [updateAt]
    | succ m => simp [updateAt, ih]

theorem updateAt_get? {α : Type} (n : Nat) (f : α → α) (l : List α) (i : Nat) :
    (updateAt n f l).get? i =
      if i = n then (l.get? i).map f else l.get? i := by
  induction l generalizing n i with
  | nil => simp [updateAt]
  | cons a rest ih =>
    cases n with
    | zero =>
      cases i with
      | zero => simp [updateAt]
      | succ j => simp [updateAt]
    | succ m =>
      cases i with
      | zero => simp [updateAt]
      | succ j =>
        simp only [updateAt, List.get?_cons_succ, ih, Nat.succ_eq_add_one]
        by_cases h : j = m
        · simp [h]
        · simp [h]

/-- One slot of the arena: node data, parent handle, ordered child
handles (models one `indextree` arena node). -/
structure ArenaEntry where
  data : FileNode
  parent : Option Nat
  childIdx : List Nat
deriving DecidableEq, Repr

/-- The arena-backed `FileTree` (src/src/tree/node.rs, `struct FileTree`):
a list of arena slots (handles are indices) and an optional root handle. -/
structure ATree where
  entries : List ArenaEntry
  root : Option Nat
deriving DecidableEq, Repr

/-- `FileTree::new`. -/
def ATree.new : ATree := { entries := [], root := none }

/-- `FileTree::with_root` (src/src/tree/node.rs lines 144-153). -/
def ATree.withRoot (p : RPath) : ATree :=
  { entries := [⟨FileNode.new p true, none, []⟩], root := some 0 }

/-- `FileTree::add_child` (src/src/tree/node.rs lines 156-160): allocate a
new arena slot and append it to the parent's child list. -/
def ATree.addChild (t : ATree) (parentId : Nat) (n : FileNode) : ATree × Nat :=
  let childId := t.entries.length
  let addC : ArenaEntry → ArenaEntry := fun e =>
    { e with childIdx := e.childIdx ++ [childId] }
  let newEntries := updateAt parentId addC t.entries ++ [⟨n, some parentId, []⟩]
  ({ t with entries := newEntries }, childId)

/-- `FileTree::get_node`. -/
def ATree.getNode (t : ATree) (i : Nat) : Option FileNode :=
  (t.entries.get? i).map (fun e => e.data)

/-- Number of non-directory nodes of a tree. -/
def ATree.countNonDir (t : ATree) : Nat :=
  t.entries.countP (fun e => e.data.isDir = false)

/-- Sum of the sizes of the non-directory nodes of a tree. -/
def ATree.sumNonDirSize (t : ATree) : Nat :=
  ((t.entries.filter (fun e => e.data.isDir = false)).map
    (fun e => e.data.size)).sum

/-- Contribution `(size, file_count)` of the subtree at an arena index, as
computed by `calculate_sizes_recursive`, with fuel for termination; on
acyclic arenas built by `add_child` (child handles strictly exceed their
parent's) fuel `entries.length` always suffices. The rose-tree `calcRec`
is the primary model of this recursion; this is the same computation
transported to arena indices. -/
def calcContribA (t : ATree) : Nat → Nat → Nat × Nat
  | 0, _ => (0, 0)
  | fuel + 1, i =>
    match t.entries.get? i with
    | none => (0, 0)
    | some e =>
      match e.childIdx with
      | [] =>
        (if e.data.excluded then 0 else e.data.size,
          if e.data.excluded then 0 else e.data.fileCount)
      | c :: rest =>
        let sums := ((c :: rest).map (calcContribA t fuel)).foldl
          (fun acc q => (acc.1 + q.1, acc.2 + q.2)) (0, 0)
        if e.data.excluded then (0, 0) else sums

/-- New value of one arena slot under `calculate_sizes`: a node with
children that is not excluded has its size and file count replaced by the
sums of its children's contributions; childless and excluded nodes are
left unchanged. -/
def calcSizesASlot (t : ATree) (e : ArenaEntry) : ArenaEntry :=
  if e.childIdx = [] then e
  else if e.data.excluded then e
  else
    let sums := (e.childIdx.map (calcContribA t t.entries.length)).foldl
      (fun acc q => (acc.1 + q.1, acc.2 + q.2)) (0, 0)
    { e with data := { e.data with size := sums.1, fileCount := sums.2 } }

/-- `FileTree::calculate_sizes` on the arena. -/
def calcSizesA (t : ATree) : ATree :=
  { t with entries := t.entries.map (calcSizesASlot t) }

theorem calcSizesASlot_fields (t : ATree) (e : ArenaEntry) :
    (calcSizesASlot t e).parent = e.parent ∧
    (calcSizesASlot t e).childIdx = e.childIdx ∧
    (calcSizesASlot t e).data.isDir = e.data.isDir ∧
    (calcSizesASlot t e).data.path = e.data.path := by
  unfold calcSizesASlot
  split
  · simp
  · split <;> simp

theorem calcSizesASlot_of_no_children (t : ATree) (e : ArenaEntry)
    (h : e.childIdx = []) : calcSizesASlot t e = e := by
  unfold calcSizesASlot
  simp [h]

/-- Events of the progress channel (src/src/scanner/progress.rs,
`enum ScanProgress`; the `Building` variant is not emitted by the walker
and is omitted). The `Completed` event carries the delivered tree. -/
inductive ScanEvent where
  | started
  | scanning (path : RPath) (filesFound estimatedTotal bytesProcessed : Nat)
  | nodeDiscovered (node : FileNode) (parentPath : RPath)
  | errorEv (path : RPath)
  | completed (totalFiles totalSize : Nat) (tree : ATree)
deriving DecidableEq, Repr

/-- Is the event a `Completed` event? -/
def isCompleted : ScanEvent → Bool
  | .completed _ _ _ => true
  | _ => false

/-- Scan errors of the walker (src/src/scanner/mod.rs); validation errors
happen before the portion modelled here, so only `Interrupted` appears. -/
inductive ScanError where
  | interrupted
deriving DecidableEq, Repr

/-- One successfully walked entry, with the metadata the parallel stage
would read for it (`size` is what `get_file_size` returns for the path). -/
structure WEntry where
  path : RPath
  isDir : Bool
  isSymlink : Bool
  size : Nat
  modified : Option Int
  target : Option RPath
deriving DecidableEq, Repr

/-- One walkdir result: a successful entry or an error with an optional
path (models `walkdir::Result<DirEntry>`). -/
inductive WalkItem where
  | ok (e : WEntry)
  | error (path : Option RPath)
deriving DecidableEq, Repr

/-- Rust `Path::parent` on component lists: none for an empty path or a
lone root component, else the path without its last component. -/
def parentOf (p : RPath) : Option RPath :=
  match p with
  | [] => none
  | [c] => if c = ['/'] then none else some []
  | _ => some p.dropLast

/-- Processed metadata tuple of the parallel stage (walker.rs line 202):
`(path, is_dir, is_symlink, size, modified, symlink_target)`. -/
abbrev PTuple := RPath × Bool × Bool × Nat × Option Int × Option RPath

/-- State threaded through the parallel metadata stage (walker.rs lines
143-216): shared counters, throttle bookkeeping, emitted events and the
collected tuples (rayon's indexed `collect` preserves input order, so a
left fold models it; event interleaving across workers is immaterial to
the claims, which only inspect membership). -/
structure StageAState where
  filesFound : Nat
  bytesProcessed : Nat
  lastCount : Nat
  events : List ScanEvent
  processed : List PTuple
deriving Repr

/-- One iteration of the parallel metadata stage for the `i`-th walk item.
The cancellation flag is read once per item (`cancel i`); a set flag skips
the item. The `Scanning` throttle fires when 100 entries accumulated since
the last emission or when the 50 ms timer (modelled by the oracle
`timeTh`, since wall-clock time is outside the embedding) has elapsed.
Walk errors with a path emit an `Error` event and are skipped. -/
def stageAStep (cancel timeTh : Nat → Bool) (totalEntries : Nat)
    (st : StageAState) (iq : Nat × WalkItem) : StageAState :=
  if cancel iq.1 then st
  else
    match iq.2 with
    | .error p =>
      match p with
      | some path => { st with events := st.events ++ [.errorEv path] }
      | none => st
    | .ok e =>
      let psize := if e.isDir || e.isSymlink then 0 else e.size
      let count := st.filesFound + 1
      let totalBytes := st.bytesProcessed + psize
      let send := (100 ≤ count - st.lastCount) || timeTh iq.1
      { filesFound := count
        bytesProcessed := totalBytes
        lastCount := if send then count else st.lastCount
        events := if send then
            st.events ++ [.scanning e.path count totalEntries totalBytes]
          else st.events
        processed := st.processed ++
          [(e.path, e.isDir, e.isSymlink, psize, e.modified, e.target)] }

/-- The whole parallel metadata stage over the walk items. -/
def stageA (cancel timeTh : Nat → Bool) (items : List WalkItem) : StageAState :=
  items.enum.foldl (stageAStep cancel timeTh items.length)
    ⟨0, 0, 0, [], []⟩

/-- Lookup in the `path → node id` map; the map is an association list
with newest binding first, which models `HashMap::insert` overwriting. -/
def lookupPath (m : List (RPath × Nat)) (p : RPath) : Option Nat :=
  (m.find? (fun q => q.1 = p)).map (fun q => q.2)

/-- State of the sequential tree-construction stage (walker.rs lines
223-294). -/
structure BuildState where
  tree : ATree
  pathMap : List (RPath × Nat)
  totalSize : Nat
  totalFiles : Nat
  nodesSent : Nat
  events : List ScanEvent
deriving Repr

/-- One iteration of the sequential insertion loop (walker.rs lines
251-294): skip the root path; look the parent path up in the map and
silently drop the entry when it is absent; otherwise build the node,
stream a throttled `NodeDiscovered`, insert, record the new id in the
map, and count non-directories toward the totals. No cancellation check
happens here. `mkScanNode` is the node construction of walker.rs lines
262-275: `FileNode::new`, stored size, optional modified time, and the
symlink marking. -/
def mkScanNode (tup : PTuple) : FileNode :=
  let node0 := { FileNode.new tup.1 tup.2.1 with size := tup.2.2.2.1 }
  let node1 := match tup.2.2.2.2.1 with
    | some m => node0.withModified m
    | none => node0
  if tup.2.2.1 then
    match tup.2.2.2.2.2 with
    | some tg => node1.withSymlink tg
    | none => { node1 with isSymlink := true }
  else node1

def buildStep (rootPath : RPath) (st : BuildState) (tup : PTuple) : BuildState :=
  if tup.1 = rootPath then st
  else
    let parentPath := (parentOf tup.1).getD rootPath
    match lookupPath st.pathMap parentPath with
    | none => st
    | some parentId =>
      let node2 := mkScanNode tup
      let nodesSent := st.nodesSent + 1
      let r := st.tree.addChild parentId node2
      { tree := r.1
        pathMap := (tup.1, r.2) :: st.pathMap
        totalSize := if tup.2.1 then st.totalSize
          else st.totalSize + tup.2.2.2.1
        totalFiles := if tup.2.1 then st.totalFiles else st.totalFiles + 1
        nodesSent := nodesSent
        events := if nodesSent % 50 = 0 || nodesSent < 100 then
            st.events ++ [.nodeDiscovered node2 parentPath]
          else st.events }

/-- `Scanner::scan` (src/src/scanner/walker.rs lines 87-307), after the
root validation: emit `Started`, run the parallel metadata stage (with the
cancellation flag read once per item and once more after the stage; the
source's flag is a scanner-local `AtomicBool` that nothing ever sets — it
is exposed here as the parameter `cancel` to make the claimed
cancellation behaviour statable), return `Interrupted` if the flag is set
after the stage, otherwise sort the tuples by path depth (stable), build
the tree sequentially, aggregate, and emit `Completed`. -/
def Scanner.scan (rootPath : RPath) (items : List WalkItem)
    (cancel timeTh : Nat → Bool) :
    List ScanEvent × Except ScanError ATree :=
  let stA := stageA cancel timeTh items
  if cancel items.length then
    (ScanEvent.started :: stA.events, .error .interrupted)
  else
    let tree0 := ATree.withRoot rootPath
    let rootNodeEv := match tree0.getNode 0 with
      | some n => [ScanEvent.nodeDiscovered n rootPath]
      | none => []
    let sorted := List.insertionSort
      (fun a b : PTuple => a.1.length ≤ b.1.length) stA.processed
    let bst := sorted.foldl (buildStep rootPath)
      ⟨tree0, [(rootPath, 0)], 0, 0, 0, []⟩
    let finalTree := calcSizesA bst.tree
    (ScanEvent.started :: stA.events ++ rootNodeEv ++ bst.events ++
        [ScanEvent.completed bst.totalFiles bst.totalSize finalTree],
      .ok finalTree)

/-- Split a string at every occurrence of `c` (models
`str::split(char)`). -/
def splitAllChar (c : Char) : CStr → List CStr
  | [] => [[]]
  | a :: rest =>
    match splitAllChar c rest with
    | [] => []
    | h :: t => if a = c then [] :: h :: t else (a :: h) :: t

/-- Components of a path string as built by `PathBuf::from` (for the
slash-separated absolute or relative paths produced by `find`; `.` and
`..` segments do not occur in that output and are not special-cased). -/
def strToPath (s : CStr) : RPath :=
  match s with
  | '/' :: rest => ['/'] :: (splitAllChar '/' rest).filter (fun comp => comp ≠ [])
  | _ => (splitAllChar '/' s).filter (fun comp => comp ≠ [])

/-- Rust `str::parse::<u64>().unwrap_or(0)`: optional plus sign and
digits, defaulting to 0 on any failure. -/
def parseU64D (s : CStr) : Nat :=
  (match s with
    | '+' :: r => parseNatDigits r
    | _ => parseNatDigits s).getD 0

/-- State of the line-ingestion loop of `RemoteScanner::scan_with_find`
(src/src/remote.rs lines 202-261). -/
structure RemoteState where
  tree : ATree
  pathMap : List (RPath × Nat)
  filesFound : Nat
  totalSize : Nat
  events : List ScanEvent
deriving Repr

/-- One line of the remote listing (remote.rs lines 208-261): split at
`|`; lines with fewer than 3 fields are skipped entirely; the first valid
line becomes the root (its size recorded on the root node); later lines
are inserted under the node found for their parent path and silently
dropped when the parent is unknown; every valid line — directories and
dropped lines included — increments `files_found` and adds its size to
`total_size`; every 100th valid line emits a `Scanning` event. -/
def remoteInsert (st : RemoteState) (path : RPath) (isDir : Bool)
    (size : Nat) : RemoteState :=
  match st.tree.root with
  | none =>
    let t0 := ATree.withRoot path
    let setSize : ArenaEntry → ArenaEntry := fun e =>
      { e with data := { e.data with size := size } }
    let t1 := { t0 with entries := updateAt 0 setSize t0.entries }
    { st with tree := t1, pathMap := (path, 0) :: st.pathMap }
  | some _ =>
    match parentOf path with
    | none => st
    | some pp =>
      match lookupPath st.pathMap pp with
      | none => st
      | some pid =>
        let node := { FileNode.new path isDir with size := size }
        let r := st.tree.addChild pid node
        { st with tree := r.1, pathMap := (path, r.2) :: st.pathMap }

def remoteStep (st : RemoteState) (line : CStr) : RemoteState :=
  let parts := splitAllChar '|' line
  if parts.length < 3 then st
  else
    let path := strToPath (parts.headD [])
    let ftype := (parts.get? 1).getD []
    let size := parseU64D ((parts.get? 2).getD [])
    let isDir := ftype = ['d'] ||
      ftype = ['D', 'i', 'r', 'e', 'c', 't', 'o', 'r', 'y']
    let st1 := remoteInsert st path isDir size
    let ff := st1.filesFound + 1
    let ts := st1.totalSize + size
    { st1 with
      filesFound := ff
      totalSize := ts
      events := if ff % 100 = 0 then
          st1.events ++ [.scanning path ff (ff + 1000) ts]
        else st1.events }

/-- `RemoteScanner::scan_with_find` (src/src/remote.rs lines 182-276),
restricted to its line-ingestion and tree-building behaviour: the input is
the list of listing lines read from the remote `find`; the result is the
event list, the delivered tree (after `calculate_sizes`) and the
`(total_files, total_size)` totals reported on `Completed`. -/
def RemoteScanner.scanWithFind (lines : List CStr) :
    List ScanEvent × ATree × Nat × Nat :=
  let st := lines.foldl remoteStep ⟨ATree.new, [], 0, 0, []⟩
  let tree := calcSizesA st.tree
  (st.events ++ [ScanEvent.completed st.filesFound st.totalSize tree],
    tree, st.filesFound, st.totalSize)

theorem updateAt_countP {α : Type} (p : α → Bool) (i : Nat) (f : α → α)
    (l : List α) (h : ∀ a, p (f a) = p a) :
    (updateAt i f l).countP p = l.countP p := by
  induction l generalizing i with
  | nil => cases i <;> rfl
  | cons a rest ih =>
    cases i with
    | zero => simp [updateAt, List.countP_cons, h]
    | succ m => simp [updateAt, List.countP_cons, ih]

theorem updateAt_filterMapSum {α : Type} (p : α → Bool) (g : α → Nat)
    (i : Nat) (f : α → α) (l : List α) (hp : ∀ a, p (f a) = p a)
    (hg : ∀ a, g (f a) = g a) :
    (((updateAt i f l).filter p).map g).sum = ((l.filter p).map g).sum := by
  induction l generalizing i with
  | nil => cases i <;> rfl
  | cons a rest ih =>
    cases i with
    | zero =>
      simp only [updateAt, List.filter_cons, hp a]
      by_cases hpa : p a = true
      · simp [hpa, hg a]
      · simp only [hpa, Bool.false_eq_true, if_false]
    | succ m =>
      simp only [updateAt, List.filter_cons]
      by_cases hpa : p a = true
      · simp [hpa, ih]
      · simp [hpa, ih]

theorem updateAt_map_of_preserve {α β : Type} (g : α → β) (i : Nat)
    (f : α → α) (l : List α) (h : ∀ a, g (f a) = g a) :
    (updateAt i f l).map g = l.map g := by
  induction l generalizing i with
  | nil => cases i <;> rfl
  | cons a rest ih =>
    cases i with
    | zero => simp [updateAt, h]
    | succ m => simp [updateAt, ih]

theorem addChild_countNonDir (t : ATree) (pid : Nat) (n : FileNode) :
    ((t.addChild pid n).1).countNonDir =
      t.countNonDir + (if n.isDir then 0 else 1) := by
  unfold ATree.addChild ATree.countNonDir
  simp only [List.countP_append, List.countP_cons, List.countP_nil]
  rw [updateAt_countP]
  · cases hn : n.isDir <;> simp [hn]
  · intro a
    rfl

theorem addChild_sumNonDirSize (t : ATree) (pid : Nat) (n : FileNode) :
    ((t.addChild pid n).1).sumNonDirSize =
      t.sumNonDirSize + (if n.isDir then 0 else n.size) := by
  unfold ATree.addChild ATree.sumNonDirSize
  simp only [List.filter_append, List.map_append, List.sum_append]
  rw [updateAt_filterMapSum]
  · cases hn : n.isDir <;> simp [hn, List.filter_cons]
  · intro a
    rfl
  · intro a
    rfl

/-- The per-slot rewriting of `calcSizesA` keeps everything except the
stored size and file count. -/
theorem calcSizesA_entry_shape (t : ATree) (i : Nat) :
    ((calcSizesA t).entries.get? i).map (fun e => e.parent) =
        (t.entries.get? i).map (fun e => e.parent) ∧
    ((calcSizesA t).entries.get? i).map (fun e => e.childIdx) =
        (t.entries.get? i).map (fun e => e.childIdx) ∧
    ((calcSizesA t).entries.get? i).map (fun e => e.data.isDir) =
        (t.entries.get? i).map (fun e => e.data.isDir) ∧
    ((calcSizesA t).entries.get? i).map (fun e => e.data.path) =
        (t.entries.get? i).map (fun e => e.data.path) := by
  unfold calcSizesA
  simp only [List.get?_map]
  rcases t.entries.get? i with _ | e
  · simp
  · have hf := calcSizesASlot_fields t e
    simp [hf.1, hf.2.1, hf.2.2.1, hf.2.2.2]

theorem calcSizesA_length (t : ATree) :
    (calcSizesA t).entries.length = t.entries.length := by
  simp [calcSizesA]

theorem calcSizesA_root (t : ATree) : (calcSizesA t).root = t.root := by
  simp [calcSizesA]

theorem calcSizesA_countNonDir (t : ATree) :
    (calcSizesA t).countNonDir = t.countNonDir := by
  unfold calcSizesA ATree.countNonDir
  simp only [List.countP_map]
  apply List.countP_congr
  intro e _
  simp [Function.comp, (calcSizesASlot_fields t e).2.2.1]

theorem calcSizesA_paths (t : ATree) :
    (calcSizesA t).entries.map (fun e => e.data.path) =
      t.entries.map (fun e => e.data.path) := by
  unfold calcSizesA
  simp only [List.map_map]
  apply List.map_congr_left
  intro e _
  simp [Function.comp, (calcSizesASlot_fields t e).2.2.2]

theorem filterMapSum_calcSlot (t : ATree) (l : List ArenaEntry)
    (h : ∀ e ∈ l, e.data.isDir = false → e.childIdx = []) :
    (((l.map (calcSizesASlot t)).filter
        (fun e => e.data.isDir = false)).map (fun e => e.data.size)).sum =
      ((l.filter (fun e => e.data.isDir = false)).map
        (fun e => e.data.size)).sum := by
  induction l with
  | nil => rfl
  | cons e rest ih =>
    have he := h e (List.mem_cons_self e rest)
    have ih' := ih (fun a ha hd => h a (List.mem_cons_of_mem e ha) hd)
    simp only [List.map_cons, List.filter_cons]
    cases hdir : e.data.isDir with
    | false =>
      have hee : calcSizesASlot t e = e :=
        calcSizesASlot_of_no_children t e (he hdir)
      rw [hee]
      simp only [hdir]
      simpa using ih'
    | true =>
      have hd2 : (calcSizesASlot t e).data.isDir = true := by
        rw [(calcSizesASlot_fields t e).2.2.1, hdir]
      simp only [hdir, hd2]
      simpa using ih'

/-- On a tree whose file (non-directory) nodes are childless,
`calculate_sizes` does not change the sum of file sizes. -/
theorem calcSizesA_sumNonDirSize (t : ATree)
    (h : ∀ e ∈ t.entries, e.data.isDir = false → e.childIdx = []) :
    (calcSizesA t).sumNonDirSize = t.sumNonDirSize := by
  unfold calcSizesA ATree.sumNonDirSize
  exact filterMapSum_calcSlot t t.entries h

theorem mkScanNode_path (tup : PTuple) : (mkScanNode tup).path = tup.1 := by
  obtain ⟨p, d, sy, sz, m, tg⟩ := tup
  unfold mkScanNode
  rcases m with _ | m <;> rcases tg with _ | tg <;> cases sy <;>
    simp [FileNode.withModified, FileNode.withSymlink, FileNode.new]

theorem mkScanNode_isDir (tup : PTuple) : (mkScanNode tup).isDir = tup.2.1 := by
  obtain ⟨p, d, sy, sz, m, tg⟩ := tup
  unfold mkScanNode
  rcases m with _ | m <;> rcases tg with _ | tg <;> cases sy <;>
    simp [FileNode.withModified, FileNode.withSymlink, FileNode.new]

theorem mkScanNode_size (tup : PTuple) :
    (mkScanNode tup).size = tup.2.2.2.1 := by
  obtain ⟨p, d, sy, sz, m, tg⟩ := tup
  unfold mkScanNode
  rcases m with _ | m <;> rcases tg with _ | tg <;> cases sy <;>
    simp [FileNode.withModified, FileNode.withSymlink, FileNode.new]

theorem addChild_get?_new (t : ATree) (pid : Nat) (n : FileNode) :
    ((t.addChild pid n).1).entries.get? t.entries.length =
      some ⟨n, some pid, []⟩ := by
  unfold ATree.addChild
  simp only
  rw [List.get?_append_right (by rw [updateAt_length])]
  rw [updateAt_length]
  simp

theorem addChild_get?_old (t : ATree) (pid : Nat) (n : FileNode) (i : Nat)
    (hi : i ≠ t.entries.length) :
    ((t.addChild pid n).1).entries.get? i =
      if i = pid then
        (t.entries.get? i).map
          (fun e => { e with childIdx := e.childIdx ++ [t.entries.length] })
      else t.entries.get? i := by
  unfold ATree.addChild
  simp only
  by_cases hlt : i < t.entries.length
  · rw [List.get?_append (by rw [updateAt_length]; exact hlt)]
    rw [updateAt_get?]
  · have hge : t.entries.length < i := by omega
    rw [List.get?_append_right (by rw [updateAt_length]; omega)]
    rw [updateAt_length]
    have h1 : (([⟨n, some pid, []⟩] : List ArenaEntry)).get? (i - t.entries.length) = none := by
      apply List.get?_eq_none.mpr
      simp
      omega
    rw [h1]
    have h2 : t.entries.get? i = none := by
      apply List.get?_eq_none.mpr
      omega
    rw [h2]
    simp

theorem addChild_paths (t : ATree) (pid : Nat) (n : FileNode) :
    ((t.addChild pid n).1).entries.map (fun e => e.data.path) =
      t.entries.map (fun e => e.data.path) ++ [n.path] := by
  unfold ATree.addChild
  simp only [List.map_append]
  rw [updateAt_map_of_preserve]
  · rfl
  · intro a
    rfl

theorem snd_mem_of_mem_enumFrom {α : Type} :
    ∀ (l : List α) (n : Nat) (q : Nat × α), q ∈ l.enumFrom n → q.2 ∈ l := by
  intro l
  induction l with
  | nil => intro n q h; cases h
  | cons a rest ih =>
    intro n q h
    rcases List.mem_cons.mp h with rfl | h
    · exact List.mem_cons_self _ _
    · exact List.mem_cons_of_mem _ (ih (n + 1) q h)

/-- Origin of a processed tuple: it comes from a successful walk item with
the same path and directory flag. -/
def OriginOK (items : List WalkItem) (tup : PTuple) : Prop :=
  ∃ w, WalkItem.ok w ∈ items ∧ tup.1 = w.path ∧ tup.2.1 = w.isDir

/-- A well-formed walk: the parent of every walked entry that was itself
walked is a directory (true of any filesystem walk). -/
def parentsAreDirs (items : List WalkItem) : Prop :=
  ∀ w w', WalkItem.ok w ∈ items → WalkItem.ok w' ∈ items →
    parentOf w.path = some w'.path → w'.isDir = true

theorem stageAFold_no_completed (cancel timeTh : Nat → Bool) (tot : Nat) :
    ∀ (l : List (Nat × WalkItem)) (st : StageAState),
      (∀ e ∈ st.events, isCompleted e = false) →
      ∀ e ∈ (l.foldl (stageAStep cancel timeTh tot) st).events,
        isCompleted e = false := by
  intro l
  induction l with
  | nil => intro st h; exact h
  | cons q rest ih =>
    intro st h
    apply ih
    intro e he
    unfold stageAStep at he
    by_cases hc : cancel q.1
    · rw [if_pos hc] at he
      exact h e he
    · rw [if_neg hc] at he
      rcases q with ⟨i, item⟩
      rcases item with w | p
      · simp only at he
        by_cases hsend : (100 ≤ st.filesFound + 1 - st.lastCount) || timeTh i
        · rw [if_pos hsend] at he
          rcases List.mem_append.mp he with h1 | h1
          · exact h e h1
          · rcases List.mem_singleton.mp h1 with rfl
            rfl
        · rw [if_neg hsend] at he
          exact h e he
      · rcases p with _ | path
        · exact h e he
        · simp only at he
          rcases List.mem_append.mp he with h1 | h1
          · exact h e h1
          · rcases List.mem_singleton.mp h1 with rfl
            rfl

theorem stageA_no_completed (cancel timeTh : Nat → Bool)
    (items : List WalkItem) :
    ∀ e ∈ (stageA cancel timeTh items).events, isCompleted e = false := by
  apply stageAFold_no_completed
  intro e he
  cases he

theorem stageAFold_origin (items : List WalkItem)
    (cancel timeTh : Nat → Bool) (tot : Nat) :
    ∀ (l : List (Nat × WalkItem)) (st : StageAState),
      (∀ q ∈ l, q.2 ∈ items) →
      (∀ tup ∈ st.processed, OriginOK items tup) →
      ∀ tup ∈ (l.foldl (stageAStep cancel timeTh tot) st).processed,
        OriginOK items tup := by
  intro l
  induction l with
  | nil => intro st _ h; exact h
  | cons q rest ih =>
    intro st hsub h
    apply ih
    · intro q' hq'
      exact hsub q' (List.mem_cons_of_mem _ hq')
    · intro tup htup
      unfold stageAStep at htup
      by_cases hc : cancel q.1
      · rw [if_pos hc] at htup
        exact h tup htup
      · rw [if_neg hc] at htup
        rcases hq : q.2 with w | p
        · rw [hq] at htup
          simp only at htup
          rcases List.mem_append.mp htup with h1 | h1
          · exact h tup h1
          · rcases List.mem_singleton.mp h1 with rfl
            refine ⟨w, ?_, rfl, rfl⟩
            have := hsub q (List.mem_cons_self q rest)
            rw [hq] at this
            exact this
        · rw [hq] at htup
          rcases p with _ | path
          · exact h tup htup
          · exact h tup htup

theorem stageA_origin (items : List WalkItem) (cancel timeTh : Nat → Bool) :
    ∀ tup ∈ (stageA cancel timeTh items).processed, OriginOK items tup := by
  apply stageAFold_origin
  · intro q hq
    exact snd_mem_of_mem_enumFrom items 0 q hq
  · intro tup htup
    cases htup

/-- Invariant of the sequential tree-construction loop: the root slot is
slot 0 and holds the root node; every other slot has a parent with a
smaller handle; the path map points at slots holding the mapped path; the
running totals count exactly the non-directory nodes of the arena; every
non-root slot originates from a successful walk item; under a well-formed
walk only directories have children; and the parent path of every
non-root node path is itself a node path. -/
def BuildInv (items : List WalkItem) (rootPath : RPath)
    (st : BuildState) : Prop :=
  (∃ e0, st.tree.entries.get? 0 = some e0 ∧
    e0.data = FileNode.new rootPath true ∧ e0.parent = none) ∧
  (∀ i e, st.tree.entries.get? i = some e → i ≠ 0 →
    ∃ j, e.parent = some j ∧ j < i) ∧
  (∀ q ∈ st.pathMap, ∃ e, st.tree.entries.get? q.2 = some e ∧
    e.data.path = q.1) ∧
  st.totalFiles = st.tree.countNonDir ∧
  st.totalSize = st.tree.sumNonDirSize ∧
  (∀ i e, st.tree.entries.get? i = some e → i ≠ 0 →
    e.data.path ≠ rootPath ∧
    ∃ w, WalkItem.ok w ∈ items ∧ e.data.path = w.path ∧
      e.data.isDir = w.isDir) ∧
  (parentsAreDirs items → ∀ i e, st.tree.entries.get? i = some e →
    e.childIdx ≠ [] → e.data.isDir = true) ∧
  (∀ p ∈ st.tree.entries.map (fun e => e.data.path), p ≠ rootPath →
    ((parentOf p).getD rootPath) ∈
      st.tree.entries.map (fun e => e.data.path))

theorem buildStep_inv {items : List WalkItem} {rootPath : RPath}
    {st : BuildState} {tup : PTuple}
    (hinv : BuildInv items rootPath st) (horig : OriginOK items tup) :
    BuildInv items rootPath (buildStep rootPath st tup) := by
  obtain ⟨hroot, hparents, hmap, hcount, hsum, horigin, hdirs, hclosure⟩ :=
    hinv
  unfold buildStep
  by_cases hpr : tup.1 = rootPath
  · rw [if_pos hpr]
    exact ⟨hroot, hparents, hmap, hcount, hsum, horigin, hdirs, hclosure⟩
  rw [if_neg hpr]
  rcases hlk : lookupPath st.pathMap ((parentOf tup.1).getD rootPath)
    with _ | parentId
  · simp only [hlk]
    exact ⟨hroot, hparents, hmap, hcount, hsum, horigin, hdirs, hclosure⟩
  simp only [hlk]
  -- facts about the parent slot
  have hfind : ∃ q, st.pathMap.find?
      (fun q => q.1 = ((parentOf tup.1).getD rootPath)) = some q ∧
      q.2 = parentId := by
    unfold lookupPath at hlk
    rcases hq : st.pathMap.find?
        (fun q => q.1 = ((parentOf tup.1).getD rootPath)) with _ | q
    · rw [hq] at hlk
      cases hlk
    · rw [hq] at hlk
      simp only [Option.map_some'] at hlk
      exact ⟨q, hq, by injection hlk⟩
  obtain ⟨q, hq, hq2⟩ := hfind
  have hqmem : q ∈ st.pathMap := List.mem_of_find?_eq_some hq
  have hqpath : q.1 = (parentOf tup.1).getD rootPath := by
    have := List.find?_some hq
    simpa using this
  obtain ⟨pe, hpe, hpepath⟩ := hmap q hqmem
  rw [hq2] at hpe
  have hplt : parentId < st.tree.entries.length := by
    rcases List.get?_eq_some.mp hpe with ⟨h, _⟩
    exact h
  have hlen1 : 1 ≤ st.tree.entries.length := by omega
  set len := st.tree.entries.length with hlendef
  set node2 := mkScanNode tup with hnode2
  have hn2path : node2.path = tup.1 := mkScanNode_path tup
  have hn2dir : node2.isDir = tup.2.1 := mkScanNode_isDir tup
  have hn2size : node2.size = tup.2.2.2.1 := mkScanNode_size tup
  have hgetnew := addChild_get?_new st.tree parentId node2
  refine ⟨?_, ?_, ?_, ?_, ?_, ?_, ?_, ?_⟩
  · -- root slot unchanged
    obtain ⟨e0, he0, he0d, he0p⟩ := hroot
    have h0 := addChild_get?_old st.tree parentId node2 0 (by omega)
    by_cases h0p : 0 = parentId
    · rw [if_pos h0p, he0] at h0
      exact ⟨_, h0, by simpa using he0d, by simpa using he0p⟩
    · rw [if_neg h0p] at h0
      rw [he0] at h0
      exact ⟨e0, h0, he0d, he0p⟩
  · -- parents have smaller handles
    intro i e hget hi0
    by_cases hilen : i = len
    · subst hilen
      rw [hgetnew] at hget
      injection hget with hget
      subst hget
      exact ⟨parentId, rfl, hplt⟩
    · have h1 := addChild_get?_old st.tree parentId node2 i hilen
      rw [h1] at hget
      by_cases hip : i = parentId
      · rw [if_pos hip] at hget
        rcases Option.map_eq_some'.mp hget with ⟨e', he', rfl⟩
        obtain ⟨j, hj, hjlt⟩ := hparents i e' he' hi0
        exact ⟨j, hj, hjlt⟩
      · rw [if_neg hip] at hget
        exact hparents i e hget hi0
  · -- path map soundness
    intro q' hq'
    rcases List.mem_cons.mp hq' with rfl | hq'
    · exact ⟨_, hgetnew, by simpa using hn2path⟩
    · obtain ⟨e, he, hepath⟩ := hmap q' hq'
      have hq'lt : q'.2 < len := by
        rcases List.get?_eq_some.mp he with ⟨h, _⟩
        exact h
      have h1 := addChild_get?_old st.tree parentId node2 q'.2 (by omega)
      by_cases hip : q'.2 = parentId
      · rw [if_pos hip, he] at h1
        exact ⟨_, h1, by simpa using hepath⟩
      · rw [if_neg hip, he] at h1
        exact ⟨e, h1, hepath⟩
  · -- file totals
    rw [addChild_countNonDir, hn2dir, ← hcount]
    cases htd : tup.2.1 <;> simp [htd]
  · -- size totals
    rw [addChild_sumNonDirSize, hn2dir, hn2size, ← hsum]
    cases htd : tup.2.1 <;> simp [htd]
  · -- origin of non-root slots
    intro i e hget hi0
    by_cases hilen : i = len
    · subst hilen
      rw [hgetnew] at hget
      injection hget with hget
      subst hget
      obtain ⟨w, hw, hwpath, hwdir⟩ := horig
      refine ⟨by simpa [hn2path] using hpr, w, hw, ?_, ?_⟩
      · simpa [hwpath] using hn2path
      · simpa [hwdir] using hn2dir
    · have h1 := addChild_get?_old st.tree parentId node2 i hilen
      rw [h1] at hget
      by_cases hip : i = parentId
      · rw [if_pos hip] at hget
        rcases Option.map_eq_some'.mp hget with ⟨e', he', rfl⟩
        exact horigin i e' he' hi0
      · rw [if_neg hip] at hget
        exact horigin i e hget hi0
  · -- only directories have children
    intro hPD i e hget hne
    by_cases hilen : i = len
    · subst hilen
      rw [hgetnew] at hget
      injection hget with hget
      subst hget
      simp at hne
    · have h1 := addChild_get?_old st.tree parentId node2 i hilen
      rw [h1] at hget
      by_cases hip : i = parentId
      · rw [if_pos hip] at hget
        rcases Option.map_eq_some'.mp hget with ⟨e', he', rfl⟩
        simp only
        subst hip
        have hee : e' = pe := by
          rw [he'] at hpe
          injection hpe
        subst hee
        by_cases hi0 : i = 0
        · subst hi0
          obtain ⟨e0, he0, he0d, _⟩ := hroot
          have : e' = e0 := by
            rw [he'] at he0
            injection he0
          subst this
          rw [he0d]
          rfl
        · obtain ⟨hpne, w', hw', hw'path, hw'dir⟩ := horigin i e' he' hi0
          rcases hpar : parentOf tup.1 with _ | pp
          · exfalso
            apply hpne
            rw [hpepath, hqpath, hpar]
            rfl
          · obtain ⟨w, hw, hwpath, _⟩ := horig
            have hppw : pp = w'.path := by
              have h2 : e'.data.path = pp := by
                rw [hpepath, hqpath, hpar]
                rfl
              rw [← hw'path, h2]
            have := hPD w w' hw hw' (by rw [← hwpath, hpar, hppw])
            rw [hw'dir, this]
      · rw [if_neg hip] at hget
        exact hdirs hPD i e hget hne
  · -- parent-path closure
    have hpaths := addChild_paths st.tree parentId node2
    rw [hpaths, hn2path]
    intro p hp hpne
    rcases List.mem_append.mp hp with hpold | hpnew
    · exact List.mem_append.mpr (Or.inl (hclosure p hpold hpne))
    · rcases List.mem_singleton.mp hpnew with rfl
      apply List.mem_append.mpr
      refine Or.inl ?_
      have hpem : pe ∈ st.tree.entries := List.get?_mem hpe
      have : pe.data.path ∈ st.tree.entries.map (fun e => e.data.path) :=
        List.mem_map.mpr ⟨pe, hpem, rfl⟩
      rw [hpepath, hqpath] at this
      exact this

theorem buildFold_inv {items : List WalkItem} {rootPath : RPath} :
    ∀ (l : List PTuple) (st : BuildState),
      BuildInv items rootPath st → (∀ tup ∈ l, OriginOK items tup) →
      BuildInv items rootPath (l.foldl (buildStep rootPath) st) := by
  intro l
  induction l with
  | nil => intro st h _; exact h
  | cons tup rest ih =>
    intro st h horig
    exact ih _ (buildStep_inv h (horig tup (List.mem_cons_self tup rest)))
      (fun q hq => horig q (List.mem_cons_of_mem _ hq))

theorem buildInit_inv (items : List WalkItem) (rootPath : RPath) :
    BuildInv items rootPath
      ⟨ATree.withRoot rootPath, [(rootPath, 0)], 0, 0, 0, []⟩ := by
  refine ⟨⟨⟨FileNode.new rootPath true, none, []⟩, rfl, rfl, rfl⟩,
    ?_, ?_, ?_, ?_, ?_, ?_, ?_⟩
  · intro i e hget hi0
    cases i with
    | zero => exact absurd rfl hi0
    | succ j =>
      simp [ATree.withRoot] at hget
  · intro q hq
    rcases List.mem_singleton.mp hq with rfl
    exact ⟨_, rfl, rfl⟩
  · simp [ATree.countNonDir, ATree.withRoot, FileNode.new]
  · simp [ATree.sumNonDirSize, ATree.withRoot, FileNode.new]
  · intro i e hget hi0
    cases i with
    | zero => exact absurd rfl hi0
    | succ j => simp [ATree.withRoot] at hget
  · intro _ i e hget hne
    cases i with
    | zero =>
      simp only [ATree.withRoot] at hget
      injection hget with hget
      subst hget
      simp at hne
    | succ j => simp [ATree.withRoot] at hget
  · intro p hp hpne
    simp only [ATree.withRoot, List.map_cons, List.map_nil] at hp
    rcases List.mem_singleton.mp hp with rfl
    exact absurd rfl hpne

theorem buildFold_no_completed (rootPath : RPath) :
    ∀ (l : List PTuple) (st : BuildState),
      (∀ e ∈ st.events, isCompleted e = false) →
      ∀ e ∈ (l.foldl (buildStep rootPath) st).events, isCompleted e = false := by
  intro l
  induction l with
  | nil => intro st h; exact h
  | cons tup rest ih =>
    intro st h
    apply ih
    intro e he
    unfold buildStep at he
    by_cases hpr : tup.1 = rootPath
    · rw [if_pos hpr] at he
      exact h e he
    · rw [if_neg hpr] at he
      rcases hlk : lookupPath st.pathMap ((parentOf tup.1).getD rootPath)
        with _ | parentId
      · simp only [hlk] at he
        exact h e he
      · simp only [hlk] at he
        by_cases hsend : (st.nodesSent + 1) % 50 = 0 ∨ st.nodesSent + 1 < 100
        · rw [if_pos (by simpa using hsend)] at he
          rcases List.mem_append.mp he with h1 | h1
          · exact h e h1
          · rcases List.mem_singleton.mp h1 with rfl
            rfl
        · rw [if_neg (by simpa using hsend)] at he
          exact h e he

/-- State of the sequential build stage inside `Scanner::scan`
(an abbreviation for the internal `let` of the model, used to state the
theorems below). -/
def scanBuild (rootPath : RPath) (items : List WalkItem)
    (cancel timeTh : Nat → Bool) : BuildState :=
  (List.insertionSort (fun a b : PTuple => a.1.length ≤ b.1.length)
      (stageA cancel timeTh items).processed).foldl (buildStep rootPath)
    ⟨ATree.withRoot rootPath, [(rootPath, 0)], 0, 0, 0, []⟩

theorem scanBuild_inv (rootPath : RPath) (items : List WalkItem)
    (cancel timeTh : Nat → Bool) :
    BuildInv items rootPath (scanBuild rootPath items cancel timeTh) := by
  apply buildFold_inv _ _ (buildInit_inv items rootPath)
  intro tup htup
  apply stageA_origin items cancel timeTh
  exact (List.perm_insertionSort _ _).mem_iff.mp htup

theorem scan_spec (rootPath : RPath) (items : List WalkItem)
    (cancel timeTh : Nat → Bool) (hc : cancel items.length = false) :
    Scanner.scan rootPath items cancel timeTh =
      (ScanEvent.started :: (stageA cancel timeTh items).events ++
        [ScanEvent.nodeDiscovered (FileNode.new rootPath true) rootPath] ++
        (scanBuild rootPath items cancel timeTh).events ++
        [ScanEvent.completed
          (scanBuild rootPath items cancel timeTh).totalFiles
          (scanBuild rootPath items cancel timeTh).totalSize
          (calcSizesA (scanBuild rootPath items cancel timeTh).tree)],
        .ok (calcSizesA (scanBuild rootPath items cancel timeTh).tree)) := by
  unfold Scanner.scan scanBuild
  rw [hc]
  simp [ATree.getNode, ATree.withRoot]

theorem scan_cancelled_spec (rootPath : RPath) (items : List WalkItem)
    (cancel timeTh : Nat → Bool) (hc : cancel items.length = true) :
    Scanner.scan rootPath items cancel timeTh =
      (ScanEvent.started :: (stageA cancel timeTh items).events,
        .error .interrupted) := by
  unfold Scanner.scan
  rw [hc]
  simp

theorem scanBuild_no_completed (rootPath : RPath) (items : List WalkItem)
    (cancel timeTh : Nat → Bool) :
    ∀ e ∈ (scanBuild rootPath items cancel timeTh).events,
      isCompleted e = false := by
  unfold scanBuild
  apply buildFold_no_completed
  intro e he
  cases he

/-- C3 (amended). The walker's cancellation flag (in the source a
scanner-local `AtomicBool` that is never set by any external caller,
modelled here as the read schedule `cancel`) is checked between entries in
the parallel metadata stage and once after that stage, but not during the
sequential insertion stage; when the flag is set at the post-stage check
the scan returns an `Interrupted` error and emits no `Completed` event. -/
theorem scan_interrupted_no_completed (rootPath : RPath)
    (items : List WalkItem) (cancel timeTh : Nat → Bool)
    (hc : cancel items.length = true) :
    (Scanner.scan rootPath items cancel timeTh).2 = .error .interrupted ∧
    ∀ tf ts tr, ScanEvent.completed tf ts tr ∉
      (Scanner.scan rootPath items cancel timeTh).1 := by
  rw [scan_cancelled_spec rootPath items cancel timeTh hc]
  refine ⟨rfl, ?_⟩
  intro tf ts tr hmem
  rcases List.mem_cons.mp hmem with h | h
  · simp at h
  · have := stageA_no_completed cancel timeTh items _ h
    simp [isCompleted] at this

/-- Always-true cancellation schedule for the C3 witness. -/
def ctrue : Nat → Bool := fun _ => true

/-- Always-false schedule (cancellation or throttle oracle). -/
def cfalse : Nat → Bool := fun _ => false

/-- Witness for `scan_interrupted_no_completed` at a concrete scan. -/
theorem scan_interrupted_no_completed_witness :
    ctrue ([] : List WalkItem).length = true ∧
    (Scanner.scan [['/']] [] ctrue cfalse).2 = .error .interrupted ∧
    ScanEvent.completed 0 0 (ATree.withRoot [['/']]) ∉
      (Scanner.scan [['/']] [] ctrue cfalse).1 :=
  ⟨rfl, (scan_interrupted_no_completed [['/']] [] ctrue cfalse rfl).1,
    (scan_interrupted_no_completed [['/']] [] ctrue cfalse rfl).2 0 0 _⟩

/-- Walk items for the C3 counterexample: one plain file under the
root. -/
def cexC3Items : List WalkItem :=
  [WalkItem.ok ⟨[['/'], ['T'], ['a']], false, false, 100, none, none⟩]

/-- Cancellation schedule that becomes set only after the two
parallel-stage reads (that is, during the sequential insertion stage). -/
def cexC3Cancel : Nat → Bool := fun k => decide (2 ≤ k)

/-- C3 counterexample: with the flag set during the sequential insertion
stage (read indices 2 and later) the scan still succeeds and emits a
`Completed` event, because the insertion stage performs no cancellation
check — refuting the claim that a flag set during the scan yields an
`Interrupted` error with no `Completed` event. -/
theorem cexC3_flag_during_insertion_ignored :
    ((Scanner.scan [['/'], ['T']] cexC3Items cexC3Cancel cfalse).2).isOk
        = true ∧
    ((Scanner.scan [['/'], ['T']] cexC3Items cexC3Cancel cfalse).1.any
        isCompleted) = true := by
  exact ⟨by decide, by decide⟩

theorem remoteInsert_filesFound (st : RemoteState) (path : RPath)
    (isDir : Bool) (size : Nat) :
    (remoteInsert st path isDir size).filesFound = st.filesFound := by
  unfold remoteInsert
  rcases hr : st.tree.root with _ | r
  · simp [hr]
  · simp only [hr]
    rcases hp : parentOf path with _ | pp
    · simp [hp]
    · simp only [hp]
      rcases hl : lookupPath st.pathMap pp with _ | pid
      · simp [hl]
      · simp [hl]

theorem remoteStep_filesFound (st : RemoteState) (line : CStr) :
    (remoteStep st line).filesFound =
      st.filesFound +
        (if (splitAllChar '|' line).length < 3 then 0 else 1) := by
  unfold remoteStep
  by_cases h : (splitAllChar '|' line).length < 3
  · simp [h]
  · simp [h, remoteInsert_filesFound]

theorem remoteFold_count :
    ∀ (lines : List CStr) (st : RemoteState),
      (lines.foldl remoteStep st).filesFound =
        st.filesFound +
          lines.countP (fun l => !decide ((splitAllChar '|' l).length < 3)) := by
  intro lines
  induction lines with
  | nil => intro st; simp
  | cons l rest ih =>
    intro st
    simp only [List.foldl_cons, List.countP_cons, ih,
      remoteStep_filesFound]
    by_cases h : (splitAllChar '|' l).length < 3
    · simp [h]
    · simp only [if_neg h, decide_eq_true_eq]
      have hd : (!decide ((splitAllChar '|' l).length < 3)) = true := by
        simp [h]
      rw [hd]
      simp only [if_true]
      omega

/-- C4 (amended). For a local scan that completes normally, the
`total_files` on the `Completed` event equals the number of non-directory
nodes in the delivered tree; the remote `find`-based scanner instead
reports the number of accepted listing lines (those with at least three
pipe-separated fields), which counts directories and lines dropped for a
missing parent as well. -/
theorem completed_totalFiles_characterization :
    (∀ (rootPath : RPath) (items : List WalkItem)
        (cancel timeTh : Nat → Bool) (evs : List ScanEvent) (t : ATree)
        (tf ts : Nat) (tr : ATree),
      Scanner.scan rootPath items cancel timeTh = (evs, .ok t) →
      ScanEvent.completed tf ts tr ∈ evs → tf = tr.countNonDir) ∧
    (∀ lines : List CStr, (RemoteScanner.scanWithFind lines).2.2.1 =
      lines.countP (fun l => !decide ((splitAllChar '|' l).length < 3))) := by
  constructor
  · intro rootPath items cancel timeTh evs t tf ts tr hscan hmem
    cases hc : cancel items.length with
    | true =>
      rw [scan_cancelled_spec rootPath items cancel timeTh hc] at hscan
      simp at hscan
    | false =>
      rw [scan_spec rootPath items cancel timeTh hc] at hscan
      rw [Prod.mk.injEq] at hscan
      obtain ⟨hevs, _⟩ := hscan
      subst hevs
      rcases List.mem_cons.mp hmem with h | h
      · simp at h
      rcases List.mem_append.mp h with h | h
      · rcases List.mem_append.mp h with h | h
        · rcases List.mem_append.mp h with h | h
          · have := stageA_no_completed cancel timeTh items _ h
            simp [isCompleted] at this
          · rcases List.mem_singleton.mp h with h
            simp at h
        · have := scanBuild_no_completed rootPath items cancel timeTh _ h
          simp [isCompleted] at this
      · rcases List.mem_singleton.mp h with h
        injection h with h1 h2 h3
        subst h1
        subst h3
        rw [calcSizesA_countNonDir]
        exact (scanBuild_inv rootPath items cancel timeTh).2.2.2.1
  · intro lines
    unfold RemoteScanner.scanWithFind
    simp only
    rw [remoteFold_count]
    simp

instance {ε α : Type} [DecidableEq ε] [DecidableEq α] :
    DecidableEq (Except ε α) := fun a b =>
  match a, b with
  | .error e, .error e' =>
    decidable_of_iff (e = e') ⟨fun h => by rw [h], fun h => by injection h⟩
  | .ok x, .ok y =>
    decidable_of_iff (x = y) ⟨fun h => by rw [h], fun h => by injection h⟩
  | .ok _, .error _ => isFalse (fun h => Except.noConfusion h)
  | .error _, .ok _ => isFalse (fun h => Except.noConfusion h)

/-- Tree delivered by the empty local scan used in witnesses. -/
def emptyScanTree : ATree := ATree.withRoot [['/']]

/-- Event list of the empty local scan used in witnesses. -/
def emptyScanEvents : List ScanEvent :=
  [ScanEvent.started,
    ScanEvent.nodeDiscovered (FileNode.new [['/']] true) [['/']],
    ScanEvent.completed 0 0 emptyScanTree]

/-- Listing lines used for the C4 witness: a root directory line and one
file line. -/
def c4WitnessLines : List CStr :=
  [['/', 'w', '|', 'd', '|', '0'],
    ['/', 'w', '/', 'g', '|', 'f', '|', '9']]

/-- Witness for `completed_totalFiles_characterization` at concrete
scans. -/
theorem completed_totalFiles_characterization_witness :
    (Scanner.scan [['/']] [] cfalse cfalse
        = (emptyScanEvents, .ok emptyScanTree)) ∧
    ScanEvent.completed 0 0 emptyScanTree ∈ emptyScanEvents ∧
    0 = emptyScanTree.countNonDir ∧
    (RemoteScanner.scanWithFind c4WitnessLines).2.2.1 = 2 :=
  ⟨by decide, by decide,
    completed_totalFiles_characterization.1 [['/']] [] cfalse cfalse
      emptyScanEvents emptyScanTree 0 0 emptyScanTree (by decide)
      (by decide),
    (completed_totalFiles_characterization.2 c4WitnessLines).trans
      (by decide)⟩

/-- Listing lines for the C4 counterexample: a directory line and a file
line. -/
def cexC4Lines : List CStr :=
  [['/', 'r', '|', 'd', '|', '0'],
    ['/', 'r', '/', 'f', '1', '|', 'f', '|', '1', '0', '2', '4']]

/-- C4 counterexample: on the two-line remote listing `/r` (directory) and
`/r/f1` (file), `scan_with_find` reports `total_files = 2` while the
delivered tree contains exactly 1 non-directory node — the remote scanner
counts every accepted listing line, directories included. -/
theorem cexC4_remote_counts_directories :
    (RemoteScanner.scanWithFind cexC4Lines).2.2.1 = 2 ∧
    ((RemoteScanner.scanWithFind cexC4Lines).2.1).countNonDir = 1 ∧
    (2 : Nat) ≠ 1 :=
  ⟨by decide, by decide, by decide⟩

/-- A node handle whose parent chain reaches the root handle 0. -/
inductive ReachRoot (t : ATree) : Nat → Prop where
  | root : ReachRoot t 0
  | step {i j : Nat} (e : ArenaEntry) (hget : t.entries.get? i = some e)
      (hp : e.parent = some j) (h : ReachRoot t j) : ReachRoot t i

theorem reachRoot_of_struct (t : ATree)
    (hp : ∀ i e, t.entries.get? i = some e → i ≠ 0 →
      ∃ j, e.parent = some j ∧ j < i) :
    ∀ i, i < t.entries.length → ReachRoot t i := by
  intro i
  induction i using Nat.strong_induction_on with
  | _ i ih =>
    intro hi
    by_cases h0 : i = 0
    · subst h0
      exact ReachRoot.root
    · rcases hg : t.entries.get? i with _ | e
      · rw [List.get?_eq_none] at hg
        omega
      · obtain ⟨j, hj, hjlt⟩ := hp i e hg h0
        exact ReachRoot.step e hg hj (ih j hjlt (by omega))

/-- C10 (confirmed). In a local scan that completes normally: every node
of the delivered tree has a parent chain reaching the root; the parent
path of every non-root node path is itself a node path; an entry whose
parent path has no node in the tree is itself absent from the tree (it
was silently dropped); and the totals on the `Completed` event count only
the nodes actually inserted — `total_files` is the number of
non-directory nodes and, for a well-formed walk (parents of walked
entries are directories), `total_size` is the sum of their sizes. -/
theorem scan_dropped_entries (rootPath : RPath) (items : List WalkItem)
    (cancel timeTh : Nat → Bool) (evs : List ScanEvent) (t : ATree)
    (hscan : Scanner.scan rootPath items cancel timeTh = (evs, .ok t)) :
    (∀ i, i < t.entries.length → ReachRoot t i) ∧
    (∀ p ∈ t.entries.map (fun e => e.data.path), p ≠ rootPath →
      ((parentOf p).getD rootPath) ∈
        t.entries.map (fun e => e.data.path)) ∧
    (∀ w : WEntry, WalkItem.ok w ∈ items → w.path ≠ rootPath →
      ((parentOf w.path).getD rootPath) ∉
          t.entries.map (fun e => e.data.path) →
      w.path ∉ t.entries.map (fun e => e.data.path)) ∧
    (∀ tf ts tr, ScanEvent.completed tf ts tr ∈ evs →
      tf = tr.countNonDir ∧
      (parentsAreDirs items → ts = tr.sumNonDirSize)) := by
  cases hc : cancel items.length with
  | true =>
    rw [scan_cancelled_spec rootPath items cancel timeTh hc] at hscan
    simp at hscan
  | false =>
    rw [scan_spec rootPath items cancel timeTh hc] at hscan
    rw [Prod.mk.injEq] at hscan
    obtain ⟨hevs, ht⟩ := hscan
    have ht' : t = calcSizesA (scanBuild rootPath items cancel timeTh).tree := by
      injection ht with ht
      exact ht.symm
    obtain ⟨hroot, hparents, hmap, hcount, hsum, horigin, hdirs, hclosure⟩ :=
      scanBuild_inv rootPath items cancel timeTh
    have hpar_t : ∀ i e, t.entries.get? i = some e → i ≠ 0 →
        ∃ j, e.parent = some j ∧ j < i := by
      intro i e hget hi0
      have hshape :=
        (calcSizesA_entry_shape (scanBuild rootPath items cancel timeTh).tree i).1
      rw [← ht', hget] at hshape
      rcases hold : (scanBuild rootPath items cancel timeTh).tree.entries.get? i
        with _ | e'
      · rw [hold] at hshape
        simp at hshape
      · rw [hold] at hshape
        simp only [Option.map_some'] at hshape
        obtain ⟨j, hj, hjlt⟩ := hparents i e' hold hi0
        injection hshape with hshape
        exact ⟨j, by rw [hshape, hj], hjlt⟩
    have hpaths_t : t.entries.map (fun e => e.data.path) =
        (scanBuild rootPath items cancel timeTh).tree.entries.map
          (fun e => e.data.path) := by
      rw [ht']
      exact calcSizesA_paths _
    refine ⟨reachRoot_of_struct t hpar_t, ?_, ?_, ?_⟩
    · rw [hpaths_t]
      exact hclosure
    · intro w hw hwne hnp hin
      apply hnp
      rw [hpaths_t] at hin ⊢
      exact hclosure w.path hin hwne
    · intro tf ts tr hmem
      rw [← hevs] at hmem
      rcases List.mem_cons.mp hmem with h | h
      · simp at h
      rcases List.mem_append.mp h with h | h
      · rcases List.mem_append.mp h with h | h
        · rcases List.mem_append.mp h with h | h
          · have := stageA_no_completed cancel timeTh items _ h
            simp [isCompleted] at this
          · rcases List.mem_singleton.mp h with h
            simp at h
        · have := scanBuild_no_completed rootPath items cancel timeTh _ h
          simp [isCompleted] at this
      · rcases List.mem_singleton.mp h with h
        injection h with h1 h2 h3
        subst h1
        subst h2
        subst h3
        constructor
        · rw [calcSizesA_countNonDir]
          exact hcount
        · intro hPD
          rw [calcSizesA_sumNonDirSize]
          · exact hsum
          · intro e he hd
            rcases List.mem_iff_get?.mp he with ⟨i, hi⟩
            by_contra hne
            have := hdirs hPD i e hi hne
            rw [hd] at this
            cases this

/-- Walk items for the C10 witness: one file whose parent directory was
never walked (for example because it failed to stat). -/
def c10WitnessItems : List WalkItem :=
  [WalkItem.ok ⟨[['/'], ['T'], ['x'], ['a']], false, false, 7, none, none⟩]

/-- Tree delivered by the C10 witness scan: the dropped entry leaves only
the root. -/
def c10WitnessTree : ATree := ATree.withRoot [['/'], ['T']]

/-- Event list of the C10 witness scan. -/
def c10WitnessEvents : List ScanEvent :=
  [ScanEvent.started,
    ScanEvent.nodeDiscovered (FileNode.new [['/'], ['T']] true)
      [['/'], ['T']],
    ScanEvent.completed 0 0 c10WitnessTree]

/-- Witness for `scan_dropped_entries`: the entry `/T/x/a` whose parent
`/T/x` has no node is absent from the delivered tree and counted in
neither total. -/
theorem scan_dropped_entries_witness :
    (Scanner.scan [['/'], ['T']] c10WitnessItems cfalse cfalse
        = (c10WitnessEvents, .ok c10WitnessTree)) ∧
    (([['/'], ['T'], ['x'], ['a']] : RPath) ∉
      c10WitnessTree.entries.map (fun e => e.data.path)) ∧
    ReachRoot c10WitnessTree 0 := by
  refine ⟨by decide, ?_, ?_⟩
  · exact (scan_dropped_entries [['/'], ['T']] c10WitnessItems cfalse cfalse
      c10WitnessEvents c10WitnessTree (by decide)).2.2.1
      ⟨[['/'], ['T'], ['x'], ['a']], false, false, 7, none, none⟩
      (by decide) (by decide) (by decide)
  · exact (scan_dropped_entries [['/'], ['T']] c10WitnessItems cfalse cfalse
      c10WitnessEvents c10WitnessTree (by decide)).1 0 (by decide)

/-- One filesystem entry seen by the duplicate detector's walk: basename,
full path, kind flags, file contents (the stat size is the content
length) and modification time. -/
structure DirEntryD where
  name : CStr
  path : CStr
  isDir : Bool
  isSymlink : Bool
  content : List Nat
  modified : Int
deriving DecidableEq, Repr

/-- The directory tree walked by the duplicate detector. -/
inductive WalkT where
  | node (e : DirEntryD) (children : List WalkT)

mutual

/-- Entries yielded by `WalkDir::new(path).filter_entry(...)` in
detector.rs lines 76-89: preorder, skipping every subtree whose root name
starts with a dot unless hidden files are included. -/
def walkEntriesD (inc : Bool) : WalkT → List DirEntryD
  | .node e cs =>
    if !inc && startsWithChar '.' e.name then []
    else e :: walkEntriesDList inc cs

/-- Walk of a list of sibling subtrees. -/
def walkEntriesDList (inc : Bool) : List WalkT → List DirEntryD
  | [] => []
  | t :: ts => walkEntriesD inc t ++ walkEntriesDList inc ts

end

/-- `DuplicateScanConfig` (detector.rs lines 13-17). -/
structure DuplicateScanConfig where
  minSize : Nat
  includeHidden : Bool
deriving DecidableEq, Repr

/-- The default configuration: 1 KiB minimum size, hidden excluded. -/
def DuplicateScanConfig.default : DuplicateScanConfig := ⟨1024, false⟩

/-- SHA-256 of the first 4 KiB of a file (`partial_hash`, hasher.rs),
with the digest modelled by the hashed bytes themselves. -/
def partHash (content : List Nat) : List Nat := content.take 4096

/-- SHA-256 of the whole file (`full_hash`, hasher.rs), with the digest
modelled by the hashed bytes themselves (injective digest). -/
def fullHashM (content : List Nat) : List Nat := content

/-- `DuplicateFile` (detector.rs lines 38-43). -/
structure DupFile where
  path : CStr
  size : Nat
  modified : Int
deriving DecidableEq, Repr

/-- `DuplicateGroup` (detector.rs lines 46-51). -/
structure DupGroup where
  hash : List Nat
  size : Nat
  files : List DupFile
deriving DecidableEq, Repr

/-- `DuplicateScanResult` (detector.rs lines 54-59). -/
structure DupResult where
  groups : List DupGroup
  totalDuplicates : Nat
  wastedSpace : Nat
deriving DecidableEq, Repr

/-- Append a value to the bucket of a key in an association-list map
(models `HashMap::entry(k).or_default().push(v)`; bucket order is
first-insertion order, to which all proved properties are
insensitive). -/
def pushBucket {κ α : Type} [DecidableEq κ]
    (m : List (κ × List α)) (k : κ) (v : α) : List (κ × List α) :=
  match m with
  | [] => [(k, [v])]
  | (k', vs) :: rest =>
    if k' = k then (k', vs ++ [v]) :: rest
    else (k', vs) :: pushBucket rest k v

/-- Phase 1 of `find_duplicates` (detector.rs lines 76-134): walk the
entries, reading the cancellation flag before each one (`k` numbers the
reads); skip directories, symlinks and files below the minimum size;
bucket the rest by size. -/
def dupPhase1 (cfg : DuplicateScanConfig) (cancel : Nat → Bool) :
    List DirEntryD → Nat → List (Nat × List DirEntryD) →
    Except CStr (List (Nat × List DirEntryD) × Nat)
  | [], k, groups => .ok (groups, k)
  | e :: rest, k, groups =>
    if cancel k then .error ['S', 'c', 'a', 'n', ' ', 'c', 'a', 'n', 'c', 'e', 'l', 'l', 'e', 'd']
    else if e.isDir || e.isSymlink then dupPhase1 cfg cancel rest (k + 1) groups
    else if e.content.length < cfg.minSize then
      dupPhase1 cfg cancel rest (k + 1) groups
    else dupPhase1 cfg cancel rest (k + 1) (pushBucket groups e.content.length e)

/-- Phase 2 of `find_duplicates` (detector.rs lines 148-180): for each
surviving size bucket, read the cancellation flag once (the check sits
between buckets, not between files), then bucket every file of the bucket
by `(size, partial hash)`. Per-file hash failures, swallowed in the
source, do not occur in the model (contents are given). -/
def dupPhase2 (cancel : Nat → Bool) :
    List (Nat × List DirEntryD) → Nat →
    List ((Nat × List Nat) × List DirEntryD) →
    Except CStr (List ((Nat × List Nat) × List DirEntryD) × Nat)
  | [], k, acc => .ok (acc, k)
  | (size, files) :: rest, k, acc =>
    if cancel k then .error ['S', 'c', 'a', 'n', ' ', 'c', 'a', 'n', 'c', 'e', 'l', 'l', 'e', 'd']
    else dupPhase2 cancel rest (k + 1)
      (files.foldl (fun m f => pushBucket m (size, partHash f.content) f) acc)

/-- Phase 3 of `find_duplicates` (detector.rs lines 189-224): for each
surviving partial-hash bucket, read the cancellation flag once; a set
flag makes the bucket contribute nothing (`return vec![]`) — it does NOT
produce an error; otherwise every file maps to its
`(full hash, size, path, modified)` tuple. -/
def dupPhase3 (cancel : Nat → Bool) :
    List ((Nat × List Nat) × List DirEntryD) → Nat →
    List (List Nat × Nat × CStr × Int) →
    List (List Nat × Nat × CStr × Int) × Nat
  | [], k, acc => (acc, k)
  | ((size, _), files) :: rest, k, acc =>
    if cancel k then dupPhase3 cancel rest (k + 1) acc
    else dupPhase3 cancel rest (k + 1)
      (acc ++ files.map (fun f => (fullHashM f.content, size, f.path, f.modified)))

/-- Grouping of the phase-3 tuples by full hash (detector.rs lines
227-233). -/
def groupByHash (l : List (List Nat × Nat × CStr × Int)) :
    List (List Nat × List (CStr × Nat × Int)) :=
  l.foldl (fun m q => pushBucket m q.1 (q.2.2.1, q.2.1, q.2.2.2)) []

/-- Building one `DuplicateGroup` from a surviving hash bucket
(detector.rs lines 238-257): the group size is the first member's
recorded size. -/
def buildGroup (q : List Nat × List (CStr × Nat × Int)) : DupGroup :=
  { hash := q.1
    size := ((q.2.head?).map (fun f => f.2.1)).getD 0
    files := q.2.map (fun f => ⟨f.1, f.2.1, f.2.2⟩) }

/-- Wasted bytes of a group: `size × (member count − 1)` (detector.rs
lines 260-264). -/
def wasteOf (g : DupGroup) : Nat := g.size * (g.files.length - 1)

/-- Group order used by the final sort: wasted bytes descending. -/
def wasteDesc (a b : DupGroup) : Prop := wasteOf b ≤ wasteOf a

/-- Member order used inside each group: modified time ascending. -/
def modAsc (a b : DupFile) : Prop := a.modified ≤ b.modified

instance : DecidableRel wasteDesc := fun _ _ => Nat.decLe _ _

instance : IsTotal DupGroup wasteDesc :=
  ⟨fun a b => le_total (wasteOf b) (wasteOf a)⟩

instance : IsTrans DupGroup wasteDesc :=
  ⟨fun _ _ _ hab hbc => le_trans hbc hab⟩

instance : DecidableRel modAsc := fun _ _ => Int.decLe _ _

instance : IsTotal DupFile modAsc := ⟨fun a b => le_total a.modified b.modified⟩

instance : IsTrans DupFile modAsc :=
  ⟨fun _ _ _ hab hbc => le_trans hab hbc⟩

/-- `find_duplicates` (detector.rs lines 62-285): the three bucketing
phases with their cancellation reads, pruning of singleton buckets after
each phase, group construction, the two stable sorts (groups by wasted
bytes descending, then members by modified ascending) and the totals. -/
def findDuplicates (walk : WalkT) (cfg : DuplicateScanConfig)
    (cancel : Nat → Bool) : Except CStr DupResult :=
  let entries := walkEntriesD cfg.includeHidden walk
  match dupPhase1 cfg cancel entries 0 [] with
  | .error msg => .error msg
  | .ok (sizeGroups0, k1) =>
    let sizeGroups := sizeGroups0.filter (fun q => 1 < q.2.length)
    match dupPhase2 cancel sizeGroups k1 [] with
    | .error msg => .error msg
    | .ok (pGroups0, k2) =>
      let pGroups := pGroups0.filter (fun q => 1 < q.2.length)
      let res3 := dupPhase3 cancel pGroups k2 []
      let hGroups := (groupByHash res3.1).filter (fun q => 1 < q.2.length)
      let groups1 := List.insertionSort wasteDesc (hGroups.map buildGroup)
      let groups := groups1.map
        (fun g => { g with files := List.insertionSort modAsc g.files })
      .ok { groups := groups
            totalDuplicates := (groups.map (fun g => g.files.length - 1)).sum
            wastedSpace := (groups.map wasteOf).sum }

/-- Bucket-map invariant: every value in the bucket of a key satisfies a
property of that key. -/
def BucketInv {κ α : Type} (P : κ → α → Prop) (m : List (κ × List α)) : Prop :=
  ∀ q ∈ m, ∀ x ∈ q.2, P q.1 x

lemma bucketInv_nil {κ α : Type} (P : κ → α → Prop) : BucketInv P [] := by
  intro q hq
  exact absurd hq (List.not_mem_nil q)

lemma pushBucket_inv {κ α : Type} [DecidableEq κ] {P : κ → α → Prop}
    {m : List (κ × List α)} {k : κ} {v : α}
    (hm : BucketInv P m) (hv : P k v) : BucketInv P (pushBucket m k v) := by
  induction m with
  | nil =>
    intro q hq x hx
    simp only [pushBucket, List.mem_singleton] at hq
    subst hq
    simp only [List.mem_singleton] at hx
    subst hx
    exact hv
  | cons p rest ih =>
    obtain ⟨k', vs⟩ := p
    simp only [pushBucket]
    by_cases hk : k' = k
    · subst hk
      rw [if_pos rfl]
      intro q hq x hx
      rcases List.mem_cons.mp hq with hq | hq
      · subst hq
        rcases List.mem_append.mp hx with hx | hx
        · exact hm ⟨k', vs⟩ (List.mem_cons_self _ _) x hx
        · simp only [List.mem_singleton] at hx
          subst hx
          exact hv
      · exact hm q (List.mem_cons_of_mem _ hq) x hx
    · rw [if_neg hk]
      intro q hq x hx
      rcases List.mem_cons.mp hq with hq | hq
      · subst hq
        exact hm ⟨k', vs⟩ (List.mem_cons_self _ _) x hx
      · exact ih (fun p hp y hy => hm p (List.mem_cons_of_mem _ hp) y hy) q hq x hx

lemma foldl_pushBucket_inv {κ α β : Type} [DecidableEq κ] (P : κ → α → Prop)
    (kf : β → κ) (vf : β → α) :
    ∀ (l : List β) (acc : List (κ × List α)), BucketInv P acc →
      (∀ b ∈ l, P (kf b) (vf b)) →
      BucketInv P (l.foldl (fun m b => pushBucket m (kf b) (vf b)) acc)
  | [], _, hacc, _ => hacc
  | b :: l, acc, hacc, hl => by
    simp only [List.foldl_cons]
    exact foldl_pushBucket_inv P kf vf l _
      (pushBucket_inv hacc (hl b (List.mem_cons_self _ _)))
      (fun b' hb' => hl b' (List.mem_cons_of_mem _ hb'))

/-- Phase-1 bucket property: members were walked and have the bucket's
size. -/
def SizeBucketP (entries : List DirEntryD) (s : Nat) (e : DirEntryD) : Prop :=
  e ∈ entries ∧ e.content.length = s

/-- Phase-2 bucket property: members were walked and have the key's size
component. -/
def PartBucketP (entries : List DirEntryD) (key : Nat × List Nat)
    (e : DirEntryD) : Prop :=
  e ∈ entries ∧ e.content.length = key.1

/-- Phase-3 tuple property: the tuple records a walked entry's full hash,
size, path and modified time. -/
def TupleP (entries : List DirEntryD) (q : List Nat × Nat × CStr × Int) : Prop :=
  ∃ e ∈ entries, q.1 = e.content ∧ q.2.1 = e.content.length ∧
    q.2.2.1 = e.path ∧ q.2.2.2 = e.modified

/-- Hash-bucket member property after grouping by full hash. -/
def HashBucketP (entries : List DirEntryD) (h : List Nat)
    (f : CStr × Nat × Int) : Prop :=
  ∃ e ∈ entries, h = e.content ∧ f.1 = e.path ∧ f.2.1 = e.content.length ∧
    f.2.2 = e.modified

lemma dupPhase1_inv (cfg : DuplicateScanConfig) (cancel : Nat → Bool)
    (entries : List DirEntryD) :
    ∀ (l : List DirEntryD) (k : Nat) (groups res : List (Nat × List DirEntryD))
      (k' : Nat),
      (∀ e ∈ l, e ∈ entries) →
      BucketInv (SizeBucketP entries) groups →
      dupPhase1 cfg cancel l k groups = .ok (res, k') →
      BucketInv (SizeBucketP entries) res := by
  intro l
  induction l with
  | nil =>
    intro k groups res k' _ hg h
    simp only [dupPhase1] at h
    cases h
    exact hg
  | cons e rest ih =>
    intro k groups res k' hl hg h
    simp only [dupPhase1] at h
    by_cases hc : cancel k = true
    · rw [if_pos hc] at h
      cases h
    · rw [if_neg hc] at h
      by_cases hd : (e.isDir || e.isSymlink) = true
      · rw [if_pos hd] at h
        exact ih (k + 1) groups res k'
          (fun x hx => hl x (List.mem_cons_of_mem _ hx)) hg h
      · rw [if_neg hd] at h
        by_cases hs : e.content.length < cfg.minSize
        · rw [if_pos hs] at h
          exact ih (k + 1) groups res k'
            (fun x hx => hl x (List.mem_cons_of_mem _ hx)) hg h
        · rw [if_neg hs] at h
          exact ih (k + 1) _ res k'
            (fun x hx => hl x (List.mem_cons_of_mem _ hx))
            (pushBucket_inv hg ⟨hl e (List.mem_cons_self _ _), rfl⟩) h

lemma dupPhase2_inv (cancel : Nat → Bool) (entries : List DirEntryD) :
    ∀ (l : List (Nat × List DirEntryD)) (k : Nat)
      (acc res : List ((Nat × List Nat) × List DirEntryD)) (k' : Nat),
      BucketInv (SizeBucketP entries) l →
      BucketInv (PartBucketP entries) acc →
      dupPhase2 cancel l k acc = .ok (res, k') →
      BucketInv (PartBucketP entries) res := by
  intro l
  induction l with
  | nil =>
    intro k acc res k' _ ha h
    simp only [dupPhase2] at h
    cases h
    exact ha
  | cons q rest ih =>
    obtain ⟨size, files⟩ := q
    intro k acc res k' hl ha h
    simp only [dupPhase2] at h
    by_cases hc : cancel k = true
    · rw [if_pos hc] at h
      cases h
    · rw [if_neg hc] at h
      refine ih (k + 1) _ res k' (fun p hp => hl p (List.mem_cons_of_mem _ hp)) ?_ h
      refine foldl_pushBucket_inv (PartBucketP entries)
        (fun f => (size, partHash f.content)) (fun f => f) files acc ha ?_
      intro f hf
      exact ⟨(hl ⟨size, files⟩ (List.mem_cons_self _ _) f hf).1,
        (hl ⟨size, files⟩ (List.mem_cons_self _ _) f hf).2⟩

lemma dupPhase3_inv (cancel : Nat → Bool) (entries : List DirEntryD) :
    ∀ (l : List ((Nat × List Nat) × List DirEntryD)) (k : Nat)
      (acc : List (List Nat × Nat × CStr × Int)),
      BucketInv (PartBucketP entries) l →
      (∀ q ∈ acc, TupleP entries q) →
      ∀ q ∈ (dupPhase3 cancel l k acc).1, TupleP entries q := by
  intro l
  induction l with
  | nil =>
    intro k acc _ ha
    simpa only [dupPhase3] using ha
  | cons b rest ih =>
    obtain ⟨⟨size, ph⟩, files⟩ := b
    intro k acc hl ha
    simp only [dupPhase3]
    by_cases hc : cancel k = true
    · rw [if_pos hc]
      exact ih (k + 1) acc (fun p hp => hl p (List.mem_cons_of_mem _ hp)) ha
    · rw [if_neg hc]
      refine ih (k + 1) _ (fun p hp => hl p (List.mem_cons_of_mem _ hp)) ?_
      intro q hq
      rcases List.mem_append.mp hq with hq | hq
      · exact ha q hq
      · rcases List.mem_map.mp hq with ⟨f, hf, rfl⟩
        have hfp := hl ⟨⟨size, ph⟩, files⟩ (List.mem_cons_self _ _) f hf
        exact ⟨f, hfp.1, rfl, hfp.2.symm, rfl, rfl⟩

lemma groupByHash_inv (entries : List DirEntryD)
    (l : List (List Nat × Nat × CStr × Int))
    (hl : ∀ q ∈ l, TupleP entries q) :
    BucketInv (HashBucketP entries) (groupByHash l) := by
  unfold groupByHash
  refine foldl_pushBucket_inv (HashBucketP entries)
    (fun q => q.1) (fun q => (q.2.2.1, q.2.1, q.2.2.2)) l [] (bucketInv_nil _) ?_
  intro q hq
  obtain ⟨e, he, h1, h2, h3, h4⟩ := hl q hq
  exact ⟨e, he, h1, h3, h2, h4⟩

/-- The per-group half of the C2 property: at least two members, and every
member traceable to a walked entry whose content is the group hash and
whose stat size is the group size. -/
def GroupOK (entries : List DirEntryD) (g : DupGroup) : Prop :=
  2 ≤ g.files.length ∧
  ∀ f ∈ g.files, f.size = g.size ∧
    ∃ e ∈ entries, e.path = f.path ∧ e.content = g.hash ∧
      e.content.length = g.size ∧ e.modified = f.modified

lemma buildGroup_ok (entries : List DirEntryD)
    (h : List Nat) (xs : List (CStr × Nat × Int))
    (hq : ∀ x ∈ xs, HashBucketP entries h x)
    (hlen : 1 < xs.length) :
    GroupOK entries (buildGroup (h, xs)) := by
  cases xs with
  | nil => simp at hlen
  | cons x xs' =>
    have hsz : ∀ y ∈ x :: xs', y.2.1 = h.length := by
      intro y hy
      obtain ⟨e, _, h1, _, h3, _⟩ := hq y hy
      rw [h3, ← h1]
    have hgsize : (buildGroup (h, x :: xs')).size = h.length := by
      simp only [buildGroup, List.head?_cons, Option.map_some', Option.getD_some]
      exact hsz x (List.mem_cons_self _ _)
    constructor
    · simp only [buildGroup, List.length_map, List.length_cons]
      simp only [List.length_cons] at hlen
      omega
    · intro f hf
      simp only [buildGroup, List.mem_map] at hf
      obtain ⟨y, hy, rfl⟩ := hf
      obtain ⟨e, he, h1, h2, h3, h4⟩ := hq y hy
      refine ⟨?_, e, he, h2.symm, h1.symm, ?_, h4.symm⟩
      · show y.2.1 = _
        rw [hgsize]
        exact hsz y hy
      · rw [hgsize, ← h1]

lemma wasteOf_sortFiles (g : DupGroup) :
    wasteOf { g with files := List.insertionSort modAsc g.files } = wasteOf g := by
  simp only [wasteOf, (List.perm_insertionSort modAsc g.files).length_eq]

/-- C2: for every result returned by the duplicate detector, each group
has at least 2 files, all with equal size (the group size) and equal full
digest (the group hash, every member tracing to a walked entry whose
content is that hash and whose size is the group size); members are
sorted by modified ascending; groups are sorted by wasted bytes
descending; and the totals are the claimed sums over the groups. -/
theorem duplicate_result_properties (walk : WalkT) (cfg : DuplicateScanConfig)
    (cancel : Nat → Bool) (r : DupResult)
    (h : findDuplicates walk cfg cancel = .ok r) :
    (∀ g ∈ r.groups,
      2 ≤ g.files.length ∧
      (∀ f ∈ g.files, f.size = g.size ∧
        ∃ e ∈ walkEntriesD cfg.includeHidden walk,
          e.path = f.path ∧ e.content = g.hash ∧
          e.content.length = g.size ∧ e.modified = f.modified) ∧
      List.Pairwise modAsc g.files) ∧
    List.Pairwise wasteDesc r.groups ∧
    r.totalDuplicates = (r.groups.map (fun g => g.files.length - 1)).sum ∧
    r.wastedSpace = (r.groups.map wasteOf).sum := by
  simp only [findDuplicates] at h
  rcases h1 : dupPhase1 cfg cancel (walkEntriesD cfg.includeHidden walk) 0 []
    with msg | ⟨sizeGroups0, k1⟩
  · simp only [h1] at h
    cases h
  simp only [h1] at h
  rcases h2 : dupPhase2 cancel (sizeGroups0.filter (fun q => 1 < q.2.length)) k1 []
    with msg | ⟨pGroups0, k2⟩
  · simp only [h2] at h
    cases h
  simp only [h2] at h
  injection h with h
  subst h
  have hp1 : BucketInv (SizeBucketP (walkEntriesD cfg.includeHidden walk)) sizeGroups0 :=
    dupPhase1_inv cfg cancel _ _ 0 [] sizeGroups0 k1 (fun e he => he)
      (bucketInv_nil _) h1
  have hp1f : BucketInv (SizeBucketP (walkEntriesD cfg.includeHidden walk))
      (sizeGroups0.filter (fun q => 1 < q.2.length)) :=
    fun q hq => hp1 q (List.mem_filter.mp hq).1
  have hp2 : BucketInv (PartBucketP (walkEntriesD cfg.includeHidden walk)) pGroups0 :=
    dupPhase2_inv cancel _ _ k1 [] pGroups0 k2 hp1f (bucketInv_nil _) h2
  have hp2f : BucketInv (PartBucketP (walkEntriesD cfg.includeHidden walk))
      (pGroups0.filter (fun q => 1 < q.2.length)) :=
    fun q hq => hp2 q (List.mem_filter.mp hq).1
  have hp3 : ∀ q ∈ (dupPhase3 cancel (pGroups0.filter (fun q => 1 < q.2.length))
      k2 []).1, TupleP (walkEntriesD cfg.includeHidden walk) q :=
    dupPhase3_inv cancel _ _ k2 [] hp2f
      (fun q hq => absurd hq (List.not_mem_nil q))
  have hgb : BucketInv (HashBucketP (walkEntriesD cfg.includeHidden walk))
      (groupByHash (dupPhase3 cancel
        (pGroups0.filter (fun q => 1 < q.2.length)) k2 []).1) :=
    groupByHash_inv _ _ hp3
  have hok0 : ∀ g ∈ ((groupByHash (dupPhase3 cancel
        (pGroups0.filter (fun q => 1 < q.2.length)) k2 []).1).filter
        (fun q => 1 < q.2.length)).map buildGroup,
      GroupOK (walkEntriesD cfg.includeHidden walk) g := by
    intro g hg
    rcases List.mem_map.mp hg with ⟨q, hq, rfl⟩
    have hqf := List.mem_filter.mp hq
    obtain ⟨qh, qxs⟩ := q
    exact buildGroup_ok _ qh qxs (fun x hx => hgb ⟨qh, qxs⟩ hqf.1 x hx)
      (by simpa using hqf.2)
  have hok1 : ∀ g ∈ List.insertionSort wasteDesc
      (((groupByHash (dupPhase3 cancel
        (pGroups0.filter (fun q => 1 < q.2.length)) k2 []).1).filter
        (fun q => 1 < q.2.length)).map buildGroup),
      GroupOK (walkEntriesD cfg.includeHidden walk) g :=
    fun g hg => hok0 g ((List.perm_insertionSort wasteDesc _).subset hg)
  refine ⟨?_, ?_, rfl, rfl⟩
  · intro g hg
    rcases List.mem_map.mp hg with ⟨g0, hg0, rfl⟩
    obtain ⟨hlen0, hmem0⟩ := hok1 g0 hg0
    refine ⟨?_, ?_, ?_⟩
    · show 2 ≤ (List.insertionSort modAsc g0.files).length
      rw [(List.perm_insertionSort modAsc g0.files).length_eq]
      exact hlen0
    · intro f hf
      have hf0 : f ∈ g0.files := (List.perm_insertionSort modAsc g0.files).subset hf
      exact hmem0 f hf0
    · exact List.sorted_insertionSort modAsc g0.files
  · refine List.Pairwise.map _ ?_ (List.sorted_insertionSort wasteDesc _)
    intro a b hab
    show wasteOf _ ≤ wasteOf _
    rw [wasteOf_sortFiles, wasteOf_sortFiles]
    exact hab

/-- A tiny walk with two identical 1-byte files under one root. -/
def c2Walk : WalkT :=
  .node ⟨['r'], ['/', 'r'], true, false, [], 0⟩
    [.node ⟨['a'], ['/', 'r', '/', 'a'], false, false, [7], 1⟩ [],
     .node ⟨['b'], ['/', 'r', '/', 'b'], false, false, [7], 2⟩ []]

/-- The detector's result on `c2Walk` with a 1-byte minimum size. -/
def c2Res : DupResult :=
  { groups := [⟨[7], 1, [⟨['/', 'r', '/', 'a'], 1, 1⟩, ⟨['/', 'r', '/', 'b'], 1, 2⟩]⟩]
    totalDuplicates := 1
    wastedSpace := 1 }

theorem duplicate_result_properties_witness :
    (∀ g ∈ c2Res.groups,
      2 ≤ g.files.length ∧
      (∀ f ∈ g.files, f.size = g.size ∧
        ∃ e ∈ walkEntriesD (DuplicateScanConfig.mk 1 false).includeHidden c2Walk,
          e.path = f.path ∧ e.content = g.hash ∧
          e.content.length = g.size ∧ e.modified = f.modified) ∧
      List.Pairwise modAsc g.files) ∧
    List.Pairwise wasteDesc c2Res.groups ∧
    c2Res.totalDuplicates = (c2Res.groups.map (fun g => g.files.length - 1)).sum ∧
    c2Res.wastedSpace = (c2Res.groups.map wasteOf).sum :=
  duplicate_result_properties c2Walk ⟨1, false⟩ (fun _ => false) c2Res (by decide)

/-- A walk with two identical 1-byte files, used to exercise the
detector's cancellation reads. -/
def c9Walk : WalkT :=
  .node ⟨['r'], ['/', 'r'], true, false, [], 0⟩
    [.node ⟨['a'], ['/', 'r', '/', 'a'], false, false, [7], 1⟩ [],
     .node ⟨['b'], ['/', 'r', '/', 'b'], false, false, [7], 2⟩ []]

/-- On `c9Walk` the detector reads the flag at indices 0,1,2 (phase 1,
one per entry), 3 (phase 2, one per size bucket) and 4 (phase 3, one per
partial-hash bucket). A flag first set at read 4 — i.e. set while full
hashing is underway — does NOT produce a "Scan cancelled" error: the
bucket is skipped and the detector returns an Ok empty result. -/
theorem cexC9_cancel_during_full_hash_returns_ok :
    (fun k => decide (4 ≤ k)) 4 = true ∧
    findDuplicates c9Walk ⟨1, false⟩ (fun k => decide (4 ≤ k)) =
      .ok ⟨[], 0, 0⟩ := by
  decide

/-- C9 (amended): a flag set before the first read yields the
"Scan cancelled" error on any walk with at least one entry (the checks in
phases 1 and 2 do error out), while phase 3 cannot error at all: with the
flag set throughout, every full-hash bucket is skipped and the
accumulated tuples are returned unchanged. -/
theorem dup_cancellation :
    (∀ (walk : WalkT) (cfg : DuplicateScanConfig) (cancel : Nat → Bool),
      cancel 0 = true → walkEntriesD cfg.includeHidden walk ≠ [] →
      findDuplicates walk cfg cancel =
        .error ['S', 'c', 'a', 'n', ' ', 'c', 'a', 'n', 'c', 'e', 'l', 'l', 'e', 'd']) ∧
    (∀ (cancel : Nat → Bool)
      (l : List ((Nat × List Nat) × List DirEntryD)) (k : Nat)
      (acc : List (List Nat × Nat × CStr × Int)),
      (∀ j, cancel j = true) → dupPhase3 cancel l k acc = (acc, k + l.length)) := by
  constructor
  · intro walk cfg cancel hc0 hne
    simp only [findDuplicates]
    rcases hE : walkEntriesD cfg.includeHidden walk with _ | ⟨e, rest⟩
    · exact absurd hE hne
    have h1 : dupPhase1 cfg cancel (e :: rest) 0 [] =
        .error ['S', 'c', 'a', 'n', ' ', 'c', 'a', 'n', 'c', 'e', 'l', 'l', 'e', 'd'] := by
      simp only [dupPhase1]
      rw [if_pos hc0]
    simp only [hE, h1]
  · intro cancel l k acc hall
    induction l generalizing k acc with
    | nil => simp [dupPhase3]
    | cons b rest ih =>
      obtain ⟨⟨size, ph⟩, files⟩ := b
      simp only [dupPhase3]
      rw [if_pos (hall k), ih (k + 1) acc]
      simp only [List.length_cons]
      congr 1
      omega

theorem dup_cancellation_witness :
    findDuplicates c9Walk ⟨1, false⟩ (fun _ => true) =
      .error ['S', 'c', 'a', 'n', ' ', 'c', 'a', 'n', 'c', 'e', 'l', 'l', 'e', 'd'] ∧
    dupPhase3 (fun _ => true) [((1, [7]), [])] 0 [] = ([], 1) :=
  ⟨dup_cancellation.1 c9Walk ⟨1, false⟩ (fun _ => true) rfl (by decide),
   dup_cancellation.2 (fun _ => true) [((1, [7]), [])] 0 [] (fun _ => rfl)⟩

/-- A treemap input item: node id and size (treemap_panel.rs keeps name,
path and extension alongside; they do not influence the geometry). -/
structure TItem where
  id : Nat
  size : Nat
deriving DecidableEq, Repr

/-- An output rectangle (x, y, width, height), with the reals of the
source modelled exactly over ℚ. -/
structure QRect where
  x : ℚ
  y : ℚ
  w : ℚ
  h : ℚ
deriving DecidableEq, Repr

/-- The ratio computation of find_best_row (treemap_panel.rs lines
654-660 and 664-669): `if a > b { a / b } else { b / a }`. -/
def ratioQ (a b : ℚ) : ℚ := if b < a then a / b else b / a

/-- The worst aspect ratio find_best_row computes for `row ++ [item]`
(treemap_panel.rs lines 645-671): the row thickness is
`(row_area + item_area) / side`; each member's ratio is taken against
that thickness, existing members first, the candidate last. -/
def fbrWorstRatio (scale side rowArea itemArea : ℚ) (row : List TItem) : ℚ :=
  max
    (row.foldl (fun wst e => max wst
      (ratioQ ((e.size : ℚ) * scale / ((rowArea + itemArea) / side))
        ((rowArea + itemArea) / side))) 0)
    (ratioQ (itemArea / ((rowArea + itemArea) / side))
      ((rowArea + itemArea) / side))

/-- The accumulation loop of find_best_row (treemap_panel.rs lines
640-681): accept the next item while its worst ratio does not exceed the
last accepted one (`best_ratio` starts at f64::MAX, which the
`row.is_empty()` disjunct makes irrelevant; modelled as 0). -/
def fbrGo (scale side : ℚ) :
    List TItem → List TItem → ℚ → ℚ → List TItem × List TItem
  | [], row, _, _ => (row, [])
  | it :: rest, row, rowArea, bestRatio =>
    if fbrWorstRatio scale side rowArea ((it.size : ℚ) * scale) row ≤ bestRatio
        ∨ row = [] then
      fbrGo scale side rest (row ++ [it]) (rowArea + (it.size : ℚ) * scale)
        (fbrWorstRatio scale side rowArea ((it.size : ℚ) * scale) row)
    else (row, it :: rest)

/-- `find_best_row` (treemap_panel.rs lines 629-683). -/
def findBestRow (scale side : ℚ) (items : List TItem) : List TItem × List TItem :=
  fbrGo scale side items [] 0 0

/-- The row-layout loop of the GUI squarify (treemap_panel.rs lines
585-612): stripes of thickness `row_size` along the laying side, each of
length `item_area / row_size` (0 when the thickness is not positive). -/
def layRowGui (horizontal : Bool) (cx cy rowSize scale : ℚ) :
    List TItem → ℚ → List (TItem × QRect)
  | [], _ => []
  | it :: rest, offset =>
    (it, if horizontal then
        QRect.mk cx (cy + offset) rowSize
          (if 0 < rowSize then (it.size : ℚ) * scale / rowSize else 0)
      else
        QRect.mk (cx + offset) cy
          (if 0 < rowSize then (it.size : ℚ) * scale / rowSize else 0) rowSize) ::
    layRowGui horizontal cx cy rowSize scale rest
      (offset + (if 0 < rowSize then (it.size : ℚ) * scale / rowSize else 0))

/-- The main loop of the GUI squarify (treemap_panel.rs lines 568-625):
lay along the shorter side, take the best row, lay it out, consume the
row thickness from the long side. The loop consumes at least one item per
iteration, which the fuel argument (instantiated with the item count)
makes structural. -/
def squarifyGuiGo (scale : ℚ) :
    Nat → ℚ → ℚ → ℚ → ℚ → List TItem → List (TItem × QRect)
  | 0, _, _, _, _, _ => []
  | _, _, _, _, _, [] => []
  | fuel + 1, cx, cy, cw, ch, it :: rest0 =>
    if (findBestRow scale (if ch ≤ cw then ch else cw) (it :: rest0)).1 = [] then []
    else
      layRowGui (ch ≤ cw) cx cy
        (if 0 < (if ch ≤ cw then ch else cw) then
          (((findBestRow scale (if ch ≤ cw then ch else cw) (it :: rest0)).1.map
            (fun e => (e.size : ℚ) * scale)).sum) / (if ch ≤ cw then ch else cw)
        else 0) scale
        (findBestRow scale (if ch ≤ cw then ch else cw) (it :: rest0)).1 0 ++
      (if ch ≤ cw then
        squarifyGuiGo scale fuel
          (cx + (if 0 < (if ch ≤ cw then ch else cw) then
            (((findBestRow scale (if ch ≤ cw then ch else cw) (it :: rest0)).1.map
              (fun e => (e.size : ℚ) * scale)).sum) / (if ch ≤ cw then ch else cw)
          else 0)) cy
          (cw - (if 0 < (if ch ≤ cw then ch else cw) then
            (((findBestRow scale (if ch ≤ cw then ch else cw) (it :: rest0)).1.map
              (fun e => (e.size : ℚ) * scale)).sum) / (if ch ≤ cw then ch else cw)
          else 0)) ch
          (findBestRow scale (if ch ≤ cw then ch else cw) (it :: rest0)).2
      else
        squarifyGuiGo scale fuel cx
          (cy + (if 0 < (if ch ≤ cw then ch else cw) then
            (((findBestRow scale (if ch ≤ cw then ch else cw) (it :: rest0)).1.map
              (fun e => (e.size : ℚ) * scale)).sum) / (if ch ≤ cw then ch else cw)
          else 0)) cw
          (ch - (if 0 < (if ch ≤ cw then ch else cw) then
            (((findBestRow scale (if ch ≤ cw then ch else cw) (it :: rest0)).1.map
              (fun e => (e.size : ℚ) * scale)).sum) / (if ch ≤ cw then ch else cw)
          else 0))
          (findBestRow scale (if ch ≤ cw then ch else cw) (it :: rest0)).2)

/-- The GUI `squarify` (treemap_panel.rs lines 543-625): early return on
empty input, zero total or non-positive rectangle, else the row loop with
`scale = w*h/total`. -/
def squarifyGui (items : List TItem) (x y width height : ℚ)
    (totalSize : Nat) : List (TItem × QRect) :=
  if items = [] ∨ totalSize = 0 ∨ width ≤ 0 ∨ height ≤ 0 then []
  else squarifyGuiGo ((width * height) / (totalSize : ℚ)) items.length
    x y width height items

/-- The TUI `squarify` loop (treemap.rs lines 249-291): despite the
"Squarified treemap algorithm" doc comment, it is slice-and-dice — one
item at a time fills a stripe of the current row, the direction flipping
whenever the leftover side drops to ≤ 1, at which point the cursor resets
to the rectangle origin. -/
def tuiGo (scale xO yO wO hO : ℚ) :
    List TItem → ℚ → ℚ → ℚ → ℚ → Bool → List (TItem × QRect)
  | [], _, _, _, _, _ => []
  | it :: rest, cx, cy, cw, ch, horiz =>
    if horiz then
      (it, QRect.mk cx cy
        (min (if 0 < ch then (it.size : ℚ) * scale / ch else 0) cw) ch) ::
      (if cw - min (if 0 < ch then (it.size : ℚ) * scale / ch else 0) cw ≤ 1 then
        tuiGo scale xO yO wO hO rest xO cy wO ch false
      else
        tuiGo scale xO yO wO hO rest
          (cx + min (if 0 < ch then (it.size : ℚ) * scale / ch else 0) cw) cy
          (cw - min (if 0 < ch then (it.size : ℚ) * scale / ch else 0) cw) ch true)
    else
      (it, QRect.mk cx cy cw
        (min (if 0 < cw then (it.size : ℚ) * scale / cw else 0) ch)) ::
      (if ch - min (if 0 < cw then (it.size : ℚ) * scale / cw else 0) ch ≤ 1 then
        tuiGo scale xO yO wO hO rest cx yO cw hO true
      else
        tuiGo scale xO yO wO hO rest
          cx (cy + min (if 0 < cw then (it.size : ℚ) * scale / cw else 0) ch)
          cw (ch - min (if 0 < cw then (it.size : ℚ) * scale / cw else 0) ch) false)

/-- The TUI `squarify` (treemap.rs lines 230-295): same early return as
the GUI version, then the alternating slice-and-dice loop starting
horizontal iff `width >= height`. -/
def squarifyTui (items : List TItem) (x y width height : ℚ)
    (totalSize : Nat) : List (TItem × QRect) :=
  if items = [] ∨ totalSize = 0 ∨ width ≤ 0 ∨ height ≤ 0 then []
  else tuiGo ((width * height) / (totalSize : ℚ)) x y width height items
    x y width height (height ≤ width)

/-- SPEC-MODELLED (spec §4.6, not from the source): the aspect ratio of
an `a × b` rectangle, `max (a/b) (b/a)`. -/
def rectRatio (a b : ℚ) : ℚ := max (a / b) (b / a)

/-- SPEC-MODELLED (spec §4.6 step 3): the worst aspect ratio of a row of
areas laid along a side: thickness `Σ areas / side`, each member a stripe
of length `area / thickness`. -/
def worstRatioSpec (side : ℚ) (areas : List ℚ) : ℚ :=
  (areas.map (fun a =>
    rectRatio (a / (areas.sum / side)) (areas.sum / side))).foldl max 0

/-- SPEC-MODELLED (spec §4.6 step 3): greedily accept children into the
row while the worst aspect ratio does not worsen; stop at the first child
that would worsen it (the first child is always accepted). -/
def specRow (scale side : ℚ) :
    List TItem → List TItem → List TItem × List TItem
  | [], row => (row, [])
  | it :: rest, row =>
    if row = [] ∨ worstRatioSpec side
          ((row ++ [it]).map (fun e => (e.size : ℚ) * scale)) ≤
        worstRatioSpec side (row.map (fun e => (e.size : ℚ) * scale)) then
      specRow scale side rest (row ++ [it])
    else (row, it :: rest)

/-- SPEC-MODELLED (spec §4.6 step 4): each child of a row gets a stripe
along the long axis of thickness `t` and length proportional to its
area. -/
def layRowSpec (horizontal : Bool) (cx cy t scale : ℚ) :
    List TItem → ℚ → List (TItem × QRect)
  | [], _ => []
  | it :: rest, offset =>
    (it, if horizontal then QRect.mk cx (cy + offset) t ((it.size : ℚ) * scale / t)
      else QRect.mk (cx + offset) cy ((it.size : ℚ) * scale / t) t) ::
    layRowSpec horizontal cx cy t scale rest (offset + (it.size : ℚ) * scale / t)

/-- SPEC-MODELLED (spec §4.6 step 3): rows along the shorter side of the
remaining rectangle, each row consuming its thickness from the longer
side. -/
def squarifySpecGo (scale : ℚ) :
    Nat → ℚ → ℚ → ℚ → ℚ → List TItem → List (TItem × QRect)
  | 0, _, _, _, _, _ => []
  | _, _, _, _, _, [] => []
  | fuel + 1, cx, cy, cw, ch, it :: rest0 =>
    layRowSpec (ch ≤ cw) cx cy
      (((specRow scale (if ch ≤ cw then ch else cw) (it :: rest0) []).1.map
        (fun e => (e.size : ℚ) * scale)).sum / (if ch ≤ cw then ch else cw)) scale
      (specRow scale (if ch ≤ cw then ch else cw) (it :: rest0) []).1 0 ++
    (if ch ≤ cw then
      squarifySpecGo scale fuel
        (cx + ((specRow scale (if ch ≤ cw then ch else cw) (it :: rest0) []).1.map
          (fun e => (e.size : ℚ) * scale)).sum / (if ch ≤ cw then ch else cw)) cy
        (cw - ((specRow scale (if ch ≤ cw then ch else cw) (it :: rest0) []).1.map
          (fun e => (e.size : ℚ) * scale)).sum / (if ch ≤ cw then ch else cw)) ch
        (specRow scale (if ch ≤ cw then ch else cw) (it :: rest0) []).2
    else
      squarifySpecGo scale fuel cx
        (cy + ((specRow scale (if ch ≤ cw then ch else cw) (it :: rest0) []).1.map
          (fun e => (e.size : ℚ) * scale)).sum / (if ch ≤ cw then ch else cw)) cw
        (ch - ((specRow scale (if ch ≤ cw then ch else cw) (it :: rest0) []).1.map
          (fun e => (e.size : ℚ) * scale)).sum / (if ch ≤ cw then ch else cw))
        (specRow scale (if ch ≤ cw then ch else cw) (it :: rest0) []).2)

/-- SPEC-MODELLED (spec §4.6 steps 1-3): the squarified layout, with the
degenerate early return of step 2's preconditions. -/
def squarifySpec (items : List TItem) (x y width height : ℚ)
    (totalSize : Nat) : List (TItem × QRect) :=
  if items = [] ∨ totalSize = 0 ∨ width ≤ 0 ∨ height ≤ 0 then []
  else squarifySpecGo ((width * height) / (totalSize : ℚ)) items.length
    x y width height items

lemma ratioQ_eq_rectRatio {a b : ℚ} (ha : 0 < a) (hb : 0 < b) :
    ratioQ a b = rectRatio a b := by
  unfold ratioQ rectRatio
  rcases lt_or_le b a with hba | hab
  · rw [if_pos hba, max_eq_left]
    rw [div_le_div_iff ha hb]
    exact mul_self_le_mul_self hb.le hba.le
  · rw [if_neg (not_lt.mpr hab), max_eq_right]
    rw [div_le_div_iff hb ha]
    exact mul_self_le_mul_self ha.le hab

lemma foldl_max_congr (f g : TItem → ℚ) :
    ∀ (l : List TItem) (b : ℚ), (∀ e ∈ l, f e = g e) →
      l.foldl (fun w e => max w (f e)) b = l.foldl (fun w e => max w (g e)) b
  | [], _, _ => rfl
  | e :: l, b, h => by
    simp only [List.foldl_cons]
    rw [h e (List.mem_cons_self _ _)]
    exact foldl_max_congr f g l _ (fun x hx => h x (List.mem_cons_of_mem _ hx))

lemma areas_sum_eq (scale : ℚ) :
    ∀ (l : List TItem),
      (l.map (fun e => (e.size : ℚ) * scale)).sum =
        scale * (l.map (fun e => (e.size : ℚ))).sum
  | [] => by simp
  | e :: l => by
    simp only [List.map_cons, List.sum_cons, areas_sum_eq scale l]
    ring

lemma areas_sum_nonneg {scale : ℚ} (hscale : 0 ≤ scale) (l : List TItem) :
    0 ≤ (l.map (fun e => (e.size : ℚ) * scale)).sum := by
  refine List.sum_nonneg ?_
  intro a ha
  rcases List.mem_map.mp ha with ⟨e, _, rfl⟩
  exact mul_nonneg (Nat.cast_nonneg _) hscale

lemma areas_sum_pos {scale : ℚ} (hscale : 0 < scale) :
    ∀ (l : List TItem), l ≠ [] → (∀ e ∈ l, 0 < e.size) →
      0 < (l.map (fun e => (e.size : ℚ) * scale)).sum := by
  intro l hl hpos
  cases l with
  | nil => exact absurd rfl hl
  | cons e r =>
    simp only [List.map_cons, List.sum_cons]
    refine add_pos_of_pos_of_nonneg ?_ (areas_sum_nonneg hscale.le r)
    exact mul_pos (by exact_mod_cast hpos e (List.mem_cons_self _ _)) hscale

lemma fbrWorstRatio_eq (scale side : ℚ) (hscale : 0 < scale) (hside : 0 < side)
    (row : List TItem) (it : TItem)
    (hrow : ∀ e ∈ row, 0 < e.size) (hit : 0 < it.size) :
    fbrWorstRatio scale side ((row.map (fun e => (e.size : ℚ) * scale)).sum)
      ((it.size : ℚ) * scale) row =
    worstRatioSpec side ((row ++ [it]).map (fun e => (e.size : ℚ) * scale)) := by
  have hitA : 0 < (it.size : ℚ) * scale :=
    mul_pos (by exact_mod_cast hit) hscale
  have hsum : ((row ++ [it]).map (fun e => (e.size : ℚ) * scale)).sum =
      (row.map (fun e => (e.size : ℚ) * scale)).sum + (it.size : ℚ) * scale := by
    simp [List.sum_append]
  have hTpos : 0 <
      ((row.map (fun e => (e.size : ℚ) * scale)).sum + (it.size : ℚ) * scale) / side :=
    div_pos (add_pos_of_nonneg_of_pos (areas_sum_nonneg hscale.le row) hitA) hside
  unfold fbrWorstRatio worstRatioSpec
  rw [hsum, List.map_append]
  simp only [List.map_cons, List.map_nil, List.map_append, List.foldl_append,
    List.foldl_cons, List.foldl_nil, List.map_map]
  rw [List.foldl_map]
  congr 1
  · refine foldl_max_congr _ _ row 0 ?_
    intro e he
    exact ratioQ_eq_rectRatio
      (div_pos (mul_pos (by exact_mod_cast hrow e he) hscale) hTpos) hTpos
  · exact ratioQ_eq_rectRatio (div_pos hitA hTpos) hTpos

lemma fbrGo_append (scale side : ℚ) :
    ∀ (l row : List TItem) (ra br : ℚ),
      (fbrGo scale side l row ra br).1 ++ (fbrGo scale side l row ra br).2 =
        row ++ l := by
  intro l
  induction l with
  | nil =>
    intro row ra br
    simp [fbrGo]
  | cons it rest ih =>
    intro row ra br
    simp only [fbrGo]
    by_cases hcond : fbrWorstRatio scale side ra ((it.size : ℚ) * scale) row ≤ br
        ∨ row = []
    · rw [if_pos hcond, ih]
      simp
    · rw [if_neg hcond]

lemma fbrGo_prefix (scale side : ℚ) :
    ∀ (l row : List TItem) (ra br : ℚ),
      ∃ ext, (fbrGo scale side l row ra br).1 = row ++ ext := by
  intro l
  induction l with
  | nil =>
    intro row ra br
    exact ⟨[], by simp [fbrGo]⟩
  | cons it rest ih =>
    intro row ra br
    simp only [fbrGo]
    by_cases hcond : fbrWorstRatio scale side ra ((it.size : ℚ) * scale) row ≤ br
        ∨ row = []
    · rw [if_pos hcond]
      obtain ⟨ext, hext⟩ := ih (row ++ [it])
        (ra + (it.size : ℚ) * scale)
        (fbrWorstRatio scale side ra ((it.size : ℚ) * scale) row)
      exact ⟨[it] ++ ext, by rw [hext, List.append_assoc]⟩
    · rw [if_neg hcond]
      exact ⟨[], by simp⟩

lemma findBestRow_fst_ne_nil (scale side : ℚ) (it : TItem) (rest : List TItem) :
    (findBestRow scale side (it :: rest)).1 ≠ [] := by
  unfold findBestRow
  simp only [fbrGo]
  rw [if_pos (Or.inr trivial)]
  obtain ⟨ext, hext⟩ := fbrGo_prefix scale side rest ([] ++ [it])
    (0 + (it.size : ℚ) * scale)
    (fbrWorstRatio scale side 0 ((it.size : ℚ) * scale) [])
  rw [hext]
  simp

lemma fbrGo_eq_specRow (scale side : ℚ) (hscale : 0 < scale) (hside : 0 < side) :
    ∀ (l row : List TItem) (bestRatio : ℚ),
      (∀ e ∈ l, 0 < e.size) → (∀ e ∈ row, 0 < e.size) →
      (row ≠ [] → bestRatio =
        worstRatioSpec side (row.map (fun e => (e.size : ℚ) * scale))) →
      fbrGo scale side l row ((row.map (fun e => (e.size : ℚ) * scale)).sum)
        bestRatio = specRow scale side l row := by
  intro l
  induction l with
  | nil =>
    intro row br _ _ _
    simp [fbrGo, specRow]
  | cons it rest ih =>
    intro row br hl hrow hbr
    have hit : 0 < it.size := hl it (List.mem_cons_self _ _)
    have hl' : ∀ e ∈ rest, 0 < e.size :=
      fun e he => hl e (List.mem_cons_of_mem _ he)
    have hrow' : ∀ e ∈ row ++ [it], 0 < e.size := by
      intro e he
      rcases List.mem_append.mp he with he | he
      · exact hrow e he
      · simp only [List.mem_singleton] at he
        subst he
        exact hit
    have hw := fbrWorstRatio_eq scale side hscale hside row it hrow hit
    have hsumstep : (row.map (fun e => (e.size : ℚ) * scale)).sum +
        (it.size : ℚ) * scale =
        ((row ++ [it]).map (fun e => (e.size : ℚ) * scale)).sum := by
      simp [List.sum_append]
    simp only [fbrGo, specRow]
    rcases eq_or_ne row [] with hre | hre
    · subst hre
      rw [if_pos (Or.inr rfl), if_pos (Or.inl rfl), hsumstep]
      exact ih ([] ++ [it]) _ hl' hrow' (fun _ => hw)
    · have hbr' := hbr hre
      by_cases hcond : worstRatioSpec side
          ((row ++ [it]).map (fun e => (e.size : ℚ) * scale)) ≤
          worstRatioSpec side (row.map (fun e => (e.size : ℚ) * scale))
      · have hcondL : fbrWorstRatio scale side
            ((row.map (fun e => (e.size : ℚ) * scale)).sum)
            ((it.size : ℚ) * scale) row ≤ br := by
          rw [hw, hbr']
          exact hcond
        rw [if_pos (Or.inl hcondL), if_pos (Or.inr hcond), hsumstep]
        exact ih (row ++ [it]) _ hl' hrow' (fun _ => hw)
      · have hn1 : ¬(fbrWorstRatio scale side
            ((row.map (fun e => (e.size : ℚ) * scale)).sum)
            ((it.size : ℚ) * scale) row ≤ br ∨ row = []) := by
          intro hor
          rcases hor with hor | hor
          · rw [hw, hbr'] at hor
            exact hcond hor
          · exact hre hor
        have hn2 : ¬(row = [] ∨ worstRatioSpec side
            ((row ++ [it]).map (fun e => (e.size : ℚ) * scale)) ≤
            worstRatioSpec side (row.map (fun e => (e.size : ℚ) * scale))) := by
          intro hor
          rcases hor with hor | hor
          · exact hre hor
          · exact hcond hor
        rw [if_neg hn1, if_neg hn2]

lemma layRowGui_eq_spec (horizontal : Bool) (cx cy t scale : ℚ) (ht : 0 < t) :
    ∀ (l : List TItem) (offset : ℚ),
      layRowGui horizontal cx cy t scale l offset =
        layRowSpec horizontal cx cy t scale l offset
  | [], _ => rfl
  | it :: rest, offset => by
    simp only [layRowGui, layRowSpec, if_pos ht]
    exact congrArg _ (layRowGui_eq_spec horizontal cx cy t scale ht rest _)

lemma squarifyGo_eq (scale : ℚ) (hscale : 0 < scale) :
    ∀ (fuel : Nat) (cx cy cw ch : ℚ) (remaining : List TItem),
      (∀ e ∈ remaining, 0 < e.size) →
      cw * ch = scale * ((remaining.map (fun e => (e.size : ℚ))).sum) →
      (remaining ≠ [] → 0 < cw ∧ 0 < ch) →
      squarifyGuiGo scale fuel cx cy cw ch remaining =
        squarifySpecGo scale fuel cx cy cw ch remaining := by
  intro fuel
  induction fuel with
  | zero =>
    intro cx cy cw ch remaining _ _ _
    cases remaining <;> rfl
  | succ fuel ih =>
    intro cx cy cw ch remaining hpos harea hdims
    cases remaining with
    | nil => rfl
    | cons it rest0 =>
      obtain ⟨hcw, hch⟩ := hdims (by simp)
      by_cases hdir : ch ≤ cw
      · have hroweq : findBestRow scale ch (it :: rest0) =
            specRow scale ch (it :: rest0) [] := by
          unfold findBestRow
          exact fbrGo_eq_specRow scale ch hscale hch (it :: rest0) [] 0 hpos
            (fun e he => absurd he (List.not_mem_nil e)) (fun h => absurd rfl h)
        have hRne : (specRow scale ch (it :: rest0) []).1 ≠ [] := by
          have h0 := findBestRow_fst_ne_nil scale ch it rest0
          rw [hroweq] at h0
          exact h0
        have happend : (specRow scale ch (it :: rest0) []).1 ++
            (specRow scale ch (it :: rest0) []).2 = it :: rest0 := by
          have h0 := fbrGo_append scale ch (it :: rest0) [] 0 0
          rw [show fbrGo scale ch (it :: rest0) [] 0 0 =
            findBestRow scale ch (it :: rest0) from rfl, hroweq] at h0
          simpa using h0
        have hmemR : ∀ e ∈ (specRow scale ch (it :: rest0) []).1, 0 < e.size := by
          intro e he
          refine hpos e ?_
          rw [← happend]
          exact List.mem_append.mpr (Or.inl he)
        have hmemRest : ∀ e ∈ (specRow scale ch (it :: rest0) []).2, 0 < e.size := by
          intro e he
          refine hpos e ?_
          rw [← happend]
          exact List.mem_append.mpr (Or.inr he)
        have hS : 0 < (((specRow scale ch (it :: rest0) []).1.map
            (fun e => (e.size : ℚ) * scale)).sum) :=
          areas_sum_pos hscale _ hRne hmemR
        have hT : 0 < (((specRow scale ch (it :: rest0) []).1.map
            (fun e => (e.size : ℚ) * scale)).sum) / ch := div_pos hS hch
        have hsplit : ((it :: rest0).map (fun e => (e.size : ℚ))).sum =
            ((specRow scale ch (it :: rest0) []).1.map (fun e => (e.size : ℚ))).sum +
            ((specRow scale ch (it :: rest0) []).2.map (fun e => (e.size : ℚ))).sum := by
          conv_lhs => rw [← happend]
          simp [List.sum_append]
        have harea' : (cw - (((specRow scale ch (it :: rest0) []).1.map
              (fun e => (e.size : ℚ) * scale)).sum) / ch) * ch =
            scale * (((specRow scale ch (it :: rest0) []).2.map
              (fun e => (e.size : ℚ))).sum) := by
          have h1 : ((((specRow scale ch (it :: rest0) []).1.map
              (fun e => (e.size : ℚ) * scale)).sum) / ch) * ch =
              (((specRow scale ch (it :: rest0) []).1.map
              (fun e => (e.size : ℚ) * scale)).sum) :=
            div_mul_cancel₀ _ (ne_of_gt hch)
          have h2 : (cw - (((specRow scale ch (it :: rest0) []).1.map
              (fun e => (e.size : ℚ) * scale)).sum) / ch) * ch =
              cw * ch - ((((specRow scale ch (it :: rest0) []).1.map
              (fun e => (e.size : ℚ) * scale)).sum) / ch) * ch := by ring
          rw [h2, h1, harea, hsplit, areas_sum_eq]
          ring
        have hdims' : (specRow scale ch (it :: rest0) []).2 ≠ [] →
            0 < cw - (((specRow scale ch (it :: rest0) []).1.map
              (fun e => (e.size : ℚ) * scale)).sum) / ch ∧ 0 < ch := by
          intro hRestne
          refine ⟨?_, hch⟩
          have h2 : 0 < scale * (((specRow scale ch (it :: rest0) []).2.map
              (fun e => (e.size : ℚ))).sum) := by
            rw [← areas_sum_eq]
            exact areas_sum_pos hscale _ hRestne hmemRest
          rw [← harea'] at h2
          rcases mul_pos_iff.mp h2 with ⟨h, _⟩ | ⟨_, h⟩
          · exact h
          · linarith
        simp only [squarifyGuiGo, squarifySpecGo, if_pos hdir, decide_eq_true hdir]
        rw [hroweq, if_neg hRne]
        simp only [if_pos hch]
        rw [layRowGui_eq_spec true cx cy _ scale hT _ 0]
        rw [ih _ cy _ ch _ hmemRest harea' hdims']
      · have hwc : cw < ch := lt_of_not_le hdir
        have hroweq : findBestRow scale cw (it :: rest0) =
            specRow scale cw (it :: rest0) [] := by
          unfold findBestRow
          exact fbrGo_eq_specRow scale cw hscale hcw (it :: rest0) [] 0 hpos
            (fun e he => absurd he (List.not_mem_nil e)) (fun h => absurd rfl h)
        have hRne : (specRow scale cw (it :: rest0) []).1 ≠ [] := by
          have h0 := findBestRow_fst_ne_nil scale cw it rest0
          rw [hroweq] at h0
          exact h0
        have happend : (specRow scale cw (it :: rest0) []).1 ++
            (specRow scale cw (it :: rest0) []).2 = it :: rest0 := by
          have h0 := fbrGo_append scale cw (it :: rest0) [] 0 0
          rw [show fbrGo scale cw (it :: rest0) [] 0 0 =
            findBestRow scale cw (it :: rest0) from rfl, hroweq] at h0
          simpa using h0
        have hmemR : ∀ e ∈ (specRow scale cw (it :: rest0) []).1, 0 < e.size := by
          intro e he
          refine hpos e ?_
          rw [← happend]
          exact List.mem_append.mpr (Or.inl he)
        have hmemRest : ∀ e ∈ (specRow scale cw (it :: rest0) []).2, 0 < e.size := by
          intro e he
          refine hpos e ?_
          rw [← happend]
          exact List.mem_append.mpr (Or.inr he)
        have hS : 0 < (((specRow scale cw (it :: rest0) []).1.map
            (fun e => (e.size : ℚ) * scale)).sum) :=
          areas_sum_pos hscale _ hRne hmemR
        have hT : 0 < (((specRow scale cw (it :: rest0) []).1.map
            (fun e => (e.size : ℚ) * scale)).sum) / cw := div_pos hS hcw
        have hsplit : ((it :: rest0).map (fun e => (e.size : ℚ))).sum =
            ((specRow scale cw (it :: rest0) []).1.map (fun e => (e.size : ℚ))).sum +
            ((specRow scale cw (it :: rest0) []).2.map (fun e => (e.size : ℚ))).sum := by
          conv_lhs => rw [← happend]
          simp [List.sum_append]
        have harea' : cw * (ch - (((specRow scale cw (it :: rest0) []).1.map
              (fun e => (e.size : ℚ) * scale)).sum) / cw) =
            scale * (((specRow scale cw (it :: rest0) []).2.map
              (fun e => (e.size : ℚ))).sum) := by
          have h1 : ((((specRow scale cw (it :: rest0) []).1.map
              (fun e => (e.size : ℚ) * scale)).sum) / cw) * cw =
              (((specRow scale cw (it :: rest0) []).1.map
              (fun e => (e.size : ℚ) * scale)).sum) :=
            div_mul_cancel₀ _ (ne_of_gt hcw)
          have h2 : cw * (ch - (((specRow scale cw (it :: rest0) []).1.map
              (fun e => (e.size : ℚ) * scale)).sum) / cw) =
              cw * ch - ((((specRow scale cw (it :: rest0) []).1.map
              (fun e => (e.size : ℚ) * scale)).sum) / cw) * cw := by ring
          rw [h2, h1, harea, hsplit, areas_sum_eq]
          ring
        have hdims' : (specRow scale cw (it :: rest0) []).2 ≠ [] →
            0 < cw ∧ 0 < ch - (((specRow scale cw (it :: rest0) []).1.map
              (fun e => (e.size : ℚ) * scale)).sum) / cw := by
          intro hRestne
          refine ⟨hcw, ?_⟩
          have h2 : 0 < scale * (((specRow scale cw (it :: rest0) []).2.map
              (fun e => (e.size : ℚ))).sum) := by
            rw [← areas_sum_eq]
            exact areas_sum_pos hscale _ hRestne hmemRest
          rw [← harea'] at h2
          rcases mul_pos_iff.mp h2 with ⟨_, h⟩ | ⟨h, _⟩
          · exact h
          · linarith
        simp only [squarifyGuiGo, squarifySpecGo, if_neg hdir, decide_eq_false hdir]
        rw [hroweq, if_neg hRne]
        simp only [if_pos hcw]
        rw [layRowGui_eq_spec false cx cy _ scale hT _ 0]
        rw [ih cx _ cw _ _ hmemRest harea' hdims']

lemma sizes_sum_cast :
    ∀ (l : List TItem),
      (((l.map (fun e => e.size)).sum : Nat) : ℚ) =
        (l.map (fun e => (e.size : ℚ))).sum
  | [] => by simp
  | e :: l => by
    simp only [List.map_cons, List.sum_cons, Nat.cast_add]
    rw [sizes_sum_cast l]

/-- C5 (amended): the GUI treemap (treemap_panel.rs) implements the
squarified algorithm of spec §4.6: under the spec's preconditions
(positive child sizes, total equal to their sum, positive rectangle) its
output equals the spec-modelled squarified layout — rows formed greedily
along the shorter side, accepting children while the worst aspect ratio
does not worsen, each row laid as proportional stripes. (Both sides being
pure functions of the listed inputs, the layout is deterministic; the TUI
renderer's function of the same name does NOT implement this algorithm,
see the counterexample.) -/
theorem gui_squarify_is_squarified (items : List TItem) (x y width height : ℚ)
    (total : Nat)
    (hpos : ∀ e ∈ items, 0 < e.size)
    (htot : total = (items.map (fun e => e.size)).sum)
    (hw : 0 < width) (hh : 0 < height) :
    squarifyGui items x y width height total =
      squarifySpec items x y width height total := by
  unfold squarifyGui squarifySpec
  by_cases hdeg : items = [] ∨ total = 0 ∨ width ≤ 0 ∨ height ≤ 0
  · rw [if_pos hdeg, if_pos hdeg]
  · rw [if_neg hdeg, if_neg hdeg]
    push_neg at hdeg
    obtain ⟨_, htz, _, _⟩ := hdeg
    have htposQ : (0 : ℚ) < (total : ℚ) := by
      exact_mod_cast Nat.pos_of_ne_zero htz
    have hscale : 0 < (width * height) / (total : ℚ) :=
      div_pos (mul_pos hw hh) htposQ
    refine squarifyGo_eq _ hscale items.length x y width height items hpos ?_ ?_
    · have hsum : (items.map (fun e => (e.size : ℚ))).sum = (total : ℚ) := by
        rw [htot, sizes_sum_cast]
      rw [hsum, div_mul_cancel₀ _ (ne_of_gt htposQ)]
    · intro _
      exact ⟨hw, hh⟩

/-- The spec's own determinism example (§8 item 5): children sizes
[6, 3, 2, 1] in a 6×4 rectangle. -/
def c5Items : List TItem := [⟨1, 6⟩, ⟨2, 3⟩, ⟨3, 2⟩, ⟨4, 1⟩]

/-- The TUI `squarify` does not implement the squarified algorithm: on
sizes [6,3,2,1] in a 6×4 rectangle its output differs from the
spec-modelled squarified layout from the second rectangle on (and its
slice-and-dice reset even re-covers the origin with the fourth
rectangle). -/
theorem cexC5_tui_not_squarified :
    squarifyTui c5Items 0 0 6 4 12 ≠ squarifySpec c5Items 0 0 6 4 12 ∧
    (squarifyTui c5Items 0 0 6 4 12).map (fun p => p.2) =
      [⟨0, 0, 3, 4⟩, ⟨3, 0, 3/2, 4⟩, ⟨9/2, 0, 1, 4⟩, ⟨0, 0, 6, 1/3⟩] ∧
    (squarifySpec c5Items 0 0 6 4 12).map (fun p => p.2) =
      [⟨0, 0, 3, 4⟩, ⟨3, 0, 3, 2⟩, ⟨3, 2, 2, 2⟩, ⟨5, 2, 1, 2⟩] := by
  have h1 : (squarifyTui c5Items 0 0 6 4 12).map (fun p => p.2) =
      [⟨0, 0, 3, 4⟩, ⟨3, 0, 3/2, 4⟩, ⟨9/2, 0, 1, 4⟩, ⟨0, 0, 6, 1/3⟩] := by
    with_unfolding_all rfl
  have h2 : (squarifySpec c5Items 0 0 6 4 12).map (fun p => p.2) =
      [⟨0, 0, 3, 4⟩, ⟨3, 0, 3, 2⟩, ⟨3, 2, 2, 2⟩, ⟨5, 2, 1, 2⟩] := by
    with_unfolding_all rfl
  refine ⟨?_, h1, h2⟩
  intro heq
  rw [heq, h2] at h1
  norm_num at h1

theorem gui_squarify_is_squarified_witness :
    squarifyGui c5Items 0 0 6 4 12 = squarifySpec c5Items 0 0 6 4 12 :=
  gui_squarify_is_squarified c5Items 0 0 6 4 12 (by decide) (by decide)
    (by decide) (by decide)

/-- The `modified` value stored by the cache: `t.duration_since(UNIX_EPOCH)
.ok()` succeeds exactly for times at or after the epoch (cache.rs lines
211-213). -/
def savedModified (m : Option Int) : Option Int :=
  m.bind (fun v => if 0 ≤ v then some v else none)

/-- `CachedNode` (cache.rs lines 35-48). -/
structure CachedNode where
  path : RPath
  name : CStr
  size : Nat
  isDir : Bool
  isHidden : Bool
  isSymlink : Bool
  fileCount : Nat
  modified : Option Int
  extension : Option CStr
  parentIdx : Option Nat
  childIdx : List Nat
deriving DecidableEq, Repr

/-- The cached node pushed by `collect_nodes_recursive` (cache.rs lines
215-227); `children_indices` starts empty and is filled by the second
pass. -/
def cachedOf (d : FileNode) (parent : Option Nat) : CachedNode :=
  { path := d.path, name := d.name, size := d.size, isDir := d.isDir,
    isHidden := d.isHidden, isSymlink := d.isSymlink,
    fileCount := d.fileCount, modified := savedModified d.modified,
    extension := d.extension, parentIdx := parent, childIdx := [] }

mutual

/-- First pass of `tree_to_cache_entry` (`collect_nodes_recursive`,
cache.rs lines 199-234): preorder collection; `idx` is the index this
node receives (`nodes.len()` at push time), children record it as their
parent index. -/
def collectT (pp : Option Nat) (idx : Nat) : FTree → List CachedNode
  | .node d cs => cachedOf d pp :: collectL (some idx) (idx + 1) cs

/-- Collection of a sibling list starting at index `idx`. -/
def collectL (pp : Option Nat) (idx : Nat) : List FTree → List CachedNode
  | [] => []
  | c :: cs => collectT pp idx c ++ collectL pp (idx + c.sizeF) cs

end

/-- The `path_to_index` HashMap of `tree_to_cache_entry`: every collected
node inserts its path, later (preorder) inserts overwriting earlier ones,
so a lookup returns the LAST collected index with the path. -/
def pathToIndex (nodes : List CachedNode) (p : RPath) : Option Nat :=
  ((nodes.enum.filter (fun q => q.2.path = p)).map (fun q => q.1)).getLast?

mutual

/-- `FileTree::find_by_path` (node.rs lines 267-278): first node with the
path in preorder (`descendants`) order, as a subtree. -/
def findT (p : RPath) : FTree → Option FTree
  | .node d cs => if d.path = p then some (.node d cs) else findL p cs

/-- Preorder search over a sibling list. -/
def findL (p : RPath) : List FTree → Option FTree
  | [] => none
  | c :: cs =>
    match findT p c with
    | some r => some r
    | none => findL p cs

end

/-- `CacheEntry` (cache.rs lines 17-32; `root_path`, `scan_time` and
`version` are checked by `load` before `cache_entry_to_tree` runs and are
not part of the entry-to-tree conversion). -/
structure CacheEntry where
  nodes : List CachedNode
  rootIndex : Option Nat
  totalSize : Nat
  totalFiles : Nat
deriving DecidableEq, Repr

/-- `tree_to_cache_entry` (cache.rs lines 143-196): preorder collection,
then the second pass rewriting each node's `children_indices` through
`find_by_path` and `path_to_index`, root index and totals from the root
node. -/
def treeToCacheEntry (t : FTree) : CacheEntry :=
  let nodes0 := collectT none 0 t
  { nodes := nodes0.map (fun cn =>
      match findT cn.path t with
      | some s => { cn with childIdx :=
          (s.children.map (fun c => c.data.path)).filterMap (pathToIndex nodes0) }
      | none => cn)
    rootIndex := pathToIndex nodes0 t.data.path
    totalSize := t.data.size
    totalFiles := t.data.fileCount }

/-- One iteration of the loader's child loop (cache.rs lines 271-296):
skip visited indices; mark the index visited BEFORE the bounds check;
materialize valid children via `FileNode::new` plus the restored fields
(size, file_count, is_hidden, is_symlink, extension, modified) and push
them on the work stack. -/
def loadChild (nodes : List CachedNode) (parentNid : Nat)
    (st : ATree × List Nat × List (Nat × Nat)) (childIdx : Nat) :
    ATree × List Nat × List (Nat × Nat) :=
  if childIdx ∈ st.2.1 then st
  else
    match nodes.get? childIdx with
    | none => (st.1, childIdx :: st.2.1, st.2.2)
    | some cached =>
      let pr := st.1.addChild parentNid
        { FileNode.new cached.path cached.isDir with
          size := cached.size, fileCount := cached.fileCount,
          isHidden := cached.isHidden, isSymlink := cached.isSymlink,
          extension := cached.extension, modified := cached.modified }
      (pr.1, childIdx :: st.2.1, st.2.2 ++ [(childIdx, pr.2)])

/-- The loader's work loop (cache.rs lines 269-296): `queue` is a Vec
used as a stack (`pop` takes the last element). Each iteration pops one
entry and pushes only freshly-visited valid indices, so
`entry.nodes.length + 1` fuel (used by `cacheEntryToTree`) outlasts any
run; exhausted fuel returns the tree built so far. -/
def loadLoop (nodes : List CachedNode) :
    Nat → ATree → List Nat → List (Nat × Nat) → ATree
  | 0, tree, _, _ => tree
  | fuel + 1, tree, visited, queue =>
    match queue.getLast? with
    | none => tree
    | some (cacheIdx, parentNid) =>
      match nodes.get? cacheIdx with
      | none => loadLoop nodes fuel tree visited queue.dropLast
      | some cached =>
        let st := cached.childIdx.foldl (loadChild nodes parentNid)
          (tree, visited, queue.dropLast)
        loadLoop nodes fuel st.1 st.2.1 st.2.2

/-- `cache_entry_to_tree` (cache.rs lines 237-299): reject empty or
rootless entries, rebuild the root via `FileTree::with_root` (restoring
size, file_count, is_hidden and modified, but neither is_symlink nor
extension, and forcing the root to be a directory), then run the work
loop from the root. -/
def cacheEntryToTree (entry : CacheEntry) : Option ATree :=
  if entry.nodes = [] then none
  else
    match entry.rootIndex with
    | none => none
    | some ri =>
      match entry.nodes.get? ri with
      | none => none
      | some rootCached =>
        let t0 := ATree.withRoot rootCached.path
        let upd : ArenaEntry → ArenaEntry := fun e =>
          let d2 : FileNode :=
            { e.data with size := rootCached.size,
                          fileCount := rootCached.fileCount,
                          isHidden := rootCached.isHidden,
                          modified := rootCached.modified }
          { e with data := d2 }
        let t1 : ATree := { t0 with entries := updateAt 0 upd t0.entries }
        some (loadLoop entry.nodes (entry.nodes.length + 1) t1 [ri] [(ri, 0)])

mutual

/-- The `(path, size, file_count, parent path)` quadruples of a tree in
preorder: the structural content the cache round-trip is measured by. -/
def quadT (pp : Option RPath) : FTree → List (RPath × Nat × Nat × Option RPath)
  | .node d cs => (d.path, d.size, d.fileCount, pp) :: quadL (some d.path) cs

/-- Quadruples of a sibling list under a common parent path. -/
def quadL (pp : Option RPath) : List FTree → List (RPath × Nat × Nat × Option RPath)
  | [] => []
  | c :: cs => quadT pp c ++ quadL pp cs

end

/-- The same quadruples read off an arena tree (parent path by handle
lookup). -/
def ATree.quadruples (t : ATree) : List (RPath × Nat × Nat × Option RPath) :=
  t.entries.map (fun e => (e.data.path, e.data.size, e.data.fileCount,
    e.parent.bind (fun i => (t.entries.get? i).map (fun pe => pe.data.path))))

/-- All node paths of a tree in preorder. -/
def FTree.pathList (t : FTree) : List RPath :=
  t.subtrees.map (fun s => s.data.path)

/-- The node paths strictly inside a subtree (its descendants other than
its root). -/
def innerPaths (s : FTree) : List RPath :=
  (FTree.subtreesList s.children).map (fun x => x.data.path)

mutual

theorem subtrees_length : ∀ (t : FTree), t.subtrees.length = t.sizeF
  | .node d cs => by
    simp only [FTree.subtrees, List.length_cons, FTree.sizeF,
      subtreesList_length cs]
    omega

theorem subtreesList_length : ∀ (cs : List FTree),
    (FTree.subtreesList cs).length = FTree.sizeFList cs
  | [] => rfl
  | c :: cs => by
    simp only [FTree.subtreesList, List.length_append, FTree.sizeFList,
      subtrees_length c, subtreesList_length cs]

end

mutual

theorem subtrees_get_nest : ∀ (t : FTree) (j : Nat) (s : FTree),
    t.subtrees.get? j = some s → ∀ k, k < s.sizeF →
    t.subtrees.get? (j + k) = s.subtrees.get? k
  | .node d cs, j, s => by
    intro hj k hk
    cases j with
    | zero =>
      simp only [FTree.subtrees, List.get?_cons_zero] at hj
      cases hj
      simp [FTree.subtrees]
    | succ j' =>
      simp only [FTree.subtrees, List.get?_cons_succ] at hj
      have h : j' + 1 + k = (j' + k) + 1 := by omega
      rw [h]
      simp only [FTree.subtrees, List.get?_cons_succ]
      exact subtreesList_get_nest cs j' s hj k hk

theorem subtreesList_get_nest : ∀ (cs : List FTree) (j : Nat) (s : FTree),
    (FTree.subtreesList cs).get? j = some s → ∀ k, k < s.sizeF →
    (FTree.subtreesList cs).get? (j + k) = s.subtrees.get? k
  | [], j, s => by
    intro hj
    simp [FTree.subtreesList] at hj
  | c :: cs, j, s => by
    intro hj k hk
    simp only [FTree.subtreesList] at hj ⊢
    by_cases hlt : j < c.subtrees.length
    · rw [List.get?_append hlt] at hj
      have hrec := subtrees_get_nest c j s hj k hk
      have hk2 : j + k < c.subtrees.length := by
        by_contra hge
        push_neg at hge
        rw [List.get?_eq_none.mpr hge] at hrec
        have h2 : s.subtrees.length ≤ k := List.get?_eq_none.mp hrec.symm
        rw [subtrees_length] at h2
        omega
      rw [List.get?_append hk2]
      exact hrec
    · push_neg at hlt
      rw [List.get?_append_right hlt] at hj
      have h2 := subtreesList_get_nest cs (j - c.subtrees.length) s hj k hk
      rw [List.get?_append_right (by omega : c.subtrees.length ≤ j + k)]
      have h3 : j + k - c.subtrees.length = (j - c.subtrees.length) + k := by
        omega
      rw [h3, h2]

end

/-- Total node count of the first `a` trees of a sibling list (the
preorder offset of the `a`-th sibling's block). -/
def sizeFTake (cs : List FTree) (a : Nat) : Nat :=
  FTree.sizeFList (cs.take a)

theorem sizeFTake_succ : ∀ (cs : List FTree) (a : Nat) (c : FTree),
    cs.get? a = some c → sizeFTake cs (a + 1) = sizeFTake cs a + c.sizeF := by
  intro cs
  induction cs with
  | nil => intro a c h; simp at h
  | cons c0 cs ih =>
    intro a c h
    cases a with
    | zero =>
      simp only [List.get?_cons_zero] at h
      cases h
      simp [sizeFTake, FTree.sizeFList]
    | succ a' =>
      simp only [List.get?_cons_succ] at h
      simp only [sizeFTake, List.take_succ_cons, FTree.sizeFList]
      have := ih a' c h
      simp only [sizeFTake] at this
      omega

theorem sizeFTake_mono : ∀ (cs : List FTree) (a b : Nat), a ≤ b →
    sizeFTake cs a ≤ sizeFTake cs b := by
  intro cs
  induction cs with
  | nil =>
    intro a b _
    simp [sizeFTake]
  | cons c0 cs ih =>
    intro a b hab
    cases a with
    | zero =>
      simp [sizeFTake, FTree.sizeFList]
    | succ a' =>
      cases b with
      | zero => omega
      | succ b' =>
        simp only [sizeFTake, List.take_succ_cons, FTree.sizeFList]
        have := ih a' b' (by omega)
        simp only [sizeFTake] at this
        omega

theorem sizeFTake_le : ∀ (cs : List FTree) (a : Nat),
    sizeFTake cs a ≤ FTree.sizeFList cs := by
  intro cs
  induction cs with
  | nil => intro a; simp [sizeFTake]
  | cons c0 cs ih =>
    intro a
    cases a with
    | zero => simp [sizeFTake, FTree.sizeFList]
    | succ a' =>
      simp only [sizeFTake, List.take_succ_cons, FTree.sizeFList]
      have := ih a'
      simp only [sizeFTake] at this
      omega

theorem childStart_get : ∀ (cs : List FTree) (a : Nat) (c : FTree),
    cs.get? a = some c →
    (FTree.subtreesList cs).get? (sizeFTake cs a) = some c := by
  intro cs
  induction cs with
  | nil => intro a c h; simp at h
  | cons c0 cs ih =>
    intro a c h
    cases a with
    | zero =>
      simp only [List.get?_cons_zero] at h
      cases h
      have h0 : sizeFTake (c0 :: cs) 0 = 0 := rfl
      rw [h0]
      obtain ⟨d, cs'⟩ := c0
      simp [FTree.subtreesList, FTree.subtrees]
    | succ a' =>
      simp only [List.get?_cons_succ] at h
      have h1 : sizeFTake (c0 :: cs) (a' + 1) = c0.sizeF + sizeFTake cs a' := by
        simp [sizeFTake, List.take_succ_cons, FTree.sizeFList]
      rw [h1]
      simp only [FTree.subtreesList]
      rw [List.get?_append_right (by rw [subtrees_length]; omega)]
      rw [subtrees_length]
      have h2 : c0.sizeF + sizeFTake cs a' - c0.sizeF = sizeFTake cs a' := by
        omega
      rw [h2]
      exact ih a' c h

theorem subtrees_path_inj (t : FTree) (hnd : t.pathList.Nodup) :
    ∀ (j k : Nat) (s s' : FTree), t.subtrees.get? j = some s →
    t.subtrees.get? k = some s' → s.data.path = s'.data.path → j = k := by
  intro j k s s' hj hk hp
  have hmj : t.pathList.get? j = some s.data.path := by
    unfold FTree.pathList
    rw [List.get?_map, hj]
    rfl
  have hmk : t.pathList.get? k = some s'.data.path := by
    unfold FTree.pathList
    rw [List.get?_map, hk]
    rfl
  obtain ⟨hjlt, _⟩ := List.get?_eq_some.mp hmj
  exact List.get?_inj hjlt hnd (by rw [hmj, hmk, hp])

mutual

theorem collectT_length : ∀ (pp : Option Nat) (idx : Nat) (t : FTree),
    (collectT pp idx t).length = t.sizeF
  | pp, idx, .node d cs => by
    simp only [collectT, List.length_cons, FTree.sizeF,
      collectL_length (some idx) (idx + 1) cs]
    omega

theorem collectL_length : ∀ (pp : Option Nat) (idx : Nat) (cs : List FTree),
    (collectL pp idx cs).length = FTree.sizeFList cs
  | _, _, [] => rfl
  | pp, idx, c :: cs => by
    simp only [collectL, List.length_append, FTree.sizeFList,
      collectT_length pp idx c, collectL_length pp (idx + c.sizeF) cs]

end

mutual

theorem collectT_get : ∀ (pp : Option Nat) (idx : Nat) (t : FTree) (j : Nat)
    (s : FTree), t.subtrees.get? j = some s →
    ∃ pp2, (collectT pp idx t).get? j = some (cachedOf s.data pp2)
  | pp, idx, .node d cs, j, s => by
    intro hj
    cases j with
    | zero =>
      simp only [FTree.subtrees, List.get?_cons_zero] at hj
      cases hj
      exact ⟨pp, by simp [collectT, FTree.data]⟩
    | succ j' =>
      simp only [FTree.subtrees, List.get?_cons_succ] at hj
      obtain ⟨pp2, hp⟩ := collectL_get (some idx) (idx + 1) cs j' s hj
      exact ⟨pp2, by simpa [collectT] using hp⟩

theorem collectL_get : ∀ (pp : Option Nat) (idx : Nat) (cs : List FTree)
    (j : Nat) (s : FTree), (FTree.subtreesList cs).get? j = some s →
    ∃ pp2, (collectL pp idx cs).get? j = some (cachedOf s.data pp2)
  | _, _, [], j, s => by
    intro hj
    simp [FTree.subtreesList] at hj
  | pp, idx, c :: cs, j, s => by
    intro hj
    simp only [FTree.subtreesList] at hj
    simp only [collectL]
    by_cases hlt : j < c.subtrees.length
    · rw [List.get?_append hlt] at hj
      obtain ⟨pp2, hp⟩ := collectT_get pp idx c j s hj
      refine ⟨pp2, ?_⟩
      rw [List.get?_append (by rw [collectT_length, ← subtrees_length]; exact hlt)]
      exact hp
    · push_neg at hlt
      rw [List.get?_append_right hlt] at hj
      obtain ⟨pp2, hp⟩ := collectL_get pp (idx + c.sizeF) cs
        (j - c.subtrees.length) s hj
      refine ⟨pp2, ?_⟩
      rw [List.get?_append_right (by rw [collectT_length, ← subtrees_length]; exact hlt)]
      rw [collectT_length]
      rw [subtrees_length] at hp
      exact hp

end

mutual

theorem collectT_paths : ∀ (pp : Option Nat) (idx : Nat) (t : FTree),
    (collectT pp idx t).map (fun cn => cn.path) =
      t.subtrees.map (fun s => s.data.path)
  | pp, idx, .node d cs => by
    simp only [collectT, FTree.subtrees, List.map_cons,
      collectL_paths (some idx) (idx + 1) cs]
    rfl

theorem collectL_paths : ∀ (pp : Option Nat) (idx : Nat) (cs : List FTree),
    (collectL pp idx cs).map (fun cn => cn.path) =
      (FTree.subtreesList cs).map (fun s => s.data.path)
  | _, _, [] => rfl
  | pp, idx, c :: cs => by
    simp only [collectL, FTree.subtreesList, List.map_append,
      collectT_paths pp idx c, collectL_paths pp (idx + c.sizeF) cs]

end

theorem get?_of_mem_enumFrom2 {α : Type} :
    ∀ (l : List α) (n : Nat) (q : Nat × α), q ∈ l.enumFrom n →
      n ≤ q.1 ∧ l.get? (q.1 - n) = some q.2 := by
  intro l
  induction l with
  | nil =>
    intro n q h
    simp [List.enumFrom] at h
  | cons a l ih =>
    intro n q h
    simp only [List.enumFrom] at h
    rcases List.mem_cons.mp h with rfl | h
    · simp
    · obtain ⟨h1, h2⟩ := ih (n + 1) q h
      refine ⟨by omega, ?_⟩
      have h3 : q.1 - n = (q.1 - (n + 1)) + 1 := by omega
      rw [h3]
      simpa using h2

theorem pathToIndex_complete_aux :
    ∀ (l : List CachedNode) (n : Nat),
      (l.map (fun cn => cn.path)).Nodup → ∀ (j : Nat) (cn : CachedNode),
      l.get? j = some cn →
      (((l.enumFrom n).filter (fun q => q.2.path = cn.path)).map
        (fun q => q.1)).getLast? = some (n + j) := by
  intro l
  induction l with
  | nil =>
    intro n _ j cn h
    simp at h
  | cons a l ih =>
    intro n hnd j cn h
    simp only [List.map_cons, List.nodup_cons] at hnd
    cases j with
    | zero =>
      simp only [List.get?_cons_zero] at h
      cases h
      have hrest : (l.enumFrom (n + 1)).filter
          (fun q => decide (q.2.path = a.path)) = [] := by
        rw [List.filter_eq_nil_iff]
        intro q hq
        simp only [decide_eq_true_eq]
        intro heq
        refine hnd.1 ?_
        rw [← heq]
        exact List.mem_map_of_mem _ (snd_mem_of_mem_enumFrom l (n + 1) q hq)
      simp [List.enumFrom, List.filter_cons, hrest]
    | succ j' =>
      simp only [List.get?_cons_succ] at h
      have hne : (a.path = cn.path) = False := by
        simp only [eq_iff_iff, iff_false]
        intro heq
        refine hnd.1 ?_
        rw [heq]
        exact List.mem_map_of_mem _ (List.get?_mem h)
      simp only [List.enumFrom, List.filter_cons, hne, decide_False,
        Bool.false_eq_true, if_false]
      have h2 : n + (j' + 1) = (n + 1) + j' := by omega
      rw [h2]
      exact ih (n + 1) hnd.2 j' cn h

theorem pathToIndex_complete (l : List CachedNode)
    (hnd : (l.map (fun cn => cn.path)).Nodup) (j : Nat) (cn : CachedNode)
    (h : l.get? j = some cn) : pathToIndex l cn.path = some j := by
  unfold pathToIndex
  have := pathToIndex_complete_aux l 0 hnd j cn h
  simpa using this

theorem pathToIndex_sound (l : List CachedNode) (p : RPath) (m : Nat)
    (h : pathToIndex l p = some m) :
    ∃ cn, l.get? m = some cn ∧ cn.path = p := by
  unfold pathToIndex at h
  have hm : m ∈ ((l.enum.filter (fun q => q.2.path = p)).map (fun q => q.1)) :=
    List.mem_of_mem_getLast? (by rw [h]; rfl)
  rcases List.mem_map.mp hm with ⟨q, hq, rfl⟩
  have hq2 := List.mem_filter.mp hq
  have hq3 := get?_of_mem_enumFrom2 l 0 q hq2.1
  refine ⟨q.2, by simpa using hq3.2, ?_⟩
  have := hq2.2
  simpa using this

mutual

theorem findT_none : ∀ (p : RPath) (t : FTree),
    p ∉ t.subtrees.map (fun s => s.data.path) → findT p t = none
  | p, .node d cs => by
    intro hp
    simp only [FTree.subtrees, List.map_cons, List.mem_cons] at hp
    push_neg at hp
    simp only [findT]
    rw [if_neg (fun h => hp.1 (by rw [← h]; rfl))]
    exact findL_none p cs hp.2

theorem findL_none : ∀ (p : RPath) (cs : List FTree),
    p ∉ (FTree.subtreesList cs).map (fun s => s.data.path) → findL p cs = none
  | _, [] => by
    intro _
    rfl
  | p, c :: cs => by
    intro hp
    simp only [FTree.subtreesList, List.map_append, List.mem_append] at hp
    push_neg at hp
    simp only [findL]
    rw [findT_none p c hp.1]
    exact findL_none p cs hp.2

end

mutual

theorem findT_self : ∀ (t s : FTree),
    (t.subtrees.map (fun x => x.data.path)).Nodup → s ∈ t.subtrees →
    findT s.data.path t = some s
  | .node d cs, s => by
    intro hnd hs
    simp only [FTree.subtrees, List.mem_cons] at hs
    simp only [findT]
    rcases hs with rfl | hs
    · rw [if_pos (show d.path = (FTree.node d cs).data.path from rfl)]
    · have hnd' := hnd
      simp only [FTree.subtrees, List.map_cons, List.nodup_cons] at hnd'
      have hne : d.path ≠ s.data.path := by
        intro h
        refine hnd'.1 ?_
        show (FTree.node d cs).data.path ∈ _
        have hdp : (FTree.node d cs).data.path = d.path := rfl
        rw [hdp, h]
        exact List.mem_map_of_mem _ hs
      rw [if_neg hne]
      exact findL_self cs s hnd'.2 hs

theorem findL_self : ∀ (cs : List FTree) (s : FTree),
    ((FTree.subtreesList cs).map (fun x => x.data.path)).Nodup →
    s ∈ FTree.subtreesList cs → findL s.data.path cs = some s
  | [], s => by
    intro _ h
    simp [FTree.subtreesList] at h
  | c :: cs, s => by
    intro hnd hs
    simp only [FTree.subtreesList, List.mem_append] at hs
    simp only [FTree.subtreesList, List.map_append, List.nodup_append] at hnd
    obtain ⟨hnd1, hnd2, hdisj⟩ := hnd
    simp only [findL]
    rcases hs with hs | hs
    · rw [findT_self c s hnd1 hs]
    · have hnone : findT s.data.path c = none := by
        refine findT_none _ c ?_
        intro hmem
        exact hdisj hmem (List.mem_map_of_mem _ hs)
      rw [hnone]
      exact findL_self cs s hnd2 hs

end

@[simp] theorem cachedOf_path (d : FileNode) (p : Option Nat) :
    (cachedOf d p).path = d.path := rfl

@[simp] theorem cachedOf_size (d : FileNode) (p : Option Nat) :
    (cachedOf d p).size = d.size := rfl

@[simp] theorem cachedOf_fileCount (d : FileNode) (p : Option Nat) :
    (cachedOf d p).fileCount = d.fileCount := rfl

theorem collect_paths_nodup (t : FTree) (hnd : t.pathList.Nodup) :
    ((collectT none 0 t).map (fun cn => cn.path)).Nodup := by
  rw [collectT_paths]
  exact hnd

theorem mem_subtreesList_of_mem : ∀ {c : FTree} {cs : List FTree},
    c ∈ cs → c ∈ FTree.subtreesList cs := by
  intro c cs
  induction cs with
  | nil =>
    intro h
    cases h
  | cons a cs ih =>
    intro h
    simp only [FTree.subtreesList, List.mem_append]
    rcases List.mem_cons.mp h with rfl | h
    · left
      obtain ⟨d, cs'⟩ := c
      simp [FTree.subtrees]
    · right
      exact ih h

theorem saveNodes_length (t : FTree) :
    (treeToCacheEntry t).nodes.length = t.sizeF := by
  unfold treeToCacheEntry
  simp [List.length_map, collectT_length]

theorem filterMap_forall2 (R : Nat → FTree → Prop) (N : List CachedNode) :
    ∀ (cs : List FTree),
      (∀ c ∈ cs, ∃ m, pathToIndex N c.data.path = some m ∧ R m c) →
      List.Forall₂ R ((cs.map (fun c => c.data.path)).filterMap (pathToIndex N))
        cs := by
  intro cs
  induction cs with
  | nil =>
    intro _
    simp only [List.map_nil, List.filterMap_nil]
    exact List.Forall₂.nil
  | cons c cs ih =>
    intro h
    obtain ⟨m, hm, hR⟩ := h c (List.mem_cons_self _ _)
    simp only [List.map_cons, List.filterMap_cons, hm]
    exact List.Forall₂.cons hR (ih (fun x hx => h x (List.mem_cons_of_mem _ hx)))

theorem saveNodes_get (t : FTree) (hnd : t.pathList.Nodup) (j : Nat) (s : FTree)
    (hj : t.subtrees.get? j = some s) :
    ∃ cn, (treeToCacheEntry t).nodes.get? j = some cn ∧
      cn.path = s.data.path ∧ cn.size = s.data.size ∧
      cn.fileCount = s.data.fileCount ∧
      List.Forall₂ (fun m c => t.subtrees.get? m = some c) cn.childIdx
        s.children := by
  obtain ⟨pp2, hp⟩ := collectT_get none 0 t j s hj
  have hmem_s : s ∈ t.subtrees := List.get?_mem hj
  have hfind : findT s.data.path t = some s := findT_self t s hnd hmem_s
  have hpoint : ∀ c ∈ s.children, ∃ m,
      pathToIndex (collectT none 0 t) c.data.path = some m ∧
      t.subtrees.get? m = some c := by
    intro c hc
    have hc1 : c ∈ s.subtrees := by
      obtain ⟨d, cs⟩ := s
      exact List.mem_cons_of_mem _ (mem_subtreesList_of_mem hc)
    obtain ⟨k, hk⟩ := List.get?_of_mem hc1
    have hklt : k < s.sizeF := by
      obtain ⟨hlt, _⟩ := List.get?_eq_some.mp hk
      rw [subtrees_length] at hlt
      exact hlt
    have hglob : t.subtrees.get? (j + k) = some c := by
      rw [subtrees_get_nest t j s hj k hklt]
      exact hk
    obtain ⟨pp3, hcol⟩ := collectT_get none 0 t (j + k) c hglob
    have hidx := pathToIndex_complete (collectT none 0 t)
      (collect_paths_nodup t hnd) (j + k) _ hcol
    exact ⟨j + k, by simpa using hidx, hglob⟩
  unfold treeToCacheEntry
  simp only [List.get?_map, hp, Option.map_some', cachedOf_path, hfind]
  refine ⟨_, rfl, rfl, rfl, rfl, ?_⟩
  exact filterMap_forall2 _ _ s.children hpoint

theorem saveNodes_sound (t : FTree) (m : Nat) (cn : CachedNode)
    (h : (treeToCacheEntry t).nodes.get? m = some cn) :
    ∃ s, t.subtrees.get? m = some s ∧ cn.path = s.data.path := by
  unfold treeToCacheEntry at h
  simp only [List.get?_map] at h
  rcases hcol : (collectT none 0 t).get? m with _ | cn0
  · rw [hcol] at h
    cases h
  · rw [hcol] at h
    simp only [Option.map_some'] at h
    have hmlt : m < t.subtrees.length := by
      obtain ⟨hlt, _⟩ := List.get?_eq_some.mp hcol
      rw [collectT_length, ← subtrees_length] at hlt
      exact hlt
    rcases hsub : t.subtrees.get? m with _ | s
    · exfalso
      have := List.get?_eq_none.mp hsub
      omega
    · obtain ⟨pp2, hcol2⟩ := collectT_get none 0 t m s hsub
      rw [hcol] at hcol2
      injection hcol2 with hcn0
      subst hcn0
      refine ⟨s, rfl, ?_⟩
      injection h with h2
      rw [← h2]
      cases hf : findT (cachedOf s.data pp2).path t <;> simp [hf]

theorem save_rootIndex (t : FTree) (hnd : t.pathList.Nodup) :
    (treeToCacheEntry t).rootIndex = some 0 := by
  have h0 : t.subtrees.get? 0 = some t := by
    obtain ⟨d, cs⟩ := t
    rfl
  obtain ⟨pp2, hcol⟩ := collectT_get none 0 t 0 t h0
  have hidx := pathToIndex_complete (collectT none 0 t)
    (collect_paths_nodup t hnd) 0 _ hcol
  unfold treeToCacheEntry
  simpa using hidx

/-- Path stored at an arena slot. -/
def slotPath (tr : ATree) (i : Nat) : Option RPath :=
  (tr.entries.get? i).map (fun e => e.data.path)

/-- Every parent handle of an arena points at an existing slot (true of
every tree built by `with_root` and `add_child`). -/
def ParentsValid (tr : ATree) : Prop :=
  ∀ e ∈ tr.entries, ∀ j, e.parent = some j → j < tr.entries.length

theorem addChild_length (tr : ATree) (pid : Nat) (n : FileNode) :
    ((tr.addChild pid n).1).entries.length = tr.entries.length + 1 := by
  unfold ATree.addChild
  simp [updateAt_length]

theorem addChild_slotPath (tr : ATree) (pid : Nat) (n : FileNode) (i : Nat)
    (hi : i ≠ tr.entries.length) :
    slotPath (tr.addChild pid n).1 i = slotPath tr i := by
  unfold slotPath
  rw [addChild_get?_old tr pid n i hi]
  by_cases hp : i = pid
  · rw [if_pos hp]
    rcases h : tr.entries.get? i with _ | e <;> simp [h]
  · rw [if_neg hp]

theorem addChild_parentsValid (tr : ATree) (pid : Nat) (n : FileNode)
    (hpid : pid < tr.entries.length) (hpv : ParentsValid tr) :
    ParentsValid (tr.addChild pid n).1 := by
  intro e he j hj
  rw [addChild_length]
  unfold ATree.addChild at he
  simp only [List.mem_append] at he
  rcases he with he | he
  · -- in updateAt part: parent unchanged
    have hlen := updateAt_length pid
      (fun e => { e with childIdx := e.childIdx ++ [tr.entries.length] })
      tr.entries
    obtain ⟨k, hk⟩ := List.get?_of_mem he
    rw [updateAt_get?] at hk
    by_cases hkp : k = pid
    · rw [if_pos hkp] at hk
      rcases h0 : tr.entries.get? k with _ | e0
      · rw [h0] at hk
        cases hk
      · rw [h0] at hk
        simp only [Option.map_some'] at hk
        injection hk with hk
        have : e.parent = e0.parent := by rw [← hk]
        have := hpv e0 (List.get?_mem h0) j (by rw [← this]; exact hj)
        omega
    · rw [if_neg hkp] at hk
      have := hpv e (List.get?_mem hk) j hj
      omega
  · simp only [List.mem_singleton] at he
    subst he
    simp only at hj
    injection hj with hj
    omega

theorem addChild_lookup (tr : ATree) (pid : Nat) (n : FileNode) (j : Nat)
    (hj : j < tr.entries.length) :
    ((((tr.addChild pid n).1).entries.get? j).map (fun e => e.data.path)) =
      ((tr.entries.get? j).map (fun e => e.data.path)) := by
  rw [addChild_get?_old tr pid n j (by omega)]
  by_cases hp : j = pid
  · rw [if_pos hp]
    rcases h0 : tr.entries.get? j with _ | e0 <;> simp [h0]
  · rw [if_neg hp]

theorem addChild_quadruples (tr : ATree) (pid : Nat) (n : FileNode)
    (hpid : pid < tr.entries.length) (hpv : ParentsValid tr) :
    ATree.quadruples (tr.addChild pid n).1 =
      ATree.quadruples tr ++ [(n.path, n.size, n.fileCount, slotPath tr pid)] := by
  have hbind : ∀ (e0 : ArenaEntry), e0 ∈ tr.entries →
      (e0.parent.bind (fun k =>
        ((((tr.addChild pid n).1).entries.get? k).map (fun pe => pe.data.path)))) =
      (e0.parent.bind (fun k =>
        ((tr.entries.get? k).map (fun pe => pe.data.path)))) := by
    intro e0 hmem
    rcases hpar : e0.parent with _ | k
    · rfl
    · simp only [Option.some_bind]
      exact addChild_lookup tr pid n k (hpv e0 hmem k hpar)
  refine List.ext ?_
  intro i
  unfold ATree.quadruples
  rw [List.get?_map]
  by_cases hilt : i < tr.entries.length
  · rw [List.get?_append (by rw [List.length_map]; exact hilt)]
    rw [List.get?_map]
    rw [addChild_get?_old tr pid n i (by omega)]
    rcases h0 : tr.entries.get? i with _ | e0
    · exfalso
      have := List.get?_eq_none.mp h0
      omega
    · have hmem := List.get?_mem h0
      by_cases hp : i = pid
      · rw [if_pos hp]
        simp only [Option.map_some']
        refine congrArg some ?_
        exact congrArg
          (fun z => (e0.data.path, e0.data.size, e0.data.fileCount, z))
          (hbind e0 hmem)
      · rw [if_neg hp]
        simp only [Option.map_some']
        refine congrArg some ?_
        exact congrArg
          (fun z => (e0.data.path, e0.data.size, e0.data.fileCount, z))
          (hbind e0 hmem)
  · by_cases hieq : i = tr.entries.length
    · subst hieq
      rw [addChild_get?_new]
      rw [List.get?_append_right (by rw [List.length_map]), List.length_map]
      simp only [Nat.sub_self, List.get?_cons_zero, Option.map_some']
      refine congrArg some ?_
      show (n.path, n.size, n.fileCount,
        ((((tr.addChild pid n).1).entries.get? pid).map (fun pe => pe.data.path))) = _
      rw [addChild_lookup tr pid n pid hpid]
      rfl
    · rw [List.get?_append_right (by rw [List.length_map]; omega), List.length_map]
      rw [List.get?_eq_none.mpr (show [(n.path, n.size, n.fileCount, slotPath tr pid)].length ≤ i - tr.entries.length by show 1 ≤ i - tr.entries.length; omega)]
      rw [List.get?_eq_none.mpr (by rw [addChild_length]; omega)]
      rfl

/-- The `FileNode` materialized by the loader for a cached child
(cache.rs lines 281-291). -/
def loadNode (cached : CachedNode) : FileNode :=
  { FileNode.new cached.path cached.isDir with
    size := cached.size, fileCount := cached.fileCount,
    isHidden := cached.isHidden, isSymlink := cached.isSymlink,
    extension := cached.extension, modified := cached.modified }

theorem loadNode_path (cached : CachedNode) : (loadNode cached).path = cached.path := by
  simp [loadNode, FileNode.new]

theorem loadNode_size (cached : CachedNode) : (loadNode cached).size = cached.size := rfl

theorem loadNode_fileCount (cached : CachedNode) :
    (loadNode cached).fileCount = cached.fileCount := rfl

/-- The structural facts the loader needs of a save-produced node list:
every preorder subtree has a cached node at its index carrying its path,
size and file count, whose child indices enumerate exactly its
children's preorder indices. -/
def SaveNodesOK (t : FTree) (nodes : List CachedNode) : Prop :=
  ∀ j s, t.subtrees.get? j = some s → ∃ cn, nodes.get? j = some cn ∧
    cn.path = s.data.path ∧ cn.size = s.data.size ∧
    cn.fileCount = s.data.fileCount ∧
    List.Forall₂ (fun m c => t.subtrees.get? m = some c) cn.childIdx s.children

theorem loadChildren_fold (t : FTree) (nodes : List CachedNode)
    (hN : SaveNodesOK t nodes) :
    ∀ (js : List Nat) (cs : List FTree),
      List.Forall₂ (fun m c => t.subtrees.get? m = some c) js cs →
      ∀ (tr : ATree) (visited : List Nat) (queue : List (Nat × Nat)) (pid : Nat)
        (parentPath : RPath),
        slotPath tr pid = some parentPath → pid < tr.entries.length →
        ParentsValid tr →
        (∀ m ∈ js, m ∉ visited) → js.Nodup →
        ∃ (tr' : ATree) (Lext : List ((Nat × Nat) × FTree)),
          js.foldl (loadChild nodes pid) (tr, visited, queue) =
            (tr', js.reverse ++ visited, queue ++ Lext.map Prod.fst) ∧
          tr'.entries.length = tr.entries.length + cs.length ∧
          ParentsValid tr' ∧
          (∀ i, i < tr.entries.length → slotPath tr' i = slotPath tr i) ∧
          ATree.quadruples tr' = ATree.quadruples tr ++ cs.map (fun c =>
            (c.data.path, c.data.size, c.data.fileCount, some parentPath)) ∧
          Lext.map (fun q => q.2) = cs ∧
          (∀ q ∈ Lext, t.subtrees.get? q.1.1 = some q.2 ∧
            slotPath tr' q.1.2 = some q.2.data.path ∧
            q.1.2 < tr'.entries.length) := by
  intro js cs hF
  induction hF with
  | nil =>
    intro tr visited queue pid parentPath _ _ hpv _ _
    refine ⟨tr, [], ?_, by simp, hpv, fun i _ => rfl, by simp, rfl, ?_⟩
    · simp
    · intro q hq
      exact absurd hq (List.not_mem_nil q)
  | @cons m c js' cs' hmc hF' ih =>
    intro tr visited queue pid parentPath hslot hpid hpv hfresh hnd
    obtain ⟨cn, hcn, hcnp, hcns, hcnf, _⟩ := hN m c hmc
    have hndc := List.nodup_cons.mp hnd
    simp only [List.foldl_cons]
    have hstep : loadChild nodes pid (tr, visited, queue) m =
        ((tr.addChild pid (loadNode cn)).1, m :: visited,
          queue ++ [(m, tr.entries.length)]) := by
      unfold loadChild
      rw [if_neg (hfresh m (List.mem_cons_self _ _))]
      rw [hcn]
      rfl
    rw [hstep]
    have hslot' : slotPath (tr.addChild pid (loadNode cn)).1 pid =
        some parentPath := by
      rw [addChild_slotPath tr pid (loadNode cn) pid (by omega)]
      exact hslot
    have hpid' : pid < ((tr.addChild pid (loadNode cn)).1).entries.length := by
      rw [addChild_length]
      omega
    have hpv' := addChild_parentsValid tr pid (loadNode cn) hpid hpv
    have hfresh' : ∀ m' ∈ js', m' ∉ m :: visited := by
      intro m' hm'
      simp only [List.mem_cons]
      push_neg
      refine ⟨?_, hfresh m' (List.mem_cons_of_mem _ hm')⟩
      intro he
      exact hndc.1 (he ▸ hm')
    obtain ⟨tr', Lext, hfold, hlen, hpv'', hpres, hquads, hcs, hqfacts⟩ :=
      ih _ _ _ pid parentPath hslot' hpid' hpv' hfresh' hndc.2
    refine ⟨tr', ((m, tr.entries.length), c) :: Lext, ?_, ?_, hpv'', ?_, ?_, ?_, ?_⟩
    · rw [hfold]
      simp [List.append_assoc]
    · rw [hlen, addChild_length, List.length_cons]
      omega
    · intro i hi
      rw [hpres i (by rw [addChild_length]; omega)]
      exact addChild_slotPath tr pid (loadNode cn) i (by omega)
    · rw [hquads, addChild_quadruples tr pid (loadNode cn) hpid hpv]
      rw [loadNode_path, loadNode_size, loadNode_fileCount, hcnp, hcns, hcnf,
        hslot]
      simp [List.append_assoc]
    · simp only [List.map_cons, hcs]
    · intro q hq
      rcases List.mem_cons.mp hq with rfl | hq
      · refine ⟨hmc, ?_, ?_⟩
        · rw [hpres tr.entries.length (by rw [addChild_length]; omega)]
          unfold slotPath
          rw [addChild_get?_new]
          simp only [Option.map_some']
          rw [loadNode_path, hcnp]
        · show tr.entries.length < tr'.entries.length
          rw [hlen, addChild_length]
          omega
      · exact hqfacts q hq
  -- end

theorem sizeFList_eq_sum (cs : List FTree) :
    FTree.sizeFList cs = (cs.map FTree.sizeF).sum := by
  induction cs with
  | nil => rfl
  | cons c cs ih => simp [FTree.sizeFList, ih]

@[simp] theorem FTree.data_node (d : FileNode) (cs : List FTree) :
    (FTree.node d cs).data = d := rfl

@[simp] theorem FTree.children_node (d : FileNode) (cs : List FTree) :
    (FTree.node d cs).children = cs := rfl

theorem quadL_perm (pp : Option RPath) (cs : List FTree) :
    (quadL pp cs).Perm
      (cs.map (fun c => (c.data.path, c.data.size, c.data.fileCount, pp)) ++
        (cs.map (fun c => quadL (some c.data.path) c.children)).join) := by
  induction cs with
  | nil => simp [quadL]
  | cons c cs ih =>
    obtain ⟨d, cs'⟩ := c
    have hq : quadT pp (FTree.node d cs') =
        (d.path, d.size, d.fileCount, pp) :: quadL (some d.path) cs' := rfl
    simp only [quadL, hq, List.map_cons, List.join_cons, FTree.data_node,
      FTree.children_node, List.cons_append]
    refine List.Perm.cons _ ?_
    refine List.Perm.trans (List.Perm.append_left _ ih) ?_
    rw [← List.append_assoc, ← List.append_assoc]
    exact List.Perm.append_right _ List.perm_append_comm

theorem sizeFTake_lt (cs : List FTree) (a b : Nat) (c : FTree) (hab : a < b)
    (ha : cs.get? a = some c) : sizeFTake cs a + c.sizeF ≤ sizeFTake cs b := by
  have h1 := sizeFTake_succ cs a c ha
  have h2 := sizeFTake_mono cs (a + 1) b (by omega)
  omega

theorem child_canonical (t : FTree) (hnd : t.pathList.Nodup)
    (i : Nat) (d : FileNode) (cs : List FTree)
    (hi : t.subtrees.get? i = some (FTree.node d cs)) :
    ∀ (b : Nat) (c : FTree), cs.get? b = some c →
      (FTree.node d cs).subtrees.get? (1 + sizeFTake cs b) = some c ∧
      t.subtrees.get? (i + (1 + sizeFTake cs b)) = some c ∧
      1 + sizeFTake cs b < (FTree.node d cs).sizeF ∧
      ∀ m, t.subtrees.get? m = some c → m = i + (1 + sizeFTake cs b) := by
  intro b c hb
  have h1 : (FTree.subtreesList cs).get? (sizeFTake cs b) = some c :=
    childStart_get cs b c hb
  have h2 : (FTree.node d cs).subtrees.get? (1 + sizeFTake cs b) = some c := by
    have he : (1 + sizeFTake cs b) = (sizeFTake cs b) + 1 := by omega
    rw [he]
    simpa [FTree.subtrees] using h1
  have hlt : 1 + sizeFTake cs b < (FTree.node d cs).sizeF := by
    obtain ⟨h3, _⟩ := List.get?_eq_some.mp h2
    rw [subtrees_length] at h3
    exact h3
  have hglob : t.subtrees.get? (i + (1 + sizeFTake cs b)) = some c := by
    rw [subtrees_get_nest t i (FTree.node d cs) hi _ hlt]
    exact h2
  refine ⟨h2, hglob, hlt, ?_⟩
  intro m hm
  exact subtrees_path_inj t hnd m (i + (1 + sizeFTake cs b)) c c hm hglob rfl

theorem loadLoop_perm (t : FTree) (nodes : List CachedNode)
    (hN : SaveNodesOK t nodes) (hnd : t.pathList.Nodup) :
    ∀ (fuel : Nat) (L : List ((Nat × Nat) × FTree)) (tr : ATree)
      (visited : List Nat),
      ((L.map (fun q => q.2.sizeF)).sum ≤ fuel) →
      (∀ q ∈ L, t.subtrees.get? q.1.1 = some q.2) →
      (∀ q ∈ L, slotPath tr q.1.2 = some q.2.data.path ∧
        q.1.2 < tr.entries.length) →
      ParentsValid tr →
      (∀ q ∈ L, ∀ k, 1 ≤ k → k < q.2.sizeF → (q.1.1 + k) ∉ visited) →
      List.Pairwise (fun q q' => ∀ k k', 1 ≤ k → k < q.2.sizeF → 1 ≤ k' →
        k' < q'.2.sizeF → q.1.1 + k ≠ q'.1.1 + k') L →
      (ATree.quadruples (loadLoop nodes fuel tr visited (L.map Prod.fst))).Perm
        (ATree.quadruples tr ++
          (L.map (fun q => quadL (some q.2.data.path) q.2.children)).join) := by
  intro fuel
  induction fuel with
  | zero =>
    intro L tr visited hfuel hsub hslot hpv hvis hpair
    have hL : L = [] := by
      cases L with
      | nil => rfl
      | cons q L' =>
        exfalso
        simp only [List.map_cons, List.sum_cons] at hfuel
        have := FTree.sizeF_pos q.2
        omega
    subst hL
    simp [loadLoop]
  | succ fuel ih =>
    intro L tr visited hfuel hsub hslot hpv hvis hpair
    rcases List.eq_nil_or_concat L with rfl | ⟨L₀, last, hLeq⟩
    · simp [loadLoop]
    obtain ⟨⟨i, nid⟩, s⟩ := last
    obtain ⟨d, cs⟩ := s
    rw [List.concat_eq_append] at hLeq
    subst hLeq
    have hlastmem : ((i, nid), FTree.node d cs) ∈
        L₀ ++ [((i, nid), FTree.node d cs)] := by simp
    have hsub_s := hsub _ hlastmem
    obtain ⟨cn, hcn, hcnp, hcns, hcnf, hchild⟩ := hN i (FTree.node d cs) hsub_s
    simp only [FTree.children_node] at hchild
    obtain ⟨hchlen, hchpoint⟩ := List.forall₂_iff_get.mp hchild
    -- canonical value of every child index
    have hcanon := child_canonical t hnd i d cs hsub_s
    have hjs_canon : ∀ (a : Nat) (h1 : a < cn.childIdx.length),
        cn.childIdx.get ⟨a, h1⟩ = i + (1 + sizeFTake cs a) := by
      intro a h1
      have h2 : a < cs.length := by omega
      have hp := hchpoint a h1 h2
      have hcs_a : cs.get? a = some (cs.get ⟨a, h2⟩) := List.get?_eq_get h2
      exact (hcanon a _ hcs_a).2.2.2 _ hp
    -- freshness of child indices
    have hfresh : ∀ m ∈ cn.childIdx, m ∉ visited := by
      intro m hm
      obtain ⟨⟨a, h1⟩, ha⟩ := List.mem_iff_get.mp hm
      have h2 : a < cs.length := by omega
      have hcs_a : cs.get? a = some (cs.get ⟨a, h2⟩) := List.get?_eq_get h2
      obtain ⟨_, _, hbound, _⟩ := hcanon a _ hcs_a
      rw [← ha, hjs_canon a h1]
      exact hvis _ hlastmem (1 + sizeFTake cs a) (by omega) hbound
    -- distinctness of child indices
    have hjsnd : cn.childIdx.Nodup := by
      rw [List.nodup_iff_injective_get]
      intro ⟨a, ha⟩ ⟨b, hb⟩ hab
      rw [hjs_canon a ha, hjs_canon b hb] at hab
      have hpre : sizeFTake cs a = sizeFTake cs b := by omega
      by_contra hne
      have hne2 : a ≠ b := fun h => hne (by simp [h])
      rcases Nat.lt_or_ge a b with hlt | hge
      · have h2 : a < cs.length := by omega
        have := sizeFTake_lt cs a b (cs.get ⟨a, h2⟩) hlt (List.get?_eq_get h2)
        have := FTree.sizeF_pos (cs.get ⟨a, h2⟩)
        omega
      · have hlt : b < a := by omega
        have h2 : b < cs.length := by omega
        have := sizeFTake_lt cs b a (cs.get ⟨b, h2⟩) hlt (List.get?_eq_get h2)
        have := FTree.sizeF_pos (cs.get ⟨b, h2⟩)
        omega
    -- the parent slot
    obtain ⟨hslot_s, hnid_lt⟩ := hslot _ hlastmem
    -- run the fold lemma
    obtain ⟨tr', Lext, hfold, hlen', hpv', hpres, hquads, hcsx, hqfacts⟩ :=
      loadChildren_fold t nodes hN cn.childIdx cs hchild tr visited
        (L₀.map Prod.fst) nid (FTree.node d cs).data.path hslot_s hnid_lt hpv
        hfresh hjsnd
    -- reduce one loop iteration
    have hmap : (L₀ ++ [((i, nid), FTree.node d cs)]).map Prod.fst =
        L₀.map Prod.fst ++ [(i, nid)] := by simp
    rw [hmap]
    have hql : ((L₀.map Prod.fst ++ [(i, nid)]) : List (Nat × Nat)).getLast? =
        some (i, nid) := List.getLast?_concat _
    have hqd : ((L₀.map Prod.fst ++ [(i, nid)]) : List (Nat × Nat)).dropLast =
        L₀.map Prod.fst := List.dropLast_concat
    simp only [loadLoop, hql, hqd, hcn]
    rw [hfold]
    -- canonical form of Lext elements
    have hLext_len : Lext.length = cs.length := by
      rw [← hcsx, List.length_map]
    have hLext_canon : ∀ (p : Nat) (hp : p < Lext.length),
        (Lext.get ⟨p, hp⟩).2 = cs.get ⟨p, by omega⟩ ∧
        (Lext.get ⟨p, hp⟩).1.1 = i + (1 + sizeFTake cs p) := by
      intro p hp
      have h2 : p < cs.length := by omega
      have hsnd : (Lext.get ⟨p, hp⟩).2 = cs.get ⟨p, h2⟩ := by
        have := congrArg (fun l => l.get? p) hcsx
        simp only [List.get?_map] at this
        rw [List.get?_eq_get hp, List.get?_eq_get h2] at this
        simp only [Option.map_some'] at this
        injection this
      refine ⟨hsnd, ?_⟩
      have hq := hqfacts _ (List.get_mem Lext p hp)
      have hcs_p : cs.get? p = some (cs.get ⟨p, h2⟩) := List.get?_eq_get h2
      refine (hcanon p _ hcs_p).2.2.2 _ ?_
      rw [← hsnd]
      exact hq.1
    -- descendants of an Lext element are strict descendants of s
    have hLext_desc : ∀ (p : Nat) (hp : p < Lext.length) (k : Nat),
        1 ≤ k → k < (Lext.get ⟨p, hp⟩).2.sizeF →
        ∃ k2, (Lext.get ⟨p, hp⟩).1.1 + k = i + k2 ∧
          1 + sizeFTake cs p + k = k2 ∧ 1 ≤ k2 ∧
          k2 < (FTree.node d cs).sizeF := by
      intro p hp k hk1 hk2
      obtain ⟨hsnd, hfst⟩ := hLext_canon p hp
      have h2 : p < cs.length := by omega
      have hcs_p : cs.get? p = some (cs.get ⟨p, h2⟩) := List.get?_eq_get h2
      obtain ⟨hin, _, _, _⟩ := hcanon p _ hcs_p
      have hnest := subtrees_get_nest (FTree.node d cs) (1 + sizeFTake cs p)
        (cs.get ⟨p, h2⟩) hin k (by rw [← hsnd]; exact hk2)
      have hbound : 1 + sizeFTake cs p + k < (FTree.node d cs).sizeF := by
        rcases hval : (cs.get ⟨p, h2⟩).subtrees.get? k with _ | x
        · exfalso
          have h4 := List.get?_eq_none.mp hval
          rw [subtrees_length] at h4
          rw [hsnd] at hk2
          omega
        · rw [hval] at hnest
          obtain ⟨h5, _⟩ := List.get?_eq_some.mp hnest
          rw [subtrees_length] at h5
          exact h5
      exact ⟨1 + sizeFTake cs p + k, by omega, rfl, by omega, hbound⟩
    -- old pairwise decomposition
    obtain ⟨hpwL₀, _, hcross⟩ := List.pairwise_append.mp hpair
    -- apply the induction hypothesis to L₀ ++ Lext
    have hih := ih (L₀ ++ Lext) tr' (cn.childIdx.reverse ++ visited) ?_ ?_ ?_
      hpv' ?_ ?_
    rotate_left
    · -- fuel
      have hsz : Lext.map (fun q => q.2.sizeF) = cs.map FTree.sizeF := by
        rw [← hcsx, List.map_map]
        rfl
      simp only [List.map_append, List.sum_append, hsz]
      simp only [List.map_append, List.sum_append, List.map_cons,
        List.sum_cons, List.map_nil, List.sum_nil] at hfuel
      have hsf : (FTree.node d cs).sizeF = 1 + FTree.sizeFList cs := rfl
      rw [hsf, sizeFList_eq_sum] at hfuel
      omega
    · -- subtree facts
      intro q hq
      rcases List.mem_append.mp hq with hq | hq
      · exact hsub q (List.mem_append.mpr (Or.inl hq))
      · exact (hqfacts q hq).1
    · -- slot facts
      intro q hq
      rcases List.mem_append.mp hq with hq | hq
      · obtain ⟨h1, h2⟩ := hslot q (List.mem_append.mpr (Or.inl hq))
        refine ⟨?_, by omega⟩
        rw [hpres q.1.2 h2]
        exact h1
      · exact ⟨(hqfacts q hq).2.1, (hqfacts q hq).2.2⟩
    · -- visited facts
      intro q hq k hk1 hk2
      simp only [List.mem_append]
      push_neg
      rcases List.mem_append.mp hq with hq | hq
      · refine ⟨?_, hvis q (List.mem_append.mpr (Or.inl hq)) k hk1 hk2⟩
        intro hmem
        rw [List.mem_reverse] at hmem
        obtain ⟨⟨a, h1⟩, ha⟩ := List.mem_iff_get.mp hmem
        rw [hjs_canon a h1] at ha
        have h2 : a < cs.length := by omega
        have hcs_a : cs.get? a = some (cs.get ⟨a, h2⟩) := List.get?_eq_get h2
        obtain ⟨_, _, hbound, _⟩ := hcanon a _ hcs_a
        have hR := hcross q hq _ (List.mem_singleton_self _) k
          (1 + sizeFTake cs a) hk1 hk2 (by omega) hbound
        exact hR ha.symm
      · obtain ⟨⟨p, hp⟩, hpq⟩ := List.mem_iff_get.mp hq
        subst hpq
        obtain ⟨k2, heq, hpre2, hk2a, hk2b⟩ := hLext_desc p hp k hk1 hk2
        constructor
        · intro hmem
          rw [List.mem_reverse] at hmem
          obtain ⟨⟨a, h1⟩, ha⟩ := List.mem_iff_get.mp hmem
          rw [hjs_canon a h1] at ha
          rw [heq] at ha
          have hk2eq : 1 + sizeFTake cs a = k2 := by omega
          have h2 : p < cs.length := by omega
          have hkcs : k < (cs.get ⟨p, h2⟩).sizeF := by
            rw [← (hLext_canon p hp).1]
            exact hk2
          rcases Nat.lt_or_ge a p with hap | hap
          · have h3 : a < cs.length := by omega
            have hx := sizeFTake_lt cs a p (cs.get ⟨a, h3⟩) hap
              (List.get?_eq_get h3)
            have := FTree.sizeF_pos (cs.get ⟨a, h3⟩)
            omega
          · rcases Nat.eq_or_lt_of_le hap with rfl | hap
            · omega
            · have hx := sizeFTake_lt cs p a (cs.get ⟨p, h2⟩) hap
                (List.get?_eq_get h2)
              omega
        · rw [heq]
          exact hvis _ hlastmem k2 hk2a hk2b
    · -- pairwise
      refine List.pairwise_append.mpr ⟨hpwL₀, ?_, ?_⟩
      · rw [List.pairwise_iff_get]
        intro p p' hpp' k k' hk1 hk2 hk1' hk2'
        obtain ⟨k2, heq, hpre2, _, _⟩ := hLext_desc p.1 p.2 k hk1 hk2
        obtain ⟨k2', heq', hpre2', _, _⟩ := hLext_desc p'.1 p'.2 k' hk1' hk2'
        rw [heq, heq']
        intro hcontra
        have h2 : p.1 < cs.length := by
          have := p.2
          omega
        have hkcs : k < (cs.get ⟨p.1, h2⟩).sizeF := by
          rw [← (hLext_canon p.1 p.2).1]
          exact hk2
        have hx := sizeFTake_lt cs p.1 p'.1 (cs.get ⟨p.1, h2⟩)
          (by exact_mod_cast hpp') (List.get?_eq_get h2)
        omega
      · intro a ha b hb k k' hk1 hk2 hk1' hk2'
        obtain ⟨⟨p, hp⟩, hpb⟩ := List.mem_iff_get.mp hb
        subst hpb
        obtain ⟨k2, heq, _, hk2a, hk2b⟩ := hLext_desc p hp k' hk1' hk2'
        rw [heq]
        exact hcross a ha _ (List.mem_singleton_self _) k k2 hk1 hk2 hk2a hk2b
    -- assemble the permutation
    rw [List.map_append] at hih
    rw [hquads] at hih
    refine hih.trans ?_
    simp only [List.map_append, List.join_append, List.map_cons, List.map_nil,
      List.join_cons, List.join_nil, List.append_nil, FTree.data_node,
      FTree.children_node]
    have hpend : Lext.map (fun q => quadL (some q.2.data.path) q.2.children) =
        cs.map (fun c => quadL (some c.data.path) c.children) := by
      rw [← hcsx, List.map_map]
      rfl
    rw [hpend]
    rw [List.append_assoc]
    refine List.Perm.append_left _ ?_
    refine List.Perm.trans ?_ (List.Perm.append_left _ (quadL_perm (some d.path) cs).symm)
    rw [← List.append_assoc, ← List.append_assoc]
    exact List.Perm.append_right _ List.perm_append_comm

mutual

theorem quadT_length : ∀ (pp : Option RPath) (t : FTree),
    (quadT pp t).length = t.sizeF
  | pp, .node d cs => by
    simp only [quadT, List.length_cons, FTree.sizeF, quadL_length (some d.path) cs]
    omega

theorem quadL_length : ∀ (pp : Option RPath) (cs : List FTree),
    (quadL pp cs).length = FTree.sizeFList cs
  | _, [] => rfl
  | pp, c :: cs => by
    simp only [quadL, List.length_append, FTree.sizeFList,
      quadT_length pp c, quadL_length pp cs]

end

theorem quadruples_length (tr : ATree) :
    (ATree.quadruples tr).length = tr.entries.length := by
  simp [ATree.quadruples]

/-- The loader's safety invariant: the tree never has more slots than
there are validly-visited cache indices, and the visited list is
duplicate-free. -/
def GuardInv (nodes : List CachedNode)
    (st : ATree × List Nat × List (Nat × Nat)) : Prop :=
  st.1.entries.length ≤
    ((st.2.1.filter (fun x => x < nodes.length)).length) ∧ st.2.1.Nodup

theorem nodup_bound (l : List Nat) (n : Nat) (hnd : l.Nodup)
    (h : ∀ x ∈ l, x < n) : l.length ≤ n := by
  have h1 : l.toFinset ⊆ Finset.range n := by
    intro x hx
    rw [Finset.mem_range]
    exact h x (List.mem_toFinset.mp hx)
  have h2 := Finset.card_le_card h1
  rw [Finset.card_range] at h2
  rwa [List.toFinset_card_of_nodup hnd] at h2

theorem loadChild_guard (nodes : List CachedNode) (pid : Nat)
    (st : ATree × List Nat × List (Nat × Nat)) (c : Nat)
    (h : GuardInv nodes st) : GuardInv nodes (loadChild nodes pid st c) := by
  obtain ⟨h1, h2⟩ := h
  unfold loadChild
  by_cases hc : c ∈ st.2.1
  · rw [if_pos hc]
    exact ⟨h1, h2⟩
  · rw [if_neg hc]
    rcases hg : nodes.get? c with _ | cached
    · refine ⟨?_, List.nodup_cons.mpr ⟨hc, h2⟩⟩
      have hcge : nodes.length ≤ c := List.get?_eq_none.mp hg
      simp only [List.filter_cons]
      rw [if_neg (by simp; omega)]
      exact h1
    · refine ⟨?_, List.nodup_cons.mpr ⟨hc, h2⟩⟩
      have hclt : c < nodes.length := by
        obtain ⟨hlt, _⟩ := List.get?_eq_some.mp hg
        exact hlt
      simp only [addChild_length, List.filter_cons]
      rw [if_pos (by simpa using hclt)]
      simp only [List.length_cons]
      omega

theorem foldl_loadChild_guard (nodes : List CachedNode) (pid : Nat) :
    ∀ (js : List Nat) (st : ATree × List Nat × List (Nat × Nat)),
      GuardInv nodes st → GuardInv nodes (js.foldl (loadChild nodes pid) st)
  | [], _, h => h
  | c :: js, st, h => by
    simp only [List.foldl_cons]
    exact foldl_loadChild_guard nodes pid js _ (loadChild_guard nodes pid st c h)

theorem loadLoop_guard (nodes : List CachedNode) :
    ∀ (fuel : Nat) (tr : ATree) (visited : List Nat)
      (queue : List (Nat × Nat)),
      GuardInv nodes (tr, visited, queue) →
      (loadLoop nodes fuel tr visited queue).entries.length ≤ nodes.length := by
  intro fuel
  induction fuel with
  | zero =>
    intro tr visited queue h
    refine le_trans h.1 (nodup_bound _ _ (List.Nodup.filter _ h.2) ?_)
    intro x hx
    have hx2 := List.mem_filter.mp hx
    simpa using hx2.2
  | succ fuel ih =>
    intro tr visited queue h
    simp only [loadLoop]
    rcases hq : queue.getLast? with _ | q
    · refine le_trans h.1 (nodup_bound _ _ (List.Nodup.filter _ h.2) ?_)
      intro x hx
      have hx2 := List.mem_filter.mp hx
      simpa using hx2.2
    · obtain ⟨ci, pn⟩ := q
      rcases hg : nodes.get? ci with _ | cached
      · simp only [hg]
        exact ih tr visited queue.dropLast h
      · simp only [hg]
        exact ih _ _ _ (foldl_loadChild_guard nodes pn cached.childIdx _ h)

/-- The single-slot tree the loader starts from: `FileTree::with_root` on
the cached root path, with the root's size, file count, hidden flag and
modified time restored (cache.rs lines 282-294). -/
def mkRootData (rc : CachedNode) : FileNode :=
  { FileNode.new rc.path true with
      size := rc.size
      fileCount := rc.fileCount
      isHidden := rc.isHidden
      modified := rc.modified }

def mkRoot (rc : CachedNode) : ATree :=
  { entries := [⟨mkRootData rc, none, []⟩], root := some 0 }

theorem mkRoot_slotPath (rc : CachedNode) :
    slotPath (mkRoot rc) 0 = some rc.path := by
  simp [mkRoot, mkRootData, slotPath, FileNode.new]

theorem mkRoot_pv (rc : CachedNode) : ParentsValid (mkRoot rc) := by
  intro e he j hj
  simp only [mkRoot, List.mem_singleton] at he
  subst he
  simp only at hj
  cases hj

theorem mkRoot_quads (rc : CachedNode) :
    ATree.quadruples (mkRoot rc) = [(rc.path, rc.size, rc.fileCount, none)] := by
  simp [mkRoot, mkRootData, ATree.quadruples, FileNode.new]

/-- C6: (a) for every tree with pairwise-distinct node paths, saving to a
cache entry and loading it back yields a tree whose multiset of
`(path, size, file_count, parent path)` quadruples is exactly the saved
tree's, with the same node count — same paths, sizes, file counts and
parent/child relation; (b) for ANY entry, even a corrupted one, the
visited-set cycle guard bounds the loaded tree by the entry's node count. -/
theorem cache_roundtrip :
    (∀ t : FTree, t.pathList.Nodup →
      ∃ t', cacheEntryToTree (treeToCacheEntry t) = some t' ∧
        (ATree.quadruples t').Perm (quadT none t) ∧
        t'.entries.length = t.sizeF) ∧
    (∀ (entry : CacheEntry) (t' : ATree), cacheEntryToTree entry = some t' →
      t'.entries.length ≤ entry.nodes.length) := by
  constructor
  · intro t hnd
    obtain ⟨d, cs⟩ := t
    have hN : SaveNodesOK (FTree.node d cs) (treeToCacheEntry (FTree.node d cs)).nodes :=
      fun j s hj => saveNodes_get (FTree.node d cs) hnd j s hj
    have hroot := save_rootIndex (FTree.node d cs) hnd
    have h0 : (FTree.node d cs).subtrees.get? 0 = some (FTree.node d cs) := rfl
    obtain ⟨cn0, hcn0, hcn0p, hcn0s, hcn0f, _⟩ := hN 0 (FTree.node d cs) h0
    have hne : (treeToCacheEntry (FTree.node d cs)).nodes ≠ [] := by
      intro h
      have h1 := saveNodes_length (FTree.node d cs)
      rw [h] at h1
      have h2 := FTree.sizeF_pos (FTree.node d cs)
      simp only [List.length_nil] at h1
      omega
    have hload : cacheEntryToTree (treeToCacheEntry (FTree.node d cs)) =
        some (loadLoop (treeToCacheEntry (FTree.node d cs)).nodes
          ((treeToCacheEntry (FTree.node d cs)).nodes.length + 1)
          (mkRoot cn0) [0] [(0, 0)]) := by
      simp only [cacheEntryToTree, hroot, hcn0, if_neg hne]
      rfl
    have hperm := loadLoop_perm (FTree.node d cs)
      (treeToCacheEntry (FTree.node d cs)).nodes hN hnd
      ((treeToCacheEntry (FTree.node d cs)).nodes.length + 1)
      [((0, 0), FTree.node d cs)] (mkRoot cn0) [0]
      ?_ ?_ ?_ (mkRoot_pv cn0) ?_ ?_
    rotate_left
    · simp only [List.map_cons, List.map_nil, List.sum_cons, List.sum_nil]
      have := saveNodes_length (FTree.node d cs)
      omega
    · intro q hq
      rw [List.mem_singleton] at hq
      subst hq
      exact h0
    · intro q hq
      rw [List.mem_singleton] at hq
      subst hq
      refine ⟨?_, by simp [mkRoot]⟩
      rw [mkRoot_slotPath, hcn0p]
    · intro q hq k hk1 hk2
      rw [List.mem_singleton] at hq
      subst hq
      simp only [List.mem_singleton]
      omega
    · exact List.pairwise_singleton _ _
    refine ⟨_, hload, ?_, ?_⟩
    · refine hperm.trans ?_
      rw [mkRoot_quads, hcn0p, hcn0s, hcn0f]
      simp only [List.map_cons, List.map_nil, List.join_cons, List.join_nil,
        List.append_nil, FTree.data_node, FTree.children_node,
        List.singleton_append]
      exact List.Perm.refl _
    · have h1 := hperm.length_eq
      rw [quadruples_length] at h1
      refine Eq.trans h1 ?_
      rw [mkRoot_quads]
      simp only [List.length_append, List.length_cons, List.length_nil,
        List.map_cons, List.map_nil, List.join_cons, List.join_nil,
        List.append_nil, FTree.data_node, FTree.children_node,
        quadL_length]
      have : (FTree.node d cs).sizeF = 1 + FTree.sizeFList cs := rfl
      omega
  · intro entry t' h
    unfold cacheEntryToTree at h
    by_cases hne : entry.nodes = []
    · rw [if_pos hne] at h
      cases h
    rw [if_neg hne] at h
    rcases hri : entry.rootIndex with _ | ri
    · simp only [hri] at h
      cases h
    simp only [hri] at h
    rcases hg : entry.nodes.get? ri with _ | rootCached
    · simp only [hg] at h
      cases h
    simp only [hg] at h
    injection h with h
    subst h
    refine loadLoop_guard entry.nodes _ _ _ _ ⟨?_, ?_⟩
    · have hrl : ri < entry.nodes.length := by
        obtain ⟨hlt, _⟩ := List.get?_eq_some.mp hg
        exact hlt
      simp only [updateAt_length, ATree.withRoot, List.length_cons,
        List.length_nil, List.filter_cons, List.filter_nil]
      rw [if_pos (by simpa using hrl)]
      simp
    · simp

/-- C6 counterexample tree: a root `/r` with two children that share the
path `/r/a`. `path_to_index` (cache.rs line 164) keeps only the last
index for a duplicated path, so both `child_indices` entries of the root
point at the same cached node. -/
def cexC6Tree : FTree :=
  FTree.node { FileNode.new [['r']] true with size := 3, fileCount := 2 }
    [FTree.node { FileNode.new [['r'], ['a']] false with size := 1 } [],
      FTree.node { FileNode.new [['r'], ['a']] false with size := 2 } []]

/-- C6 counterexample: saving `cexC6Tree` (3 nodes, two sharing a path)
and loading the entry back yields a tree with only 2 entries — the
visited set drops the repeated child index — so the loaded tree is not
structurally equal to the saved one and the claim needs a distinct-paths
precondition. -/
theorem cexC6_duplicate_path_loses_node :
    (cacheEntryToTree (treeToCacheEntry cexC6Tree)).map
        (fun t' => t'.entries.length) = some 2 ∧
    cexC6Tree.sizeF = 3 := by
  decide

/-- Concrete instantiation for the C6 witness: a root with one file, all
paths distinct. -/
def wC6Tree : FTree :=
  FTree.node { FileNode.new [['w']] true with size := 4, fileCount := 1 }
    [FTree.node { FileNode.new [['w'], ['a']] false with size := 4 } []]

/-- Witness for `cache_roundtrip` at `wC6Tree`: its paths are distinct,
and save-then-load returns a tree with the same quadruple multiset and
node count. -/
theorem cache_roundtrip_witness :
    wC6Tree.pathList.Nodup ∧
    ∃ t', cacheEntryToTree (treeToCacheEntry wC6Tree) = some t' ∧
      (ATree.quadruples t').Perm (quadT none wC6Tree) ∧
      t'.entries.length = wC6Tree.sizeF :=
  ⟨by decide, cache_roundtrip.1 wC6Tree (by decide)⟩
